import Mathlib

/-!
# goxiaoy/vfs: mount table, path trie and open-handle reference counting

A shallow embedding of `src/pkg/trie/trie.go`, `src/vfs.go`, `src/vfs_fs.go` and
`src/fs.go`.

* Go strings are byte sequences; they are modelled as `List Char`.
* Go pointers to `MountPoint` objects are indices into an explicit heap.
* A Go `map[string]*PathTrie` is an association list with unique keys.
* `int32` arithmetic is `Int` arithmetic wrapped to 32 bits.
-/

set_option autoImplicit false

/-- A Go string. -/
abbrev Str := List Char

/-! ## Go standard library: `strings` and `path` -/

/-- Go `strings.HasPrefix`. -/
def HasPrefix : Str → Str → Bool
  | _, [] => true
  | [], _ :: _ => false
  | c :: s, d :: p => c == d && HasPrefix s p

/-- Go `strings.TrimPrefix`: `s` without the leading `p`, or `s` itself when `s` does not
start with `p`. -/
def TrimPrefix (s p : Str) : Str :=
  if HasPrefix s p then s.drop p.length else s

/-- Go `strings.IndexRune`: the index of the first `c` in `s`, or `-1`. -/
def IndexRune : Str → Char → Int
  | [], _ => -1
  | x :: xs, c =>
    if x = c then 0
    else if IndexRune xs c = -1 then -1 else IndexRune xs c + 1

/-- The test `c != '/'`. -/
def notSlash (c : Char) : Bool := !(c == '/')

/-- The inner loop of the `..` case of `path.Clean`, entered after `out.w--`:
`for out.w > dotdot && out.index(out.w) != '/' { out.w-- }`.
The buffer is kept in reverse, `c` is the byte at index `out.w` (the one dropped last). -/
def cleanBack (dotdot : Nat) : Char → Str → Str
  | _, [] => []
  | c, c2 :: out2 =>
    if (c2 :: out2).length > dotdot ∧ c ≠ '/' then cleanBack dotdot c2 out2 else c2 :: out2

/-- The main loop of Go `path.Clean`. `rest` is `path[r:]`, `out` is the write buffer
`out.buf[:out.w]` in reverse order, `dotdot` is the index below which the buffer may not be
backtracked. Every iteration consumes at least one byte of `rest`. -/
def cleanLoop (rooted : Bool) : Nat → Str → Str → Nat → Str
  | 0, _, out, _ => out
  | _ + 1, [], out, _ => out
  | fuel + 1, c :: t, out, dotdot =>
    if c = '/' then
      -- empty path element
      cleanLoop rooted fuel t out dotdot
    else if c = '.' ∧ (t = [] ∨ t.head? = some '/') then
      -- . element
      cleanLoop rooted fuel t out dotdot
    else if c = '.' ∧ t.head? = some '.' ∧ (t.tail = [] ∨ t.tail.head? = some '/') then
      -- .. element: remove to last /
      if out.length > dotdot then
        -- can backtrack
        match out with
        | [] => cleanLoop rooted fuel t.tail [] dotdot
        | x :: o => cleanLoop rooted fuel t.tail (cleanBack dotdot x o) dotdot
      else if rooted = false then
        -- cannot backtrack, but not rooted, so append .. element
        let out1 := if out.length > 0 then '/' :: out else out
        cleanLoop rooted fuel t.tail ('.' :: '.' :: out1) ('.' :: '.' :: out1).length
      else
        cleanLoop rooted fuel t.tail out dotdot
    else
      -- real path element: add slash if needed, then copy the element
      let out1 :=
        if (rooted = true ∧ out.length ≠ 1) ∨ (rooted = false ∧ out.length ≠ 0) then '/' :: out
        else out
      cleanLoop rooted fuel ((c :: t).dropWhile notSlash)
        (((c :: t).takeWhile notSlash).reverse ++ out1) dotdot

/-- Go `path.Clean`: the shortest path name equivalent to `path` by purely lexical
processing. -/
def Clean (path : Str) : Str :=
  match path with
  | [] => ['.']
  | c :: t =>
    let out :=
      if c = '/' then cleanLoop true (c :: t).length t ['/'] 1
      else cleanLoop false (c :: t).length (c :: t) [] 0
    if out.length = 0 then ['.'] else out.reverse

/-- The buffer that Go `path.Join` builds before cleaning it: the elements separated by
slashes, leading empty elements skipped. -/
def joinBuf : Str → List Str → Str
  | buf, [] => buf
  | buf, e :: es =>
    if buf.length > 0 ∨ e ≠ [] then
      joinBuf ((if buf.length > 0 then buf ++ ['/'] else buf) ++ e) es
    else joinBuf buf es

/-- Go `path.Join`. -/
def Join (elems : List Str) : Str :=
  if (elems.map List.length).sum = 0 then [] else Clean (joinBuf [] elems)

/-- Go `filepath.ToSlash` where the path separator is the forward slash. -/
def ToSlash (name : Str) : Str := name

/-! ## `pkg/trie`: the path trie -/

/-- Modelled from the spec: the segmenter functions (`StringSegmenter`, `PathSegmenter`,
`PathSegmenter2`) are declared in a file of `pkg/trie` that is missing. A segmenter is called
as `segmenter(key, start)` and returns the next segment and the index to continue from; the
segment is empty when the key is exhausted and the index is `-1` after the last segment.
Keys are segmented at forward slashes, each segment keeping its leading slash:
`"/a/b/c"` gives `"/a"`, `"/b"`, `"/c"`. -/
def PathSegmenter (path : Str) (start : Int) : Str × Int :=
  if path.length = 0 ∨ start < 0 ∨ start > (path.length : Int) - 1 then ([], -1)
  else
    let e := IndexRune (path.drop (start.toNat + 1)) '/'
    if e = -1 then (path.drop start.toNat, -1)
    else ((path.drop start.toNat).take (e.toNat + 1), start + e + 1)

/-- Modelled from the spec: `PathSegmenter2`, the segmenter of the mount table, is declared
in the missing file as well; it is the slash segmentation above. -/
def PathSegmenter2 (path : Str) (start : Int) : Str × Int := PathSegmenter path start

/-- Go `PathTrie[T]`: a node holds a value, the flag `hasValue` and its children by segment.
The `segmenter` field is the same in every node of a trie and is passed to the operations. -/
inductive PathTrie (T : Type) where
  | mk (value : T) (hasValue : Bool) (children : List (Str × PathTrie T)) : PathTrie T

namespace PathTrie

variable {T : Type}

def value : PathTrie T → T
  | mk v _ _ => v

def hasValue : PathTrie T → Bool
  | mk _ h _ => h

def children : PathTrie T → List (Str × PathTrie T)
  | mk _ _ cs => cs

/-- A fresh node: zero value, no children (`NewPathTrieWithConfig`, `newPathTrie`). -/
def newPathTrie [Inhabited T] : PathTrie T := mk default false []

instance [Inhabited T] : Inhabited (PathTrie T) := ⟨newPathTrie⟩

def setValue (trie : PathTrie T) (v : T) : PathTrie T :=
  mk v true trie.children

def clearValue [Inhabited T] (trie : PathTrie T) : PathTrie T :=
  mk default false trie.children

def isLeaf (trie : PathTrie T) : Bool :=
  trie.children.length == 0

/-- Map read `children[part]`. -/
def childAt : List (Str × PathTrie T) → Str → Option (PathTrie T)
  | [], _ => none
  | (p, c) :: rest, part => if p = part then some c else childAt rest part

/-- Map write `children[part] = child`. -/
def setChild : List (Str × PathTrie T) → Str → PathTrie T → List (Str × PathTrie T)
  | [], part, child => [(part, child)]
  | (p, c) :: rest, part, child =>
    if p = part then (p, child) :: rest else (p, c) :: setChild rest part child

/-- Map delete `delete(children, part)`. -/
def delChild : List (Str × PathTrie T) → Str → List (Str × PathTrie T)
  | [], _ => []
  | (p, c) :: rest, part => if p = part then rest else (p, c) :: delChild rest part

/-- The loop of `Get`: descend while the segment is a child; `pre` is the last node reached
and `pfx` the segments followed. -/
def getLoop (seg : Str → Int → Str × Int) (key : Str) :
    Nat → Str → Int → PathTrie T → Option (PathTrie T) → List Str →
      Option (PathTrie T) × List Str
  | 0, _, _, _, pre, pfx => (pre, pfx)
  | fuel + 1, part, i, node, pre, pfx =>
    if part = [] then (pre, pfx)
    else
      match childAt node.children part with
      | none => (pre, pfx)
      | some child =>
        getLoop seg key fuel (seg key i).1 (seg key i).2 child (some child) (pfx ++ [part])

/-- Go `PathTrie.Get`: the value of the deepest node reached along `key` and the rest of the
key. -/
def Get [Inhabited T] (seg : Str → Int → Str × Int) (trie : PathTrie T) (key : Str) : T × Str :=
  match getLoop seg key (key.length + 1) (seg key 0).1 (seg key 0).2 trie none [] with
  | (none, _) => (default, [])
  | (some pre, pfx) => (pre.value, TrimPrefix (TrimPrefix key (Join pfx)) ['/'])

/-- The loop of `Put`, rebuilding the nodes on the way back. -/
def putLoop [Inhabited T] (seg : Str → Int → Str × Int) (key : Str) (v : T) :
    Nat → Str → Int → PathTrie T → PathTrie T × Bool
  | 0, _, _, node => (node.setValue v, !node.hasValue)
  | fuel + 1, part, i, node =>
    if part = [] then (node.setValue v, !node.hasValue)
    else
      -- the child at `part`, created when missing
      let child := (childAt node.children part).getD newPathTrie
      let r := putLoop seg key v fuel (seg key i).1 (seg key i).2 child
      (mk node.value node.hasValue (setChild node.children part r.1), r.2)

/-- Go `PathTrie.Put`: the trie after the call and whether the key held no value before. -/
def Put [Inhabited T] (seg : Str → Int → Str × Int) (trie : PathTrie T) (key : Str) (v : T) :
    PathTrie T × Bool :=
  putLoop seg key v (key.length + 1) (seg key 0).1 (seg key 0).2 trie

/-- The two loops of `Delete`. The result is `none` when a segment is missing (`return false`);
otherwise the rebuilt node and whether the backward loop goes on to unlink this node from its
parent. -/
def deleteLoop [Inhabited T] (seg : Str → Int → Str × Int) (key : Str) :
    Nat → Str → Int → PathTrie T → Option (PathTrie T × Bool)
  | 0, _, _, node => some (node.clearValue, node.clearValue.isLeaf)
  | fuel + 1, part, i, node =>
    if part = [] then some (node.clearValue, node.clearValue.isLeaf)
    else
      match childAt node.children part with
      | none => none
      | some child =>
        match deleteLoop seg key fuel (seg key i).1 (seg key i).2 child with
        | none => none
        | some (child1, unlink) =>
          if unlink then
            let cs := delChild node.children part
            some (mk node.value node.hasValue cs, cs.length == 0 && !node.hasValue)
          else
            some (mk node.value node.hasValue (setChild node.children part child1), false)

/-- Go `PathTrie.Delete`: the trie after the call and whether a node was found for the key. -/
def Delete [Inhabited T] (seg : Str → Int → Str × Int) (trie : PathTrie T) (key : Str) :
    PathTrie T × Bool :=
  match deleteLoop seg key (key.length + 1) (seg key 0).1 (seg key 0).2 trie with
  | none => (trie, false)
  | some (t, _) => (t, true)

mutual
/-- Go `PathTrie.walk`. The walker updates the state `σ` of its closure and returns `true`
for a non-nil error, which aborts the walk. Children are visited in the order of the list. -/
def walk {σ : Type} (walker : Str → T → σ → σ × Bool) : PathTrie T → Str → σ → σ × Bool
  | mk v h cs, key, s =>
    if h then
      if (walker key v s).2 then ((walker key v s).1, true)
      else walkChildren walker cs key (walker key v s).1
    else walkChildren walker cs key s
/-- The `for part, child := range trie.children` loop of `walk`. -/
def walkChildren {σ : Type} (walker : Str → T → σ → σ × Bool) :
    List (Str × PathTrie T) → Str → σ → σ × Bool
  | [], _, s => (s, false)
  | (part, child) :: rest, key, s =>
    if (walk walker child (key ++ part) s).2 then ((walk walker child (key ++ part) s).1, true)
    else walkChildren walker rest key (walk walker child (key ++ part) s).1
end

/-- Go `PathTrie.Walk`. -/
def Walk {σ : Type} (trie : PathTrie T) (walker : Str → T → σ → σ × Bool) (s : σ) : σ × Bool :=
  walk walker trie [] s

end PathTrie

/-! ## `vfs.go`, `vfs_fs.go`, `fs.go`: the router -/

/-- An `afero.Fs` interface value that is not nil: the router itself (the `*Vfs` the method
is called on); some other filesystem that Go can compare with every filesystem (a pointer, as
`afero.NewMemMapFs()` returns), identified by a number; or a filesystem of the class `ty` that
Go cannot compare with a filesystem of the same class: its dynamic type is not comparable, or
it holds a value of such a type in a field, as `afero.FromIOFS{FS: fstest.MapFS{}}` does. The
derived equality is the equality of these terms; what Go's `==` does with two interface values
is `FS.eq`. -/
inductive FS where
  | router : FS
  | backend (id : Nat) : FS
  | uncomparable (ty : Nat) (id : Nat) : FS
  deriving DecidableEq, Repr

/-- Whether Go can compare the filesystem with every filesystem. -/
def FS.comparable : FS → Bool
  | FS.uncomparable _ _ => false
  | _ => true

/-- Go `a == b` for two interface values that are not nil: false when the dynamic types
differ, a run-time panic (`none`) when the two are of one class that is not comparable, and
otherwise whether the two are the same. -/
def FS.eq (a b : FS) : Option Bool :=
  match a, b with
  | FS.uncomparable s _, FS.uncomparable t _ => if s = t then none else some false
  | _, _ => some (decide (a = b))

/-- The error values the router produces, and errors passed through from a backend. -/
inductive Errno where
  | EINVAL | ENOENT | EBUSY | EMFILE | ENOTSUP | ENOTDIR
  | ErrRecursive | ErrNotSupported
  | backendErr (code : Nat)
  deriving DecidableEq, Repr

/-- Go `fs.PathError`. -/
structure PathError where
  Op : String
  Path : Str
  Err : Errno
  deriving DecidableEq, Repr

/-- Go `MountPoint`; the field `mountPrefix` is the source's `prefix`. -/
structure MountPoint where
  mountPrefix : Str
  fS : FS
  openCount : Int
  deriving DecidableEq, Repr

instance : Inhabited MountPoint := ⟨⟨[], FS.router, 0⟩⟩

/-- Go `Vfs` with `mtab.mounts`. A `*MountPoint` is `none` for nil or the index of the object
in `heap`, which holds every `MountPoint` allocated so far (objects stay alive while a closure
refers to them, also after their mount is gone). The lock `mtab.mu` is not modelled: the
operations run one at a time. -/
structure Vfs where
  mounts : PathTrie (Option Nat)
  heap : List MountPoint

/-- Wrap an integer to the range of Go `int32`. -/
def int32 (x : Int) : Int := (x + 2147483648) % 4294967296 - 2147483648

/-- Read `*mp` for a pointer that is not nil. -/
def load (heap : List MountPoint) (mp : Nat) : MountPoint := heap.getD mp default

/-- Go `atomic.AddInt32(&mp.openCount, delta)`: the heap after the call and the new value. -/
def AddInt32 (heap : List MountPoint) (mp : Nat) (delta : Int) : List MountPoint × Int :=
  (heap.modify (fun m => { m with openCount := int32 (m.openCount + delta) }) mp,
    int32 ((load heap mp).openCount + delta))

/-- Go `New`. -/
def New : Vfs := ⟨PathTrie.newPathTrie, []⟩

namespace Vfs

/-- Go `Vfs.Mount`: the router after the call and the error returned (`none` for nil). -/
def Mount (v : Vfs) (pfx : Str) (fsys : Option FS) : Vfs × Option PathError :=
  match fsys with
  | none => (v, some ⟨"mount", pfx, Errno.EINVAL⟩)
  | some f =>
    if pfx = [] ∨ pfx.head? ≠ some '/' then (v, some ⟨"mount", pfx, Errno.EINVAL⟩)
    else if f = FS.router then (v, some ⟨"mount", pfx, Errno.ErrRecursive⟩)
    else
      ({ mounts := (v.mounts.Put PathSegmenter2 (Clean pfx) (some v.heap.length)).1,
         heap := v.heap ++ [⟨Clean pfx, f, 0⟩] }, none)

/-- The variables the first walker of `Unmount` assigns, and whether it panicked: it
dereferenced nil, or compared two filesystems that Go cannot compare. -/
structure Scan where
  remove : Str
  fsys : Option FS
  panicked : Bool

/-- The first walker of `Unmount`. The test `mp.fS == fsys` is made only when the test of the
prefix holds and `fsys` is not nil. -/
def unmountWalker (heap : List MountPoint) (pfx : Str) (key : Str) (value : Option Nat)
    (s : Scan) : Scan × Bool :=
  match value with
  | none => ({ s with panicked := true }, true)
  | some p =>
    if pfx = ['.'] ∨ (load heap p).mountPrefix = pfx then
      match s.fsys with
      | none => (⟨key, some (load heap p).fS, s.panicked⟩, true)
      | some f =>
        match (load heap p).fS.eq f with
        | none => ({ s with panicked := true }, true)
        | some true => (⟨key, some (load heap p).fS, s.panicked⟩, true)
        | some false => (s, false)
    else (s, false)

/-- The second walker of `Unmount`: `fsys` becomes nil when a mount of it is left. The flag
is set when the walker panics: it dereferences nil, or `value.fS == fsys` compares two
filesystems that Go cannot compare. -/
def stillMountedWalker (heap : List MountPoint) (_key : Str) (value : Option Nat)
    (s : Option FS × Bool) : (Option FS × Bool) × Bool :=
  match value with
  | none => ((s.1, true), true)
  | some p =>
    match s.1 with
    | none => (s, false)
    | some f =>
      match (load heap p).fS.eq f with
      | none => ((s.1, true), true)
      | some true => ((none, s.2), true)
      | some false => (s, false)

/-- Go `Vfs.Unmount`. `syncOf f` is `none` when `f` has no `Sync` method and otherwise the
result of calling it. The result is `none` when the call panics: it dereferences a nil
pointer, or compares two filesystems that Go cannot compare. -/
def Unmount (v : Vfs) (syncOf : FS → Option (Option Errno)) (pfx : Str) (fsys : Option FS) :
    Option (Vfs × Option PathError) :=
  if pfx = [] ∧ fsys = none then some (v, some ⟨"unmount", pfx, Errno.ENOENT⟩)
  else
    let found := (v.mounts.Walk (unmountWalker v.heap (Clean pfx)) ⟨[], fsys, false⟩).1
    if found.panicked then none
    else if found.remove.length = 0 then
      some (v, some ⟨"unmount", Clean pfx, Errno.ENOENT⟩)
    else
      match (v.mounts.Get PathSegmenter2 found.remove).1 with
      | none => none
      | some mp =>
        if (load v.heap mp).openCount ≠ 0 then
          some (v, some ⟨"unmount", Clean pfx, Errno.EBUSY⟩)
        else
          let v1 : Vfs := { v with mounts := (v.mounts.Delete PathSegmenter2 found.remove).1 }
          -- close the fsys if it has no another mount point
          let left := (v1.mounts.Walk (stillMountedWalker v1.heap) (found.fsys, false)).1
          if left.2 then none
          else
            match left.1 with
            | none => some (v1, none)
            | some f =>
              match syncOf f with
              | some (some e) => some (v1, some ⟨"unmount", Clean pfx, e⟩)
              | _ => some (v1, none)

/-- The first walk of `Unmount`: what it leaves in `remove` and `fsys`, and whether it
panicked. -/
def unmountScan (v : Vfs) (pfx : Str) (fsys : Option FS) : Scan :=
  (v.mounts.Walk (unmountWalker v.heap (Clean pfx)) ⟨[], fsys, false⟩).1

/-- The list the walker of `Mounts` builds. -/
def Mounts (v : Vfs) : List (Option Nat) :=
  (v.mounts.Walk (fun _ value (l : List (Option Nat)) => (l ++ [value], false)) []).1

/-- Go `Vfs.findMountPoint`: mount point, backend and the path below the mount. -/
def findMountPoint (v : Vfs) (name : Str) : Option Nat × Option FS × Str :=
  let name1 := ToSlash (Clean name)
  match v.mounts.Get PathSegmenter2 name1 with
  | (none, unrooted) =>
    match (v.mounts.Get PathSegmenter2 ['/']).1 with
    | some mpRoot => (some mpRoot, some (load v.heap mpRoot).fS, TrimPrefix name1 ['/'])
    | none => (none, none, unrooted)
  | (some mp, unrooted) => (some mp, some (load v.heap mp).fS, unrooted)

end Vfs

/-- Go `MountPoint.closed`: the heap after the decrement, `none` for
`panic("open count < 0")`. -/
def MountPoint.closed (heap : List MountPoint) (mp : Nat) : Option (List MountPoint) :=
  if (AddInt32 heap mp (-1)).2 < 0 then none else some (AddInt32 heap mp (-1)).1

/-- Go `fileWrapper`: the backend's file and the function `closed`, which is nil or the
method value `mp.closed` of a mount point. -/
structure fileWrapper where
  File : Nat
  closed : Option Nat
  deriving DecidableEq, Repr

/-- Go `newFileWrapper`. -/
def newFileWrapper (f : Nat) (closed : Option Nat) : fileWrapper := ⟨f, closed⟩

/-- Go `fileWrapper.Close`, declared with the value receiver `(f fileWrapper)`: the method
runs on a copy `f` of the wrapper the caller holds. `fileClose` is the result of
`f.File.Close()`. The result is `none` when `closed` panics, otherwise the heap, the
receiver copy as the deferred function leaves it, and the error returned. The wrapper held by
the caller is not changed by the call. -/
def fileWrapper.Close (f : fileWrapper) (heap : List MountPoint) (fileClose : Option Errno) :
    Option (List MountPoint × fileWrapper × Option Errno) :=
  match f.closed with
  | some mp =>
    match MountPoint.closed heap mp with
    | none => none
    | some heap1 => some (heap1, { f with closed := none }, fileClose)
  | none => some (heap, { f with closed := none }, fileClose)

namespace Vfs

/-- Go `Vfs.Open` (and `Vfs.OpenFile`, which differs only in the backend method called).
`backendOpen` is the answer of `fsys.Open(unrooted)`: a file or an error. -/
def Open (v : Vfs) (backendOpen : FS → Str → Except Errno Nat) (name : Str) :
    Vfs × Except Errno fileWrapper :=
  match v.findMountPoint name with
  | (some mp, fsys, unrooted) =>
    if (AddInt32 v.heap mp 1).2 < 0 then
      ({ v with heap := (AddInt32 (AddInt32 v.heap mp 1).1 mp (-1)).1 }, Except.error Errno.EMFILE)
    else
      match fsys with
      | none => ({ v with heap := (AddInt32 v.heap mp 1).1 }, Except.error Errno.ENOENT)
      | some f =>
        match backendOpen f unrooted with
        | Except.error e => ({ v with heap := (AddInt32 v.heap mp 1).1 }, Except.error e)
        | Except.ok file =>
          ({ v with heap := (AddInt32 v.heap mp 1).1 }, Except.ok (newFileWrapper file (some mp)))
  | (none, _, _) => (v, Except.error Errno.ENOENT)

/-- Go `Vfs.OpenFile`: the same steps as `Open` with `fsys.OpenFile(unrooted, flag, perm)` as
the backend call. -/
def OpenFile (v : Vfs) (backendOpenFile : FS → Str → Except Errno Nat) (name : Str) :
    Vfs × Except Errno fileWrapper :=
  Open v backendOpenFile name

end Vfs

/-- A Go `error` value that is not nil: a bare `syscall.Errno` (or an error passed through
from a backend as it is), or a `*fs.PathError`. -/
inductive GoError where
  | errno (e : Errno)
  | pathError (e : PathError)
  deriving DecidableEq, Repr

/-- The path an error value carries, if it carries one. -/
def GoError.path : GoError → Option Str
  | GoError.errno _ => none
  | GoError.pathError e => some e.Path

/-- A call the router makes on a backend, with its arguments. -/
inductive BackendCall where
  | Rename (fsys : FS) (oldname newname : Str)
  | Sync (fsys : FS)
  deriving DecidableEq, Repr

namespace Vfs

/-- Go `Vfs.Unmount` once more, with the calls of `Sync` it makes recorded. `hasSync f` says
whether `f` has a `Sync` method and `syncResult f` is what the method returns. The result is
`none` when the call panics. -/
def UnmountSync (v : Vfs) (hasSync : FS → Bool) (syncResult : FS → Option Errno) (pfx : Str)
    (fsys : Option FS) : Option (Vfs × Option PathError × List BackendCall) :=
  if pfx = [] ∧ fsys = none then some (v, some ⟨"unmount", pfx, Errno.ENOENT⟩, [])
  else
    let found := (v.mounts.Walk (unmountWalker v.heap (Clean pfx)) ⟨[], fsys, false⟩).1
    if found.panicked then none
    else if found.remove.length = 0 then
      some (v, some ⟨"unmount", Clean pfx, Errno.ENOENT⟩, [])
    else
      match (v.mounts.Get PathSegmenter2 found.remove).1 with
      | none => none
      | some mp =>
        if (load v.heap mp).openCount ≠ 0 then
          some (v, some ⟨"unmount", Clean pfx, Errno.EBUSY⟩, [])
        else
          let v1 : Vfs := { v with mounts := (v.mounts.Delete PathSegmenter2 found.remove).1 }
          -- close the fsys if it has no another mount point
          let left := (v1.mounts.Walk (stillMountedWalker v1.heap) (found.fsys, false)).1
          if left.2 then none
          else
            match left.1 with
            | none => some (v1, none, [])
            | some f =>
              if hasSync f then
                match syncResult f with
                | some e => some (v1, some ⟨"unmount", Clean pfx, e⟩, [BackendCall.Sync f])
                | none => some (v1, none, [BackendCall.Sync f])
              else some (v1, none, [])

/-- Go `Vfs.Create`. The file of the backend is returned as it is, without a wrapper; the
router is not written to. -/
def Create (v : Vfs) (backendCreate : FS → Str → Except Errno Nat) (name : Str) :
    Vfs × Except GoError Nat :=
  match v.findMountPoint name with
  | (_, none, _) => (v, Except.error (GoError.errno Errno.ENOENT))
  | (_, some f, unrooted) =>
    match backendCreate f unrooted with
    | Except.error e => (v, Except.error (GoError.errno e))
    | Except.ok file => (v, Except.ok file)

/-- Go `Vfs.Mkdir`: both failures leave through the label `error`, which wraps them. -/
def Mkdir (v : Vfs) (backendMkdir : FS → Str → Option Errno) (name : Str) : Option GoError :=
  match v.findMountPoint name with
  | (_, none, _) => some (GoError.pathError ⟨"mkdir", name, Errno.ENOENT⟩)
  | (_, some f, unrooted) =>
    match backendMkdir f unrooted with
    | some e => some (GoError.pathError ⟨"mkdir", name, e⟩)
    | none => none

/-- Go `Vfs.Remove`. -/
def Remove (v : Vfs) (backendRemove : FS → Str → Option Errno) (name : Str) : Option GoError :=
  match v.findMountPoint name with
  | (_, none, _) => some (GoError.errno Errno.ENOENT)
  | (_, some f, unrooted) => (backendRemove f unrooted).map GoError.errno

/-- Go `Vfs.RemoveAll`. -/
def RemoveAll (v : Vfs) (backendRemoveAll : FS → Str → Option Errno) (path : Str) :
    Option GoError :=
  match v.findMountPoint path with
  | (_, none, _) => some (GoError.errno Errno.ENOENT)
  | (_, some f, unrooted) => (backendRemoveAll f unrooted).map GoError.errno

/-- Go `Vfs.Rename`: the error returned and the calls made on backends; `none` when
`oldfs == newfs` panics. -/
def Rename (v : Vfs) (backendRename : FS → Str → Str → Option Errno) (oldname newname : Str) :
    Option (Option GoError × List BackendCall) :=
  match v.findMountPoint oldname, v.findMountPoint newname with
  | (_, oldfs, oldunrooted), (_, newfs, newunrooted) =>
    match oldfs, newfs with
    | some o, some n =>
      match o.eq n with
      | none => none
      | some true =>
        some ((backendRename o oldunrooted newunrooted).map GoError.errno,
          [BackendCall.Rename o oldunrooted newunrooted])
      | some false =>
        -- unsupported operation
        some (some (GoError.errno Errno.ENOTSUP), [])
    | _, _ => some (some (GoError.errno Errno.ENOENT), [])

/-- Go `Vfs.Stat`. -/
def Stat (v : Vfs) (backendStat : FS → Str → Except Errno Nat) (name : Str) :
    Except GoError Nat :=
  match v.findMountPoint name with
  | (_, none, _) => Except.error (GoError.errno Errno.ENOENT)
  | (_, some f, unrooted) =>
    match backendStat f unrooted with
    | Except.error e => Except.error (GoError.errno e)
    | Except.ok info => Except.ok info

/-- Go `Vfs.Chmod`. -/
def Chmod (v : Vfs) (backendChmod : FS → Str → Option Errno) (name : Str) : Option GoError :=
  match v.findMountPoint name with
  | (_, none, _) => some (GoError.errno Errno.ENOENT)
  | (_, some f, unrooted) => (backendChmod f unrooted).map GoError.errno

/-- Go `Vfs.Chown`. -/
def Chown (v : Vfs) (backendChown : FS → Str → Option Errno) (name : Str) : Option GoError :=
  match v.findMountPoint name with
  | (_, none, _) => some (GoError.errno Errno.ENOENT)
  | (_, some f, unrooted) => (backendChown f unrooted).map GoError.errno

/-- Go `Vfs.Chtimes`. -/
def Chtimes (v : Vfs) (backendChtimes : FS → Str → Option Errno) (name : Str) : Option GoError :=
  match v.findMountPoint name with
  | (_, none, _) => some (GoError.errno Errno.ENOENT)
  | (_, some f, unrooted) => (backendChtimes f unrooted).map GoError.errno

end Vfs

namespace Vfs

/-- Go `Vfs.Mkdir` once more, on backends that have a state `b`: `backendMkdir b f name` is
the state after `f.Mkdir(name, perm)` and the error it returns. -/
def MkdirIn {β : Type} (v : Vfs) (backendMkdir : β → FS → Str → β × Option Errno) (b : β)
    (name : Str) : β × Option GoError :=
  match v.findMountPoint name with
  | (_, none, _) => (b, some (GoError.pathError ⟨"mkdir", name, Errno.ENOENT⟩))
  | (_, some f, unrooted) =>
    match backendMkdir b f unrooted with
    | (b1, some e) => (b1, some (GoError.pathError ⟨"mkdir", name, e⟩))
    | (b1, none) => (b1, none)

/-- The loop `for i > 0 && os.IsPathSeparator(p[i-1]) { i-- }` of `MkdirAll`, where the path
separator is the forward slash. -/
def skipSeparators (p : Str) : Nat → Nat
  | 0 => 0
  | i + 1 => if p.get? i = some '/' then skipSeparators p i else i + 1

/-- The loop `for j > 0 && !os.IsPathSeparator(p[j-1]) { j-- }` of `MkdirAll`. -/
def scanElement (p : Str) : Nat → Nat
  | 0 => 0
  | j + 1 => if p.get? j ≠ some '/' then scanElement p j else j + 1

/-- The recursion of Go `Vfs.MkdirAll`. `b` is the state of the backends, `backendStat b` and
`backendMkdir b` are the answers they give in that state, `isDir` is the method `IsDir` of the
`os.FileInfo` that `Stat` returns. The result is the state of the backends, the error returned
and the paths `v.Mkdir` was called with, in order; it is `none` when the fuel runs out. -/
def mkdirAllRec {β : Type} (v : Vfs) (backendStat : β → FS → Str → Except Errno Nat)
    (isDir : Nat → Bool) (backendMkdir : β → FS → Str → β × Option Errno) :
    Nat → β → Str → Option (β × Option GoError × List Str)
  | 0, _, _ => none
  | fuel + 1, b, p =>
    -- Fast path: if we can tell whether path is a directory or file, stop with success or error.
    match v.Stat (backendStat b) (Clean p) with
    | Except.ok dir =>
      if isDir dir then some (b, none, [])
      else some (b, some (GoError.pathError ⟨"mkdir", Clean p, Errno.ENOTDIR⟩), [])
    | Except.error _ =>
      -- Slow path: make sure parent exists and then call Mkdir for path.
      if scanElement (Clean p) (skipSeparators (Clean p) (Clean p).length) > 1 then
        match mkdirAllRec v backendStat isDir backendMkdir fuel b
            ((Clean p).take (scanElement (Clean p) (skipSeparators (Clean p) (Clean p).length) - 1)) with
        | none => none
        | some (b1, some err, calls) => some (b1, some err, calls)
        | some (b1, none, calls) =>
          some ((v.MkdirIn backendMkdir b1 (Clean p)).1, (v.MkdirIn backendMkdir b1 (Clean p)).2,
            calls ++ [Clean p])
      else
        some ((v.MkdirIn backendMkdir b (Clean p)).1, (v.MkdirIn backendMkdir b (Clean p)).2,
          [Clean p])

/-- Go `Vfs.MkdirAll`: every recursive call is made on a shorter path. -/
def MkdirAll {β : Type} (v : Vfs) (backendStat : β → FS → Str → Except Errno Nat)
    (isDir : Nat → Bool) (backendMkdir : β → FS → Str → β × Option Errno) (b : β) (p : Str) :
    Option (β × Option GoError × List Str) :=
  mkdirAllRec v backendStat isDir backendMkdir ((Clean p).length + 1) b p

end Vfs

/-! ## `optlinker.go` -/

/-- Go `url.URL`: the field `Path` and the other fields. -/
structure URL where
  Scheme : Str
  Host : Str
  Path : Str
  deriving DecidableEq, Repr

/-- Go `Link`; the fields other than `URL` keep their zero values here. -/
structure Link where
  URL : Str
  deriving DecidableEq, Repr

/-- Go `OptLinker`: the two access URLs (the wrapped `FS` and the token validator are not used
by `PublicUrl` and `InternalUrl`). -/
structure OptLinker where
  publicAccessUrl : URL
  internalAccessUrl : URL
  deriving DecidableEq, Repr

/-- The assignment `res.URL = s` through the pointer `res`: `none` is the nil pointer
dereference, otherwise the object pointed to after the assignment. -/
def Link.setURL (res : Option Link) (s : Str) : Option Link :=
  match res with
  | none => none
  | some l => some { l with URL := s }

namespace OptLinker

/-- Go `OptLinker.PublicUrl`; `urlString` is the method `String` of `url.URL`. The result is
`none` for a panic and otherwise the pair `(res, err)` returned. -/
def PublicUrl (o : OptLinker) (urlString : URL → Str) (name : Str) :
    Option (Option Link × Option GoError) :=
  let url : URL := { o.publicAccessUrl with Path := Join [o.publicAccessUrl.Path, name] }
  -- res = &Link{}
  let res : Option Link := some ⟨[]⟩
  match Link.setURL res (urlString url) with
  | none => none
  | some l => some (some l, none)

/-- Go `OptLinker.InternalUrl`: the named result `res` is nil when `res.URL` is assigned. -/
def InternalUrl (o : OptLinker) (urlString : URL → Str) (name : Str) :
    Option (Option Link × Option GoError) :=
  let url : URL := { o.internalAccessUrl with Path := Join [o.internalAccessUrl.Path, name] }
  let res : Option Link := none
  match Link.setURL res (urlString url) with
  | none => none
  | some l => some (some l, none)

end OptLinker

/-! ## Specification-level views used in the proofs -/

/-- The segments of a key: a segment starts at the first byte and at every slash after it. -/
def segList : Str → List Str
  | [] => []
  | c :: t =>
    match segList t with
    | [] => [[c]]
    | s :: ss => if t.head? = some '/' then [c] :: s :: ss else (c :: s) :: ss

/-- What `PathSegmenter` returns when called at the start of the suffix `s` of the key. -/
def nextSeg (pre s : Str) : Str × Int :=
  match s with
  | [] => ([], -1)
  | c :: t =>
    (c :: t.takeWhile notSlash,
      if t.dropWhile notSlash = [] then -1
      else (pre.length : Int) + 1 + (t.takeWhile notSlash).length)

namespace PathTrie
variable {T : Type}

/-- `getLoop` along a list of segments. -/
def getSegs : List Str → PathTrie T → Option (PathTrie T) → List Str →
    Option (PathTrie T) × List Str
  | [], _, pre, pfx => (pre, pfx)
  | part :: rest, node, pre, pfx =>
    match childAt node.children part with
    | none => (pre, pfx)
    | some child => getSegs rest child (some child) (pfx ++ [part])

/-- `putLoop` along a list of segments. -/
def putSegs [Inhabited T] (v : T) : List Str → PathTrie T → PathTrie T × Bool
  | [], node => (node.setValue v, !node.hasValue)
  | part :: rest, node =>
    (mk node.value node.hasValue (setChild node.children part
        (putSegs v rest ((childAt node.children part).getD newPathTrie)).1),
      (putSegs v rest ((childAt node.children part).getD newPathTrie)).2)

/-- `deleteLoop` along a list of segments. -/
def deleteSegs [Inhabited T] : List Str → PathTrie T → Option (PathTrie T × Bool)
  | [], node => some (node.clearValue, node.clearValue.isLeaf)
  | part :: rest, node =>
    match childAt node.children part with
    | none => none
    | some child =>
      match deleteSegs rest child with
      | none => none
      | some (child1, unlink) =>
        if unlink then
          some (mk node.value node.hasValue (delChild node.children part),
            (delChild node.children part).length == 0 && !node.hasValue)
        else
          some (mk node.value node.hasValue (setChild node.children part child1), false)
end PathTrie

/-- A path element as `path.Clean` leaves it: non-empty, without a slash, not `.` or `..`. -/
def validElem (e : Str) : Prop :=
  e ≠ [] ∧ (∀ c ∈ e, notSlash c = true) ∧ e ≠ ['.'] ∧ e ≠ ['.', '.']

/-- The write buffer of `path.Clean` (in reverse) for a rooted path with the elements `es`,
the last element first. -/
def bufOf : List Str → Str
  | [] => ['/']
  | [e] => e.reverse ++ ['/']
  | e :: e2 :: es => e.reverse ++ '/' :: bufOf (e2 :: es)

/-- A cleaned rooted path: `/` or `/e1/e2/.../en` with valid elements. -/
def CleanAbs (k : Str) : Prop :=
  ∃ es : List Str, (∀ e ∈ es, validElem e) ∧ k = (bufOf es).reverse

/-- The loop of `path.Clean` with as much fuel as there are bytes left. -/
def cleanRun (rooted : Bool) (rest out : Str) (dotdot : Nat) : Str :=
  cleanLoop rooted rest.length rest out dotdot

/-- The rooted path with the elements `els`: `/` or `/e1/e2/.../en`. -/
def absPath (els : List Str) : Str :=
  if els = [] then ['/'] else els.flatMap (fun e => '/' :: e)

/-- The write buffer of `path.Clean` (in reverse) for an unrooted path with the elements `es`,
the last element first. -/
def relBuf : List Str → Str
  | [] => []
  | [e] => e.reverse
  | e :: e2 :: es => e.reverse ++ '/' :: relBuf (e2 :: es)

/-- The unrooted path with the elements `els`: `e1/e2/.../en`. -/
def relPath : List Str → Str
  | [] => []
  | [e] => e
  | e :: e2 :: es => e ++ '/' :: relPath (e2 :: es)

/-- The elements of a cleaned unrooted path: `n` times `..`, then valid elements. -/
def relElems (n : Nat) (vs : List Str) : List Str := List.replicate n ['.', '.'] ++ vs

/-- A cleaned unrooted path: `.`, or a non-empty path of `..` elements followed by valid
elements. -/
def CleanRel (k : Str) : Prop :=
  k = ['.'] ∨ ∃ (n : Nat) (vs : List Str), (∀ e ∈ vs, validElem e) ∧ relElems n vs ≠ [] ∧
    k = relPath (relElems n vs)

/-! ## Invariants of the mount table -/

namespace PathTrie
variable {T : Type}

mutual
/-- Every node of the trie satisfies `Q`, which is given the segments leading to the node, its
value, its flag and the segments of its children. -/
def AllNodes (Q : List Str → T → Bool → List Str → Prop) : PathTrie T → List Str → Prop
  | mk v h cs, path => Q path v h (cs.map Prod.fst) ∧ AllChildren Q cs path
/-- Every node below one of the children satisfies `Q`. -/
def AllChildren (Q : List Str → T → Bool → List Str → Prop) :
    List (Str × PathTrie T) → List Str → Prop
  | [], _ => True
  | (k, c) :: rest, path => AllNodes Q c (path ++ [k]) ∧ AllChildren Q rest path
end

/-- Follow the segments `ks` from a node, child by child. -/
def descend : PathTrie T → List Str → Option (PathTrie T)
  | t, [] => some t
  | t, k :: ks =>
    match childAt t.children k with
    | none => none
    | some c => descend c ks

mutual
/-- The keys and values `walk` passes to the walker, in order. -/
def walkList : PathTrie T → Str → List (Str × T)
  | mk v h cs, key => (if h then [(key, v)] else []) ++ walkListCh cs key
/-- The keys and values visited below the children. -/
def walkListCh : List (Str × PathTrie T) → Str → List (Str × T)
  | [], _ => []
  | (part, child) :: rest, key => walkList child (key ++ part) ++ walkListCh rest key
end

end PathTrie

/-- What holds of every node of the mount table: a node without a value holds nil; a node with
a value holds a pointer into the heap to a mount point whose prefix is a cleaned rooted path
and is segmented into the segments leading to the node; no two children share a segment. -/
def NodeOK (heap : List MountPoint) (path : List Str) (v : Option Nat) (h : Bool)
    (keys : List Str) : Prop :=
  (h = false → v = none) ∧
  (h = true → ∃ p, v = some p ∧ p < heap.length ∧ CleanAbs (load heap p).mountPrefix ∧
    segList (load heap p).mountPrefix = path) ∧
  keys.Nodup

/-- The invariant of the mount table. -/
def TableOK (v : Vfs) : Prop := PathTrie.AllNodes (NodeOK v.heap) v.mounts []

/-- A pointer that is nil or points into the heap. -/
def ValidPtr (heap : List MountPoint) (v : Option Nat) : Prop := ∀ p, v = some p → p < heap.length

/-! ## Views of a trie: the value at a key, the segments followed, what a walk visits -/

namespace PathTrie
variable {T : Type}

/-- The value held by the node reached by following the segments `ks`; `none` when there is no
such node or it holds no value. -/
def valueAt (t : PathTrie T) (ks : List Str) : Option T :=
  match descend t ks with
  | some n => if n.hasValue then some n.value else none
  | none => none

/-- The longest initial part of the segments `ks` that can be followed from the node, child by
child. -/
def followed (t : PathTrie T) : List Str → List Str
  | [] => []
  | k :: ks =>
    match childAt t.children k with
    | none => []
    | some c => k :: followed c ks

/-- The keys and values a walk passes to a walker that never returns an error, in order. -/
def visited (t : PathTrie T) : List (Str × T) :=
  (t.Walk (fun key value (l : List (Str × T)) => (l ++ [(key, value)], false)) []).1

/-- Pass the pairs to the walker one after the other until it returns an error. -/
def walkFold {σ : Type} (walker : Str → T → σ → σ × Bool) : List (Str × T) → σ → σ × Bool
  | [], s => (s, false)
  | x :: rest, s =>
    if (walker x.1 x.2 s).2 then ((walker x.1 x.2 s).1, true)
    else walkFold walker rest (walker x.1 x.2 s).1

end PathTrie

/-- One call that changes a trie. -/
inductive TrieOp (T : Type) where
  | Put (key : Str) (value : T)
  | Delete (key : Str)

/-- Execute one call on a trie with the default segmenter. -/
def PathTrie.applyOp {T : Type} [Inhabited T] (t : PathTrie T) : TrieOp T → PathTrie T
  | TrieOp.Put key value => (t.Put PathSegmenter key value).1
  | TrieOp.Delete key => (t.Delete PathSegmenter key).1

/-- The trie after the calls `ops` on a new trie. -/
def PathTrie.build {T : Type} [Inhabited T] (ops : List (TrieOp T)) : PathTrie T :=
  ops.foldl PathTrie.applyOp PathTrie.newPathTrie

/-- The key a call is made on. -/
def TrieOp.key {T : Type} : TrieOp T → Str
  | TrieOp.Put key _ => key
  | TrieOp.Delete key => key

/-- What a call leaves at its key: the value put, or nothing after a `Delete`. -/
def TrieOp.stored {T : Type} : TrieOp T → Option T
  | TrieOp.Put _ value => some value
  | TrieOp.Delete _ => none

/-- The value most recently put at `key` by the calls `ops`: `none` when the key was never put
or the most recent call on it is a `Delete`. -/
def lastPut {T : Type} (ops : List (TrieOp T)) (key : Str) : Option T :=
  ops.foldl (fun acc op => if op.key = key then op.stored else acc) none

/-- What holds of every node of a trie built by `Put` and `Delete`: a node without a value
holds the zero value; the segments leading to a node with a value are the segments of a key;
no two children share a segment; a node other than the root holds a value or has children. -/
def TrieOK {T : Type} [Inhabited T] (path : List Str) (v : T) (h : Bool) (keys : List Str) :
    Prop :=
  (h = false → v = default) ∧ (h = true → segList path.flatten = path) ∧ keys.Nodup ∧
    (path ≠ [] → h = true ∨ keys ≠ [])

/-- No two children of a node share a segment. -/
def KeysNodup {T : Type} (_path : List Str) (_v : T) (_h : Bool) (keys : List Str) : Prop :=
  keys.Nodup

/-! ## Views of `MkdirAll` -/

/-- The prefixes of a path that end before a separator, and the path itself, the shortest
first: `/a`, `/a/b`, `/a/b/c` for `/a/b/c`. -/
def dirPrefixes (p : Str) : List Str := (segList p).inits.tail.map List.flatten

namespace Vfs
variable {β : Type}

/-- Whether `v.Stat(q)` returns an error in the state `b` of the backends. -/
def statFails (v : Vfs) (backendStat : β → FS → Str → Except Errno Nat) (b : β) (q : Str) :
    Bool :=
  match v.Stat (backendStat b) q with
  | Except.ok _ => false
  | Except.error _ => true

/-- Whether `v.Stat(q)` succeeds in the state `b` and reports something that is not a
directory. -/
def statNotDir (v : Vfs) (backendStat : β → FS → Str → Except Errno Nat) (isDir : Nat → Bool)
    (b : β) (q : Str) : Bool :=
  match v.Stat (backendStat b) q with
  | Except.ok dir => !isDir dir
  | Except.error _ => false

/-- Call `v.Mkdir` with the paths one after the other and stop at the first error: the state
of the backends, the result of the last call made, and the paths of the calls made. -/
def mkdirEach (v : Vfs) (backendMkdir : β → FS → Str → β × Option Errno) :
    β → List Str → β × Option GoError × List Str
  | b, [] => (b, none, [])
  | b, q :: rest =>
    match v.MkdirIn backendMkdir b q with
    | (b1, some e) => (b1, some e, [q])
    | (b1, none) =>
      ((mkdirEach v backendMkdir b1 rest).1, (mkdirEach v backendMkdir b1 rest).2.1,
        q :: (mkdirEach v backendMkdir b1 rest).2.2)

/-- What `MkdirAll` does, given the prefixes of the cleaned path with the longest first: when
the longest prefix for which `Stat` succeeds is not a directory, `ENOTDIR` for that prefix and
no `Mkdir`; otherwise `Mkdir` for the prefixes longer than it (for all of them when `Stat`
succeeds for none), the shortest first. -/
def mkdirAllPlan (v : Vfs) (backendStat : β → FS → Str → Except Errno Nat) (isDir : Nat → Bool)
    (backendMkdir : β → FS → Str → β × Option Errno) (b : β) (deepFirst : List Str) :
    β × Option GoError × List Str :=
  match (deepFirst.dropWhile (statFails v backendStat b)).head? with
  | some a =>
    if statNotDir v backendStat isDir b a then
      (b, some (GoError.pathError ⟨"mkdir", a, Errno.ENOTDIR⟩), [])
    else mkdirEach v backendMkdir b (deepFirst.takeWhile (statFails v backendStat b)).reverse
  | none => mkdirEach v backendMkdir b (deepFirst.takeWhile (statFails v backendStat b)).reverse

end Vfs

/-! ## Sequences of calls -/

/-- The fatal conditions of the program: `panic("open count < 0")`, and a run-time error
(a nil pointer dereference, or a comparison of two filesystems that Go cannot compare). -/
inductive Panic where
  | openCountNegative
  | runtimeError
  deriving DecidableEq, Repr

/-- One call of a client, with the answer the backend gives to it. -/
inductive Op where
  | Mount (pfx : Str) (fsys : Option FS)
  | Unmount (syncOf : FS → Option (Option Errno)) (pfx : Str) (fsys : Option FS)
  | Open (backendOpen : FS → Str → Except Errno Nat) (name : Str)
  | OpenFile (backendOpenFile : FS → Str → Except Errno Nat) (name : Str)
  | Close (h : Nat) (fileClose : Option Errno)

/-- The router together with the handles returned so far, each with the number of `Close`
calls made on it, and the panic that stopped the program, if any. -/
structure World where
  vfs : Vfs
  handles : List (fileWrapper × Nat)
  panicked : Option Panic

/-- The world after `New()`. -/
def World.init : World := ⟨New, [], none⟩

/-- Record what `Open` or `OpenFile` returned. -/
def World.opened (w : World) (r : Vfs × Except Errno fileWrapper) : World :=
  match r.2 with
  | Except.ok f => { w with vfs := r.1, handles := w.handles ++ [(f, 0)] }
  | Except.error _ => { w with vfs := r.1 }

/-- Execute one call. `Close h` is a call of `Close` on the handle returned `h`-th. -/
def World.step (w : World) (op : Op) : World :=
  match w.panicked with
  | some _ => w
  | none =>
    match op with
    | Op.Mount pfx fsys => { w with vfs := (w.vfs.Mount pfx fsys).1 }
    | Op.Unmount syncOf pfx fsys =>
      match w.vfs.Unmount syncOf pfx fsys with
      | none => { w with panicked := some Panic.runtimeError }
      | some r => { w with vfs := r.1 }
    | Op.Open backendOpen name => w.opened (w.vfs.Open backendOpen name)
    | Op.OpenFile backendOpenFile name => w.opened (w.vfs.OpenFile backendOpenFile name)
    | Op.Close h fileClose =>
      match w.handles.get? h with
      | none => w
      | some (f, n) =>
        match f.Close w.vfs.heap fileClose with
        | none =>
          { w with handles := w.handles.set h (f, n + 1),
                   panicked := some Panic.openCountNegative }
        | some r =>
          { w with vfs := { w.vfs with heap := r.1 }, handles := w.handles.set h (f, n + 1) }

/-- Execute a sequence of calls. -/
def World.run (w : World) (ops : List Op) : World := ops.foldl World.step w

/-! ## Scenarios -/

/-- A backend without a `Sync` method. -/
def noSync : FS → Option (Option Errno) := fun _ => none

/-- The keys and values `Walk` visits, in order. -/
def Vfs.entries (v : Vfs) : List (Str × Option Nat) :=
  (v.mounts.Walk (fun key value (l : List (Str × Option Nat)) => (l ++ [(key, value)], false))
    []).1

/-- Mount the given prefixes on the given backends, in order, on a new router. -/
def mountAll (ms : List (Str × FS)) : Vfs :=
  ms.foldl (fun v m => (v.Mount m.1 (some m.2)).1) New

/-- The orders in which `/a` and `/a/b` can be mounted, without and with a mount at `/`. -/
def ordersAB (r a b : Nat) : List (List (Str × FS)) :=
  [[("/a".toList, FS.backend a), ("/a/b".toList, FS.backend b)],
   [("/a/b".toList, FS.backend b), ("/a".toList, FS.backend a)],
   [("/".toList, FS.backend r), ("/a".toList, FS.backend a), ("/a/b".toList, FS.backend b)],
   [("/".toList, FS.backend r), ("/a/b".toList, FS.backend b), ("/a".toList, FS.backend a)],
   [("/a".toList, FS.backend a), ("/".toList, FS.backend r), ("/a/b".toList, FS.backend b)],
   [("/a".toList, FS.backend a), ("/a/b".toList, FS.backend b), ("/".toList, FS.backend r)],
   [("/a/b".toList, FS.backend b), ("/".toList, FS.backend r), ("/a".toList, FS.backend a)],
   [("/a/b".toList, FS.backend b), ("/a".toList, FS.backend a), ("/".toList, FS.backend r)]]

/-- The node of `/a` when `/a` and `/a/b` are mounted and nothing else below `/a`. -/
def nodeA (pa pb : Nat) : PathTrie (Option Nat) :=
  PathTrie.mk (some pa) true [("/b".toList, PathTrie.mk (some pb) true [])]

/-- Mounts at `/a` and at `/a/b/c`. -/
def shadowV : Vfs :=
  ((New.Mount "/a".toList (some (FS.backend 1))).1.Mount "/a/b/c".toList (some (FS.backend 3))).1

/-- Mounts at `/`, at `/a` and at `/a/b/c`. -/
def shadowRootV : Vfs :=
  (((New.Mount "/".toList (some (FS.backend 0))).1.Mount "/a".toList (some (FS.backend 1))).1.Mount
    "/a/b/c".toList (some (FS.backend 3))).1

/-- One mount, at `/c`. -/
def oneMountV : Vfs := (New.Mount "/c".toList (some (FS.backend 1))).1

/-- A backend on which `1.txt` can be opened and nothing else. -/
def onlyOneTxt : FS → Str → Except Errno Nat :=
  fun _ name => if name = "1.txt".toList then Except.ok 7 else Except.error Errno.ENOENT

/-- The number of handles returned through the mount point `p`. -/
def opens (p : Nat) : List (fileWrapper × Nat) → Nat
  | [] => 0
  | x :: hs => (if x.1.closed = some p then 1 else 0) + opens p hs

/-- The number of `Close` calls made on handles returned through the mount point `p`. -/
def closes (p : Nat) : List (fileWrapper × Nat) → Nat
  | [] => 0
  | x :: hs => (if x.1.closed = some p then x.2 else 0) + closes p hs

/-- The invariant of a sequence of calls. -/
def WorldOK (w : World) : Prop :=
  TableOK w.vfs ∧
  (∀ x ∈ w.handles, ∃ p, x.1.closed = some p ∧ p < w.vfs.heap.length) ∧
  (∀ p, 0 ≤ (load w.vfs.heap p).openCount ∧ (load w.vfs.heap p).openCount ≤ 2147483647) ∧
  (w.panicked = none →
    ∀ p, (opens p w.handles : Int) ≤ (load w.vfs.heap p).openCount + closes p w.handles) ∧
  (w.panicked = some Panic.openCountNegative → ∃ p, opens p w.handles < closes p w.handles)

/-- Mount `/c`, open `/c/1.txt` and close the handle. -/
def openCloseOps : List Op :=
  [Op.Mount "/c".toList (some (FS.backend 1)), Op.Open onlyOneTxt "/c/1.txt".toList,
   Op.Close 0 none]

/-- Mount a backend at `/` and another at `/data`. -/
def dataOps : List Op :=
  [Op.Mount "/".toList (some (FS.backend 0)), Op.Mount "/data".toList (some (FS.backend 1))]

/-- The values of two nodes are equal, or they are `a` and `b`. -/
def SameOrSwapped {T : Type} (a b : T) (n1 n2 : Option (PathTrie T)) : Prop :=
  n1.map PathTrie.value = n2.map PathTrie.value ∨ (n1.map PathTrie.value = some a ∧ n2.map PathTrie.value = some b)

/-- Mount a backend at `/` and another at `/a/b`. -/
def replaceOps : List Op :=
  [Op.Mount "/".toList (some (FS.backend 0)), Op.Mount "/a/b".toList (some (FS.backend 9))]

/-- After `replaceOps`, mount a backend at `/a`. -/
def replaceV1 : Vfs :=
  ((World.init.run replaceOps).vfs.Mount "/a".toList (some (FS.backend 1))).1

/-- After `replaceV1`, mount another backend at `/a/`, which cleans to `/a`. -/
def replaceV2 : Vfs := (replaceV1.Mount "/a/".toList (some (FS.backend 2))).1

/-- Mount `/c`, open `/c/1.txt` (a handle is returned), try to open `/c/2.txt` (the backend
fails, no handle is returned), close the one handle. -/
def leakW : World :=
  World.init.run
    [Op.Mount "/c".toList (some (FS.backend 1)), Op.Open onlyOneTxt "/c/1.txt".toList,
     Op.Open onlyOneTxt "/c/2.txt".toList, Op.Close 0 none]

/-- Mount `/c`, open `/c/1.txt`, then call `Close` twice on the handle. -/
def closeTwiceW : World :=
  World.init.run
    [Op.Mount "/c".toList (some (FS.backend 1)), Op.Open onlyOneTxt "/c/1.txt".toList,
     Op.Close 0 none, Op.Close 0 none]

/-- Mount `/c`, open `/c/1.txt` twice, then call `Close` twice on the first handle. -/
def twoHandlesW : World :=
  World.init.run
    [Op.Mount "/c".toList (some (FS.backend 1)), Op.Open onlyOneTxt "/c/1.txt".toList,
     Op.Open onlyOneTxt "/c/1.txt".toList, Op.Close 0 none, Op.Close 0 none]

/-- Mount one backend at `/a` and at `/b`. -/
def twoPrefixOps : List Op :=
  [Op.Mount "/a".toList (some (FS.backend 1)), Op.Mount "/b".toList (some (FS.backend 1))]

/-- After `twoPrefixOps`, the router without the mount at `/a`. -/
def twoPrefixV1 : Vfs :=
  { (World.init.run twoPrefixOps).vfs with
    mounts := ((World.init.run twoPrefixOps).vfs.mounts.Delete PathSegmenter2 "/a".toList).1 }

/-- Every backend has a `Sync` method. -/
def allSync : FS → Bool := fun _ => true

/-- A `Sync` method that fails. -/
def syncFails : FS → Option Errno := fun _ => some (Errno.backendErr 5)

/-- A backend whose `Rename` fails. -/
def renameFails : FS → Str → Str → Option Errno := fun _ _ _ => some (Errno.backendErr 3)

/-- One filesystem that Go cannot compare, mounted at `/p` and at `/q`. -/
def uncomparableOps : List Op :=
  [Op.Mount "/p".toList (some (FS.uncomparable 0 0)),
   Op.Mount "/q".toList (some (FS.uncomparable 0 0))]

/-- One mount, at `/p`, of a filesystem that Go cannot compare. -/
def uncomparableV : Vfs := (New.Mount "/p".toList (some (FS.uncomparable 0 0))).1

/-- One backend mounted at `/a` and then at `/a/b`. -/
def nestedSameV : Vfs :=
  ((New.Mount "/a".toList (some (FS.backend 1))).1.Mount "/a/b".toList (some (FS.backend 1))).1

/-- One mount, at `/`. -/
def rootV : Vfs := (New.Mount "/".toList (some (FS.backend 0))).1

/-- A backend whose state is the list of its entries, each a name and whether it is a
directory: `Stat` returns 1 for a directory and 0 for a file. -/
def listStat : List (Str × Bool) → FS → Str → Except Errno Nat :=
  fun b _ name =>
    match b.lookup name with
    | some d => Except.ok (if d then 1 else 0)
    | none => Except.error Errno.ENOENT

/-- `Mkdir` of the backend above: the name is added as a directory; it is an error when the
name is there already. -/
def listMkdir : List (Str × Bool) → FS → Str → List (Str × Bool) × Option Errno :=
  fun b _ name =>
    match b.lookup name with
    | some _ => (b, some (Errno.backendErr 17))
    | none => (b ++ [(name, true)], none)

/-- `IsDir` of what `listStat` returns. -/
def isOne : Nat → Bool := fun n => n == 1

/-! ## Segmentation: the loops of the trie follow the list of segments -/

open PathTrie

theorem notSlash_iff (c : Char) : notSlash c = true ↔ c ≠ '/' := by
  simp [notSlash]

theorem notSlash_slash : notSlash '/' = false := by decide

theorem notSlash_of_ne {c : Char} (h : c ≠ '/') : notSlash c = true := (notSlash_iff c).2 h

theorem segList_cons (c : Char) (t : Str) :
    segList (c :: t) = (c :: t.takeWhile notSlash) :: segList (t.dropWhile notSlash) := by
  induction t generalizing c with
  | nil => simp [segList]
  | cons d t ih =>
    rw [segList, ih d]
    by_cases hd : d = '/'
    · subst hd
      simp only [List.head?_cons, if_true, List.takeWhile_cons, List.dropWhile_cons, notSlash_slash]
      simp only [Bool.false_eq_true, if_false]
      rw [ih]
    · have hn := notSlash_of_ne hd
      have : ¬ ((d :: t).head? = some '/') := by simpa using hd
      simp only [this, if_false, List.takeWhile_cons, List.dropWhile_cons, hn, if_true]

theorem IndexRune_slash (s : Str) :
    IndexRune s '/' =
      if s.dropWhile notSlash = [] then -1 else ((s.takeWhile notSlash).length : Int) := by
  induction s with
  | nil => simp [IndexRune]
  | cons x xs ih =>
    rw [IndexRune]
    by_cases h : x = '/'
    · subst h
      simp [List.takeWhile_cons, List.dropWhile_cons, notSlash_slash]
    · have hn := notSlash_of_ne h
      simp only [h, if_false, List.takeWhile_cons, List.dropWhile_cons, hn, if_true]
      rw [ih]
      by_cases h2 : xs.dropWhile notSlash = []
      · simp [h2]
      · simp only [h2, if_false]
        have : ¬ (((xs.takeWhile notSlash).length : Int) = -1) := by omega
        simp [this]

theorem takeWhile_eq_take (t : Str) : t.take (t.takeWhile notSlash).length = t.takeWhile notSlash := by
  induction t with
  | nil => simp
  | cons x xs ih =>
    by_cases h : notSlash x = true
    · simp [List.takeWhile_cons, h, ih]
    · simp [List.takeWhile_cons, h]

theorem PathSegmenter_at (pre : Str) (c : Char) (t : Str) :
    PathSegmenter (pre ++ c :: t) pre.length = nextSeg pre (c :: t) := by
  unfold PathSegmenter nextSeg
  have h1 : ¬ ((pre ++ c :: t).length = 0 ∨ (pre.length : Int) < 0 ∨
      (pre.length : Int) > ((pre ++ c :: t).length : Int) - 1) := by
    simp
    omega
  rw [if_neg h1]
  have h2 : (pre ++ c :: t).drop ((pre.length : Int).toNat + 1) = t := by
    simp
  have h3 : (pre ++ c :: t).drop ((pre.length : Int).toNat) = c :: t := by
    simp
  simp only [h2, h3]
  rw [IndexRune_slash]
  by_cases h : t.dropWhile notSlash = []
  · simp only [h, if_true]
    have : t.takeWhile notSlash = t := by
      have := List.takeWhile_append_dropWhile notSlash t
      rw [h] at this
      simpa using this
    simp [this]
  · simp only [h, if_false]
    have hne : ¬ ((((t.takeWhile notSlash).length : Nat) : Int) = -1) := by omega
    simp only [hne, if_false]
    simp only [Int.toNat_ofNat, List.take_succ_cons, takeWhile_eq_take]
    congr 1
    omega

theorem PathSegmenter_end (key : Str) : PathSegmenter key (-1) = ([], -1) := by
  simp [PathSegmenter]

theorem PathSegmenter_nil (i : Int) : PathSegmenter [] i = ([], -1) := by
  simp [PathSegmenter]

theorem nextSeg_step (pre : Str) (c : Char) (t : Str) :
    PathSegmenter (pre ++ c :: t) (nextSeg pre (c :: t)).2 =
      nextSeg (pre ++ c :: t.takeWhile notSlash) (t.dropWhile notSlash) := by
  by_cases h : t.dropWhile notSlash = []
  · simp [nextSeg, h, PathSegmenter_end]
  · obtain ⟨d, t2, hd⟩ := List.exists_cons_of_ne_nil h
    have hkey : pre ++ c :: t = (pre ++ c :: t.takeWhile notSlash) ++ d :: t2 := by
      rw [← hd]
      simp
    have hidx : (nextSeg pre (c :: t)).2 = ((pre ++ c :: t.takeWhile notSlash).length : Int) := by
      simp only [nextSeg, h, if_false]
      simp
      omega
    rw [hidx, hd]
    conv => lhs; rw [hkey]
    exact PathSegmenter_at _ d t2

theorem nextSeg_fst_ne (pre : Str) (c : Char) (t : Str) : (nextSeg pre (c :: t)).1 ≠ [] := by
  simp [nextSeg]

theorem dropWhile_length_le (t : Str) : (t.dropWhile notSlash).length ≤ t.length := by
  have h2 := congrArg List.length (List.takeWhile_append_dropWhile notSlash t)
  rw [List.length_append] at h2
  omega

theorem getLoop_eq_getSegs {T : Type} (n : Nat) : ∀ (s pre : Str) (fuel : Nat) (node : PathTrie T)
    (p : Option (PathTrie T)) (pfx : List Str), s.length ≤ n → s.length < fuel →
    getLoop PathSegmenter (pre ++ s) fuel (nextSeg pre s).1 (nextSeg pre s).2 node p pfx =
      getSegs (segList s) node p pfx := by
  induction n with
  | zero =>
    intro s pre fuel node p pfx h1 h2
    have : s = [] := List.length_eq_zero.mp (Nat.le_zero.mp h1)
    subst this
    cases fuel with
    | zero => simp at h2
    | succ f => simp [getLoop, nextSeg, segList, getSegs]
  | succ n ih =>
    intro s pre fuel node p pfx h1 h2
    cases s with
    | nil =>
      cases fuel with
      | zero => simp at h2
      | succ f => simp [getLoop, nextSeg, segList, getSegs]
    | cons c t =>
      cases fuel with
      | zero => simp at h2
      | succ f =>
        rw [getLoop, if_neg (nextSeg_fst_ne pre c t), segList_cons, getSegs]
        have hfst : (nextSeg pre (c :: t)).1 = c :: t.takeWhile notSlash := rfl
        rw [hfst]
        cases hc : childAt node.children (c :: t.takeWhile notSlash) with
        | none => rfl
        | some child =>
          simp only []
          rw [nextSeg_step]
          have hkey : pre ++ c :: t = (pre ++ c :: t.takeWhile notSlash) ++ t.dropWhile notSlash := by
            simp
          rw [hkey]
          have hl := dropWhile_length_le t
          simp at h1 h2
          exact ih _ _ _ _ _ _ (by omega) (by omega)

theorem PathSegmenter_zero (key : Str) : PathSegmenter key 0 = nextSeg [] key := by
  cases key with
  | nil => simp [PathSegmenter, nextSeg]
  | cons c t => exact PathSegmenter_at [] c t

theorem Get_eq_getSegs {T : Type} [Inhabited T] (trie : PathTrie T) (key : Str) :
    Get PathSegmenter trie key =
      match getSegs (segList key) trie none [] with
      | (none, _) => (default, [])
      | (some pre, pfx) => (pre.value, TrimPrefix (TrimPrefix key (Join pfx)) ['/']) := by
  unfold Get
  rw [PathSegmenter_zero]
  have := getLoop_eq_getSegs key.length key [] (key.length + 1) trie none [] (le_refl _) (by omega)
  simp only [List.nil_append] at this
  rw [this]

theorem putLoop_eq_putSegs {T : Type} [Inhabited T] (v : T) (n : Nat) :
    ∀ (s pre : Str) (fuel : Nat) (node : PathTrie T), s.length ≤ n → s.length < fuel →
    putLoop PathSegmenter (pre ++ s) v fuel (nextSeg pre s).1 (nextSeg pre s).2 node =
      putSegs v (segList s) node := by
  induction n with
  | zero =>
    intro s pre fuel node h1 h2
    have : s = [] := List.length_eq_zero.mp (Nat.le_zero.mp h1)
    subst this
    cases fuel with
    | zero => simp at h2
    | succ f => simp [putLoop, nextSeg, segList, putSegs]
  | succ n ih =>
    intro s pre fuel node h1 h2
    cases s with
    | nil =>
      cases fuel with
      | zero => simp at h2
      | succ f => simp [putLoop, nextSeg, segList, putSegs]
    | cons c t =>
      cases fuel with
      | zero => simp at h2
      | succ f =>
        rw [putLoop, if_neg (nextSeg_fst_ne pre c t), segList_cons, putSegs]
        have hfst : (nextSeg pre (c :: t)).1 = c :: t.takeWhile notSlash := rfl
        rw [hfst, nextSeg_step]
        have hkey : pre ++ c :: t = (pre ++ c :: t.takeWhile notSlash) ++ t.dropWhile notSlash := by
          simp
        rw [hkey]
        have hl := dropWhile_length_le t
        simp at h1 h2
        simp only [ih _ (pre ++ c :: t.takeWhile notSlash) f _ (by omega : (t.dropWhile notSlash).length ≤ n) (by omega)]

theorem Put_eq_putSegs {T : Type} [Inhabited T] (trie : PathTrie T) (key : Str) (v : T) :
    Put PathSegmenter trie key v = putSegs v (segList key) trie := by
  unfold Put
  rw [PathSegmenter_zero]
  have := putLoop_eq_putSegs v key.length key [] (key.length + 1) trie (le_refl _) (by omega)
  simpa using this

theorem deleteLoop_eq_deleteSegs {T : Type} [Inhabited T] (n : Nat) :
    ∀ (s pre : Str) (fuel : Nat) (node : PathTrie T), s.length ≤ n → s.length < fuel →
    deleteLoop PathSegmenter (pre ++ s) fuel (nextSeg pre s).1 (nextSeg pre s).2 node =
      deleteSegs (segList s) node := by
  induction n with
  | zero =>
    intro s pre fuel node h1 h2
    have : s = [] := List.length_eq_zero.mp (Nat.le_zero.mp h1)
    subst this
    cases fuel with
    | zero => simp at h2
    | succ f => simp [deleteLoop, nextSeg, segList, deleteSegs]
  | succ n ih =>
    intro s pre fuel node h1 h2
    cases s with
    | nil =>
      cases fuel with
      | zero => simp at h2
      | succ f => simp [deleteLoop, nextSeg, segList, deleteSegs]
    | cons c t =>
      cases fuel with
      | zero => simp at h2
      | succ f =>
        rw [deleteLoop, if_neg (nextSeg_fst_ne pre c t), segList_cons, deleteSegs]
        have hfst : (nextSeg pre (c :: t)).1 = c :: t.takeWhile notSlash := rfl
        rw [hfst]
        cases hc : childAt node.children (c :: t.takeWhile notSlash) with
        | none => rfl
        | some child =>
          simp only []
          rw [nextSeg_step]
          have hkey : pre ++ c :: t = (pre ++ c :: t.takeWhile notSlash) ++ t.dropWhile notSlash := by
            simp
          rw [hkey]
          have hl := dropWhile_length_le t
          simp at h1 h2
          rw [ih _ (pre ++ c :: t.takeWhile notSlash) f child (by omega : (t.dropWhile notSlash).length ≤ n) (by omega)]

theorem Delete_eq_deleteSegs {T : Type} [Inhabited T] (trie : PathTrie T) (key : Str) :
    Delete PathSegmenter trie key =
      match deleteSegs (segList key) trie with
      | none => (trie, false)
      | some (t, _) => (t, true) := by
  unfold Delete
  rw [PathSegmenter_zero]
  have := deleteLoop_eq_deleteSegs key.length key [] (key.length + 1) trie (le_refl _) (by omega)
  simp only [List.nil_append] at this
  rw [this]

/-! ## `path.Clean` -/

theorem bufOf_cons (e : Str) (es : List Str) :
    bufOf (e :: es) = e.reverse ++ (if es = [] then ['/'] else '/' :: bufOf es) := by
  cases es with
  | nil => simp [bufOf]
  | cons e2 es => simp [bufOf]

theorem bufOf_ne_nil (es : List Str) : bufOf es ≠ [] := by
  cases es with
  | nil => simp [bufOf]
  | cons e es => rw [bufOf_cons]; split <;> simp

theorem bufOf_length_one (es : List Str) (h : ∀ e ∈ es, validElem e) :
    (bufOf es).length = 1 ↔ es = [] := by
  cases es with
  | nil => simp [bufOf]
  | cons e es =>
    have he := (h e (List.mem_cons_self _ _)).1
    have : 0 < e.length := List.length_pos.mpr he
    rw [bufOf_cons]
    split <;> simp <;> first | exact he | omega

/-- Backtracking over the last element: the element and the slash before it are dropped,
but never the root slash. -/
theorem cleanBack_elem (l : Str) (hl : ∀ c ∈ l, notSlash c = true) (x : Char)
    (hx : notSlash x = true) (es : List Str) :
    cleanBack 1 x (l ++ (if es = [] then ['/'] else '/' :: bufOf es)) = bufOf es := by
  induction l generalizing x with
  | nil =>
    have hx2 : x ≠ '/' := (notSlash_iff x).1 hx
    cases es with
    | nil => simp [cleanBack, bufOf]
    | cons e es =>
      obtain ⟨z, zs, hz⟩ := List.exists_cons_of_ne_nil (bufOf_ne_nil (e :: es))
      simp only [List.nil_append, if_false, hz, reduceCtorEq]
      rw [cleanBack]
      have : (('/' :: z :: zs).length > 1 ∧ x ≠ '/') := ⟨by simp, hx2⟩
      rw [if_pos this, cleanBack]
      simp
  | cons y l ih =>
    have hx2 : x ≠ '/' := (notSlash_iff x).1 hx
    rw [List.cons_append, cleanBack]
    have hlen : (y :: (l ++ if es = [] then ['/'] else '/' :: bufOf es)).length > 1 := by
      simp
      split <;> simp
    rw [if_pos ⟨hlen, hx2⟩]
    exact ih (fun c hc => hl c (List.mem_cons_of_mem _ hc)) y (hl y (List.mem_cons_self _ _))

theorem takeWhile_all (t : Str) : ∀ c ∈ t.takeWhile notSlash, notSlash c = true := by
  intro c hc
  exact (List.mem_takeWhile_imp hc)

theorem takeWhile_nil_iff (t : Str) : t.takeWhile notSlash = [] ↔ (t = [] ∨ t.head? = some '/') := by
  cases t with
  | nil => simp
  | cons x xs =>
    by_cases h : x = '/'
    · subst h; simp [List.takeWhile_cons, notSlash_slash]
    · simp [List.takeWhile_cons, notSlash_of_ne h, h]

theorem cleanLoop_cons (rooted : Bool) (fuel : Nat) (c : Char) (t out : Str) (dotdot : Nat) :
    cleanLoop rooted (fuel + 1) (c :: t) out dotdot =
    if c = '/' then
      cleanLoop rooted fuel t out dotdot
    else if c = '.' ∧ (t = [] ∨ t.head? = some '/') then
      cleanLoop rooted fuel t out dotdot
    else if c = '.' ∧ t.head? = some '.' ∧ (t.tail = [] ∨ t.tail.head? = some '/') then
      if out.length > dotdot then
        match out with
        | [] => cleanLoop rooted fuel t.tail [] dotdot
        | x :: o => cleanLoop rooted fuel t.tail (cleanBack dotdot x o) dotdot
      else if rooted = false then
        cleanLoop rooted fuel t.tail ('.' :: '.' :: (if out.length > 0 then '/' :: out else out))
          ('.' :: '.' :: (if out.length > 0 then '/' :: out else out)).length
      else
        cleanLoop rooted fuel t.tail out dotdot
    else
      cleanLoop rooted fuel ((c :: t).dropWhile notSlash)
        (((c :: t).takeWhile notSlash).reverse ++
          (if (rooted = true ∧ out.length ≠ 1) ∨ (rooted = false ∧ out.length ≠ 0) then '/' :: out
            else out)) dotdot := by
  rfl

/-- The rooted loop of `path.Clean` keeps the buffer in the form `/e1/.../en`. -/
theorem cleanLoop_rooted_form (fuel : Nat) : ∀ (rest : Str) (es : List Str),
    (∀ e ∈ es, validElem e) →
    ∃ es2 : List Str, (∀ e ∈ es2, validElem e) ∧ cleanLoop true fuel rest (bufOf es) 1 = bufOf es2 := by
  induction fuel with
  | zero => intro rest es h; exact ⟨es, h, by simp [cleanLoop]⟩
  | succ fuel ih =>
    intro rest es h
    cases rest with
    | nil => exact ⟨es, h, by simp [cleanLoop]⟩
    | cons c t =>
      rw [cleanLoop_cons]
      split
      · exact ih t es h
      · rename_i hc
        split
        · exact ih t es h
        · rename_i hdot
          split
          · rename_i hdd
            split
            · rename_i hlen
              cases es with
              | nil => simp [bufOf] at hlen
              | cons e es0 =>
                have hv := h e (List.mem_cons_self _ _)
                have hne : e.reverse ≠ [] := by simpa using hv.1
                obtain ⟨x, l, hxl⟩ := List.exists_cons_of_ne_nil hne
                have hall : ∀ c ∈ x :: l, notSlash c = true := by
                  intro c hc
                  rw [← hxl] at hc
                  exact hv.2.1 c (by simpa using hc)
                have hb : bufOf (e :: es0) = x :: (l ++ (if es0 = [] then ['/'] else '/' :: bufOf es0)) := by
                  rw [bufOf_cons, hxl]; rfl
                rw [hb]
                simp only []
                rw [cleanBack_elem l (fun c hc => hall c (List.mem_cons_of_mem _ hc)) x
                  (hall x (List.mem_cons_self _ _)) es0]
                exact ih _ es0 (fun e he => h e (List.mem_cons_of_mem _ he))
            · split
              · rename_i hr; simp at hr
              · exact ih _ es h
          · rename_i hdd
            -- a real path element
            have hcn : notSlash c = true := notSlash_of_ne hc
            have htw : (c :: t).takeWhile notSlash = c :: t.takeWhile notSlash := by
              simp [List.takeWhile_cons, hcn]
            have hvalid : validElem (c :: t.takeWhile notSlash) := by
              refine ⟨by simp, ?_, ?_, ?_⟩
              · intro d hd
                rcases List.mem_cons.1 hd with h1 | h1
                · rw [h1]; exact hcn
                · exact takeWhile_all t d h1
              · intro heq
                simp only [List.cons.injEq] at heq
                exact hdot ⟨heq.1, (takeWhile_nil_iff t).1 heq.2⟩
              · intro heq
                simp only [List.cons.injEq] at heq
                obtain ⟨h1, h2⟩ := heq
                cases t with
                | nil => simp at h2
                | cons d t2 =>
                  by_cases hd : notSlash d = true
                  · simp only [List.takeWhile_cons, hd, if_true, List.cons.injEq] at h2
                    exact hdd ⟨h1, by simp [h2.1], by simpa using (takeWhile_nil_iff t2).1 h2.2⟩
                  · simp [List.takeWhile_cons, hd] at h2
            have hbuf : ((c :: t).takeWhile notSlash).reverse ++
                (if (bufOf es).length ≠ 1 then '/' :: bufOf es else bufOf es) =
                  bufOf ((c :: t.takeWhile notSlash) :: es) := by
              rw [htw, bufOf_cons]
              congr 1
              by_cases hes : es = []
              · subst hes; simp [bufOf]
              · have := (bufOf_length_one es h).not.2 hes
                simp [hes, this]
            simp only [true_and, Bool.true_eq_false, false_and, or_false]
            rw [hbuf]
            exact ih _ _ (fun e he => by
              rcases List.mem_cons.1 he with h1 | h1
              · rw [h1]; exact hvalid
              · exact h e h1)

theorem Clean_rooted (t : Str) : CleanAbs (Clean ('/' :: t)) := by
  obtain ⟨es, hes, heq⟩ := cleanLoop_rooted_form ('/' :: t).length t [] (by simp)
  refine ⟨es, hes, ?_⟩
  simp only [Clean, if_true]
  have hb : bufOf [] = ['/'] := rfl
  rw [hb] at heq
  rw [heq]
  have := bufOf_ne_nil es
  simp [this]

theorem CleanAbs_shape (k : Str) (h : CleanAbs k) :
    k = ['/'] ∨ ∃ x rest, k = '/' :: x :: rest ∧ notSlash x = true := by
  obtain ⟨es, hes, rfl⟩ := h
  induction es with
  | nil => left; rfl
  | cons e es0 ih =>
    right
    have hv := hes e (List.mem_cons_self _ _)
    obtain ⟨x, l, hxl⟩ := List.exists_cons_of_ne_nil hv.1
    have hx : notSlash x = true := hv.2.1 x (by rw [hxl]; exact List.mem_cons_self _ _)
    rw [bufOf_cons]
    by_cases h0 : es0 = []
    · subst h0
      exact ⟨x, l, by simp [hxl], hx⟩
    · rcases ih (fun e he => hes e (List.mem_cons_of_mem _ he)) with h1 | ⟨y, rest, h1, h2⟩
      · exfalso
        have := (bufOf_length_one es0 (fun e he => hes e (List.mem_cons_of_mem _ he))).1
          (by have := congrArg List.length h1; simpa using this)
        exact h0 this
      · refine ⟨y, rest ++ '/' :: e, ?_, h2⟩
        simp only [h0, if_false, List.reverse_append, List.reverse_cons, List.reverse_reverse]
        rw [h1]
        simp

theorem cleanBack_suffix (dotdot : Nat) (o : Str) : ∀ x : Char, cleanBack dotdot x o <:+ o := by
  induction o with
  | nil => intro x; simp [cleanBack]
  | cons y o ih =>
    intro x
    rw [cleanBack]
    split
    · exact (ih y).trans (List.suffix_cons _ _)
    · exact List.suffix_refl _

theorem getLast?_suffix {s l : Str} (h : s <:+ l) (hl : l.getLast? ≠ some '/') :
    s.getLast? ≠ some '/' := by
  obtain ⟨p, rfl⟩ := h
  cases s with
  | nil => simp
  | cons a s =>
    rw [List.getLast?_append_of_ne_nil _ (by simp)] at hl
    exact hl

/-- The loop of `path.Clean` for a path that is not rooted never writes a slash first. -/
theorem cleanLoop_unrooted (fuel : Nat) : ∀ (rest out : Str) (dotdot : Nat),
    out.getLast? ≠ some '/' → (cleanLoop false fuel rest out dotdot).getLast? ≠ some '/' := by
  induction fuel with
  | zero => intro rest out dotdot h; simpa [cleanLoop] using h
  | succ fuel ih =>
    intro rest out dotdot h
    cases rest with
    | nil => simpa [cleanLoop] using h
    | cons c t =>
      rw [cleanLoop_cons]
      split
      · exact ih _ _ _ h
      · rename_i hc
        split
        · exact ih _ _ _ h
        · split
          · split
            · cases out with
              | nil => exact ih _ _ _ (by simp)
              | cons x o =>
                exact ih _ _ _ (getLast?_suffix ((cleanBack_suffix dotdot o x).trans (List.suffix_cons _ _)) h)
            · split
              · apply ih
                cases out with
                | nil => simp
                | cons x o =>
                  simp only [List.length_cons, Nat.zero_lt_succ, if_true, gt_iff_lt]
                  have : ('.' :: '.' :: '/' :: x :: o) = ['.', '.', '/'] ++ (x :: o) := rfl
                  rw [this, List.getLast?_append_of_ne_nil _ (by simp)]
                  exact h
              · exact ih _ _ _ h
          · apply ih
            have hcn : notSlash c = true := notSlash_of_ne hc
            cases out with
            | nil =>
              simp [List.takeWhile_cons, hcn, hc]
            | cons x o =>
              rw [List.getLast?_append_of_ne_nil _ (by split <;> simp)]
              split
              · have : ('/' :: x :: o) = ['/'] ++ (x :: o) := rfl
                rw [this, List.getLast?_append_of_ne_nil _ (by simp)]
                exact h
              · exact h

theorem Clean_unrooted (c : Char) (t : Str) (hc : c ≠ '/') :
    (Clean (c :: t)).head? ≠ some '/' := by
  simp only [Clean, hc, if_false]
  split
  · simp
  · have := cleanLoop_unrooted (c :: t).length (c :: t) [] 0 (by simp)
    rw [List.head?_reverse]
    exact this

/-- A cleaned path never starts with two slashes. -/
theorem Clean_no_double_slash (name : Str) (t : Str) : Clean name ≠ '/' :: '/' :: t := by
  intro h
  cases name with
  | nil => simp [Clean] at h
  | cons c s =>
    by_cases hc : c = '/'
    · subst hc
      rcases CleanAbs_shape _ (Clean_rooted s) with h1 | ⟨x, rest, h1, h2⟩
      · rw [h1] at h; simp at h
      · rw [h1] at h
        simp only [List.cons.injEq, true_and] at h
        rw [h.1] at h2
        simp [notSlash_slash] at h2
    · have := Clean_unrooted c s hc
      rw [h] at this
      simp at this

/-! ## Resolution: `findMountPoint` -/

theorem dropWhile_cons_of_ne (c : Char) (t : Str) (h : c ≠ '/') :
    (c :: t).dropWhile notSlash = t.dropWhile notSlash := by
  simp [List.dropWhile_cons, notSlash_of_ne h]

/-- With enough fuel the result of the loop does not depend on the fuel. -/
theorem cleanLoop_fuel (rooted : Bool) (f1 : Nat) : ∀ (f2 : Nat) (rest out : Str) (dotdot : Nat),
    rest.length ≤ f1 → rest.length ≤ f2 →
    cleanLoop rooted f1 rest out dotdot = cleanLoop rooted f2 rest out dotdot := by
  induction f1 with
  | zero =>
    intro f2 rest out dotdot h1 h2
    have : rest = [] := List.length_eq_zero.mp (Nat.le_zero.mp h1)
    subst this
    cases f2 <;> simp [cleanLoop]
  | succ f1 ih =>
    intro f2 rest out dotdot h1 h2
    cases rest with
    | nil => cases f2 <;> simp [cleanLoop]
    | cons c t =>
      cases f2 with
      | zero => simp at h2
      | succ f2 =>
        simp only [List.length_cons, Nat.add_le_add_iff_right] at h1 h2
        rw [cleanLoop_cons, cleanLoop_cons]
        have htail : t.tail.length ≤ t.length := by simp
        by_cases hc : c = '/'
        · rw [if_pos hc, if_pos hc]
          exact ih _ _ _ _ h1 h2
        · rw [if_neg hc, if_neg hc]
          by_cases hd : c = '.' ∧ (t = [] ∨ t.head? = some '/')
          · rw [if_pos hd, if_pos hd]
            exact ih _ _ _ _ h1 h2
          · rw [if_neg hd, if_neg hd]
            by_cases hdd : c = '.' ∧ t.head? = some '.' ∧ (t.tail = [] ∨ t.tail.head? = some '/')
            · rw [if_pos hdd, if_pos hdd]
              by_cases hlen : out.length > dotdot
              · rw [if_pos hlen, if_pos hlen]
                cases out with
                | nil => exact ih _ _ _ _ (by omega) (by omega)
                | cons x o => exact ih _ _ _ _ (by omega) (by omega)
              · rw [if_neg hlen, if_neg hlen]
                by_cases hr : rooted = false
                · rw [if_pos hr, if_pos hr]
                  exact ih _ _ _ _ (by omega) (by omega)
                · rw [if_neg hr, if_neg hr]
                  exact ih _ _ _ _ (by omega) (by omega)
            · rw [if_neg hdd, if_neg hdd]
              have hl := dropWhile_length_le t
              rw [dropWhile_cons_of_ne c t hc]
              exact ih _ _ _ _ (by omega) (by omega)

theorem cleanRun_nil (rooted : Bool) (out : Str) (dotdot : Nat) :
    cleanRun rooted [] out dotdot = out := by
  simp [cleanRun, cleanLoop]

theorem cleanRun_slash (rooted : Bool) (t out : Str) (dotdot : Nat) :
    cleanRun rooted ('/' :: t) out dotdot = cleanRun rooted t out dotdot := by
  unfold cleanRun
  rw [List.length_cons, cleanLoop_cons]
  simp only [if_true]

theorem cleanRun_slashes (rooted : Bool) (k : Nat) (t out : Str) (dotdot : Nat) :
    cleanRun rooted (List.replicate k '/' ++ t) out dotdot = cleanRun rooted t out dotdot := by
  induction k with
  | zero => simp
  | succ k ih => rw [List.replicate_succ, List.cons_append, cleanRun_slash, ih]

theorem takeWhile_elem (e rest : Str) (he : ∀ c ∈ e, notSlash c = true)
    (hr : rest = [] ∨ rest.head? = some '/') :
    (e ++ rest).takeWhile notSlash = e ∧ (e ++ rest).dropWhile notSlash = rest := by
  induction e with
  | nil =>
    rcases hr with h | h
    · subst h; simp
    · cases rest with
      | nil => simp
      | cons x r =>
        simp only [List.head?_cons, Option.some.injEq] at h
        subst h
        simp [List.takeWhile_cons, List.dropWhile_cons, notSlash_slash]
  | cons c e ih =>
    have hc := he c (List.mem_cons_self _ _)
    have := ih (fun d hd => he d (List.mem_cons_of_mem _ hd))
    simp [List.takeWhile_cons, List.dropWhile_cons, hc, this.1, this.2]

/-- One element is copied to the buffer. -/
theorem cleanRun_elem (e rest : Str) (es : List Str) (he : validElem e)
    (hes : ∀ x ∈ es, validElem x) (hr : rest = [] ∨ rest.head? = some '/') :
    cleanRun true (e ++ rest) (bufOf es) 1 = cleanRun true rest (bufOf (e :: es)) 1 := by
  obtain ⟨hne, hall, hdot, hdotdot⟩ := he
  obtain ⟨c, e2, rfl⟩ := List.exists_cons_of_ne_nil hne
  have hc : c ≠ '/' := (notSlash_iff c).1 (hall c (List.mem_cons_self _ _))
  have hall2 : ∀ d ∈ e2, notSlash d = true := fun d hd => hall d (List.mem_cons_of_mem _ hd)
  unfold cleanRun
  rw [List.cons_append, List.length_cons, cleanLoop_cons]
  have h1 : ¬ (c = '.' ∧ (e2 ++ rest = [] ∨ (e2 ++ rest).head? = some '/')) := by
    rintro ⟨hcd, h⟩
    apply hdot
    have : (e2 ++ rest).takeWhile notSlash = [] := (takeWhile_nil_iff _).2 h
    rw [(takeWhile_elem e2 rest hall2 hr).1] at this
    rw [hcd, this]
  have h2 : ¬ (c = '.' ∧ (e2 ++ rest).head? = some '.' ∧
      ((e2 ++ rest).tail = [] ∨ (e2 ++ rest).tail.head? = some '/')) := by
    rintro ⟨hcd, hh, ht⟩
    apply hdotdot
    cases e2 with
    | nil =>
      rcases hr with hr | hr
      · subst hr; simp at hh
      · simp only [List.nil_append] at hh; rw [hr] at hh; simp at hh
    | cons d e3 =>
      simp only [List.cons_append, List.head?_cons, Option.some.injEq] at hh
      simp only [List.cons_append, List.tail_cons] at ht
      have hall3 : ∀ x ∈ e3, notSlash x = true :=
        fun x hx => hall2 x (List.mem_cons_of_mem _ hx)
      have : (e3 ++ rest).takeWhile notSlash = [] := (takeWhile_nil_iff _).2 ht
      rw [(takeWhile_elem e3 rest hall3 hr).1] at this
      rw [hcd, hh, this]
  rw [if_neg hc, if_neg h1, if_neg h2]
  have htd := takeWhile_elem (c :: e2) rest hall hr
  simp only [List.cons_append] at htd
  rw [htd.1, htd.2]
  have hbuf : (c :: e2).reverse ++
      (if (true = true ∧ (bufOf es).length ≠ 1) ∨ (true = false ∧ (bufOf es).length ≠ 0)
        then '/' :: bufOf es else bufOf es) = bufOf ((c :: e2) :: es) := by
    rw [bufOf_cons]
    congr 1
    by_cases h0 : es = []
    · subst h0; simp [bufOf]
    · have := (bufOf_length_one es hes).not.2 h0
      simp [h0, this]
  rw [hbuf]
  apply cleanLoop_fuel
  · rw [List.length_append]; omega
  · exact le_refl _

/-- Elements separated by runs of slashes are pushed on the buffer one after the other. -/
theorem cleanRun_elems (k : Nat) : ∀ (more es : List Str), (∀ x ∈ more, validElem x) →
    (∀ x ∈ es, validElem x) →
    cleanRun true (more.flatMap (fun e => List.replicate (k + 1) '/' ++ e)) (bufOf es) 1 =
      bufOf (more.reverse ++ es) := by
  intro more
  induction more with
  | nil => intro es _ _; simp [cleanRun_nil]
  | cons e rest ih =>
    intro es hm hes
    have he := hm e (List.mem_cons_self _ _)
    have hrest : ∀ x ∈ rest, validElem x := fun x hx => hm x (List.mem_cons_of_mem _ hx)
    rw [List.flatMap_cons, List.append_assoc, cleanRun_slashes]
    rw [cleanRun_elem e _ es he hes]
    · rw [ih (e :: es) hrest]
      · simp
      · intro x hx
        rcases List.mem_cons.1 hx with h | h
        · rw [h]; exact he
        · exact hes x h
    · cases rest with
      | nil => left; simp
      | cons e2 r => right; simp [List.replicate_succ]

theorem Clean_rooted_eq (t : Str) : Clean ('/' :: t) = (cleanRun true t ['/'] 1).reverse := by
  simp only [Clean, if_true]
  have hf : cleanLoop true ('/' :: t).length t ['/'] 1 = cleanRun true t ['/'] 1 :=
    cleanLoop_fuel true _ _ _ _ _ (by simp) (le_refl _)
  rw [hf]
  obtain ⟨es, _, heq⟩ := cleanLoop_rooted_form t.length t [] (by simp)
  have hb : bufOf [] = ['/'] := rfl
  rw [hb] at heq
  unfold cleanRun
  rw [heq]
  have := bufOf_ne_nil es
  simp [this]

theorem bufOf_reverse (es : List Str) : (bufOf es).reverse = absPath es.reverse := by
  induction es with
  | nil => rfl
  | cons e es0 ih =>
    rw [bufOf_cons]
    by_cases h0 : es0 = []
    · subst h0
      simp [absPath]
    · simp only [h0, if_false, List.reverse_append, List.reverse_cons, List.reverse_reverse]
      rw [ih]
      have : es0.reverse ≠ [] := by simpa using h0
      simp [absPath, this, h0]

theorem CleanAbs_iff (k : Str) :
    CleanAbs k ↔ ∃ els : List Str, (∀ e ∈ els, validElem e) ∧ k = absPath els := by
  constructor
  · rintro ⟨es, hes, rfl⟩
    exact ⟨es.reverse, fun e he => hes e (List.mem_reverse.1 he), bufOf_reverse es⟩
  · rintro ⟨els, hels, rfl⟩
    refine ⟨els.reverse, fun e he => hels e (List.mem_reverse.1 he), ?_⟩
    rw [bufOf_reverse, List.reverse_reverse]

/-- `path.Clean` leaves a cleaned rooted path as it is. -/
theorem Clean_absPath (els : List Str) (h : ∀ e ∈ els, validElem e) :
    Clean (absPath els) = absPath els := by
  by_cases h0 : els = []
  · subst h0; decide
  · have hform : absPath els = '/' :: (els.flatMap (fun e => List.replicate 1 '/' ++ e)).tail := by
      obtain ⟨e, r, rfl⟩ := List.exists_cons_of_ne_nil h0
      simp [absPath, List.replicate]
    have hrun : cleanRun true ((els.flatMap (fun e => List.replicate (0 + 1) '/' ++ e)).tail)
        ['/'] 1 = bufOf els.reverse := by
      have := cleanRun_elems 0 els [] h (by simp)
      rw [List.append_nil] at this
      rw [← this]
      obtain ⟨e, r, rfl⟩ := List.exists_cons_of_ne_nil h0
      simp only [List.flatMap_cons, List.replicate, List.cons_append, List.nil_append,
        List.tail_cons]
      rw [cleanRun_slash]
      rfl
    rw [hform, Clean_rooted_eq]
    simp only [Nat.zero_add] at hrun
    rw [hrun, bufOf_reverse, List.reverse_reverse, ← hform]

theorem Clean_idem_abs (k : Str) (h : CleanAbs k) : Clean k = k := by
  obtain ⟨els, hels, rfl⟩ := (CleanAbs_iff k).1 h
  exact Clean_absPath els hels

theorem segList_flatten (k : Str) : (segList k).flatten = k := by
  induction k with
  | nil => rfl
  | cons c t ih =>
    rw [segList]
    cases hs : segList t with
    | nil =>
      rw [hs] at ih
      simp only [List.flatten_nil] at ih
      simp [← ih]
    | cons s ss =>
      rw [hs] at ih
      simp only
      split
      · simp only [List.flatten_cons] at ih ⊢
        rw [ih]; rfl
      · simp only [List.flatten_cons] at ih ⊢
        rw [List.cons_append, ih]

theorem segList_elems : ∀ (els : List Str), (∀ e ∈ els, validElem e) →
    segList (els.flatMap (fun e => '/' :: e)) = els.map (fun e => '/' :: e) := by
  intro els
  induction els with
  | nil => intro _; rfl
  | cons e rest ih =>
    intro h
    have he := h e (List.mem_cons_self _ _)
    have hr : rest.flatMap (fun e => '/' :: e) = [] ∨
        (rest.flatMap (fun e => '/' :: e)).head? = some '/' := by
      cases rest with
      | nil => left; rfl
      | cons e2 r => right; simp
    have htd := takeWhile_elem e _ he.2.1 hr
    rw [List.flatMap_cons, List.cons_append, segList_cons, htd.1, htd.2,
      ih (fun x hx => h x (List.mem_cons_of_mem _ hx))]
    rfl

theorem segList_absPath (els : List Str) (h : ∀ e ∈ els, validElem e) :
    segList (absPath els) = if els = [] then [['/']] else els.map (fun e => '/' :: e) := by
  by_cases h0 : els = []
  · subst h0; rfl
  · simp only [absPath, h0, if_false]
    exact segList_elems els h

theorem joinBuf_elems : ∀ (rest : List Str) (buf : Str), buf ≠ [] →
    joinBuf buf (rest.map (fun e => '/' :: e)) =
      buf ++ rest.flatMap (fun e => List.replicate (1 + 1) '/' ++ e) := by
  intro rest
  induction rest with
  | nil => intro buf _; simp [joinBuf]
  | cons e r ih =>
    intro buf hb
    have hpos : buf.length > 0 := List.length_pos.mpr hb
    rw [List.map_cons, joinBuf]
    simp only [hpos, true_or, if_true]
    rw [ih _ (by simp)]
    simp [List.replicate]

/-- `path.Join` of the segments of a cleaned rooted path is the path. -/
theorem Join_segList_absPath (els : List Str) (h : ∀ e ∈ els, validElem e) :
    Join (segList (absPath els)) = absPath els := by
  by_cases h0 : els = []
  · subst h0; decide
  · obtain ⟨e, r, rfl⟩ := List.exists_cons_of_ne_nil h0
    rw [segList_absPath _ h]
    simp only [h0, if_false]
    unfold Join
    have hsum : ¬ ((List.map List.length (List.map (fun e => '/' :: e) (e :: r))).sum = 0) := by
      simp
    rw [if_neg hsum, List.map_cons, joinBuf]
    simp only [List.length_nil, gt_iff_lt, Nat.lt_irrefl, false_or, ne_eq, reduceCtorEq,
      not_false_eq_true, if_true, if_false, List.nil_append]
    rw [joinBuf_elems r _ (by simp), List.cons_append, Clean_rooted_eq]
    have hrun := cleanRun_elems 1 (e :: r) [] h (by simp)
    rw [List.flatMap_cons, List.append_assoc, cleanRun_slashes, List.append_nil] at hrun
    have hb : bufOf [] = ['/'] := rfl
    rw [hb] at hrun
    rw [hrun, bufOf_reverse, List.reverse_reverse]

theorem Join_segList (k : Str) (h : CleanAbs k) : Join (segList k) = k := by
  obtain ⟨els, hels, rfl⟩ := (CleanAbs_iff k).1 h
  exact Join_segList_absPath els hels

theorem segList_ne_nil (k : Str) (h : k ≠ []) : segList k ≠ [] := by
  obtain ⟨c, t, rfl⟩ := List.exists_cons_of_ne_nil h
  rw [segList_cons]
  simp

theorem CleanAbs_ne_nil (k : Str) (h : CleanAbs k) : k ≠ [] := by
  rcases CleanAbs_shape k h with h1 | ⟨x, rest, h1, _⟩ <;> rw [h1] <;> simp

theorem PathSegmenter2_eq : PathSegmenter2 = PathSegmenter := by
  funext p i; rfl

theorem TrimPrefix_nil_left (p : Str) : TrimPrefix [] p = [] := by
  cases p <;> simp [TrimPrefix, HasPrefix]

theorem HasPrefix_self (s : Str) : HasPrefix s s = true := by
  induction s with
  | nil => rfl
  | cons c s ih => simp [HasPrefix, ih]

theorem HasPrefix_append (s t : Str) : HasPrefix (s ++ t) s = true := by
  induction s with
  | nil => cases t <;> rfl
  | cons c s ih => simp [HasPrefix, ih]

theorem TrimPrefix_append (s t : Str) : TrimPrefix (s ++ t) s = t := by
  simp [TrimPrefix, HasPrefix_append]

theorem TrimPrefix_self (s : Str) : TrimPrefix s s = [] := by
  have := TrimPrefix_append s []
  simpa using this

theorem notSlash_a : notSlash 'a' = true := by decide
theorem notSlash_b : notSlash 'b' = true := by decide

@[simp] theorem children_mk {T : Type} (v : T) (h : Bool) (cs : List (Str × PathTrie T)) :
    (PathTrie.mk v h cs).children = cs := rfl
@[simp] theorem value_mk {T : Type} (v : T) (h : Bool) (cs : List (Str × PathTrie T)) :
    (PathTrie.mk v h cs).value = v := rfl
@[simp] theorem hasValue_mk {T : Type} (v : T) (h : Bool) (cs : List (Str × PathTrie T)) :
    (PathTrie.mk v h cs).hasValue = h := rfl
theorem childAt_cons {T : Type} (p : Str) (c : PathTrie T) (rest : List (Str × PathTrie T))
    (part : Str) :
    childAt ((p, c) :: rest) part = if p = part then some c else childAt rest part := rfl
theorem childAt_nil {T : Type} (part : Str) : childAt ([] : List (Str × PathTrie T)) part = none :=
  rfl

theorem Join_a : Join ([] ++ ["/a".toList]) = "/a".toList := by decide
theorem Join_ab : Join ([] ++ ["/a".toList] ++ ["/b".toList]) = "/a/b".toList := by decide

theorem Get_ab_exact (t : PathTrie (Option Nat)) (pa pb : Nat)
    (h : childAt t.children "/a".toList = some (nodeA pa pb)) :
    Get PathSegmenter2 t "/a/b".toList = (some pb, []) ∧
    Get PathSegmenter2 t "/a".toList = (some pa, []) := by
  constructor
  · rw [PathSegmenter2_eq, Get_eq_getSegs]
    have hs : segList "/a/b".toList = ["/a".toList, "/b".toList] := by decide
    rw [hs]
    simp only [getSegs, h, nodeA, children_mk, childAt_cons, if_true, Join_ab, value_mk]
    rfl
  · rw [PathSegmenter2_eq, Get_eq_getSegs]
    have hs : segList "/a".toList = ["/a".toList] := by decide
    rw [hs]
    have hb : childAt [("/b".toList, PathTrie.mk (some pb) true [])] [] = none := by
      rfl
    simp only [getSegs, h, nodeA, children_mk, Join_a, value_mk]
    rfl

theorem Get_ab_below (t : PathTrie (Option Nat)) (pa pb : Nat)
    (h : childAt t.children "/a".toList = some (nodeA pa pb)) (rest : Str) :
    Get PathSegmenter2 t ("/a/b/".toList ++ rest) = (some pb, rest) := by
  rw [PathSegmenter2_eq, Get_eq_getSegs]
  have hs : segList ("/a/b/".toList ++ rest) =
      "/a".toList :: "/b".toList :: segList ('/' :: rest) := by
    show segList ('/' :: 'a' :: '/' :: 'b' :: '/' :: rest) = _
    rw [segList_cons]
    simp only [List.takeWhile_cons, List.dropWhile_cons, notSlash_a, notSlash_slash, if_true,
      Bool.false_eq_true, if_false]
    rw [segList_cons]
    simp only [List.takeWhile_cons, List.dropWhile_cons, notSlash_b, notSlash_slash, if_true,
      Bool.false_eq_true, if_false]
    rfl
  rw [hs, segList_cons]
  simp only [getSegs, h, nodeA, children_mk, childAt_cons, if_true, childAt_nil, Join_ab, value_mk]
  show (some pb, TrimPrefix (TrimPrefix ("/a/b".toList ++ '/' :: rest) "/a/b".toList) ['/']) = _
  rw [TrimPrefix_append]
  simp [TrimPrefix, HasPrefix]

theorem Get_a_below (t : PathTrie (Option Nat)) (pa pb : Nat)
    (h : childAt t.children "/a".toList = some (nodeA pa pb)) (rest : Str)
    (hb : rest.takeWhile notSlash ≠ ['b']) :
    Get PathSegmenter2 t ("/a/".toList ++ rest) = (some pa, rest) := by
  rw [PathSegmenter2_eq, Get_eq_getSegs]
  have hs : segList ("/a/".toList ++ rest) =
      "/a".toList :: segList ('/' :: rest) := by
    show segList ('/' :: 'a' :: '/' :: rest) = _
    rw [segList_cons]
    simp only [List.takeWhile_cons, List.dropWhile_cons, notSlash_a, notSlash_slash, if_true,
      Bool.false_eq_true, if_false]
    rfl
  rw [hs, segList_cons]
  have hn : ¬ ("/b".toList = '/' :: rest.takeWhile notSlash) := by
    intro heq
    apply hb
    have : ['/', 'b'] = '/' :: rest.takeWhile notSlash := heq
    simp only [List.cons.injEq, true_and] at this
    exact this.symm
  simp only [getSegs, h, nodeA, children_mk, childAt_cons, hn, if_false, childAt_nil, Join_a,
    value_mk]
  show (some pa, TrimPrefix (TrimPrefix ("/a".toList ++ '/' :: rest) "/a".toList) ['/']) = _
  rw [TrimPrefix_append]
  simp [TrimPrefix, HasPrefix]

theorem findMountPoint_of_Get (v : Vfs) (name : Str) (p : Nat) (r : Str)
    (h : Get PathSegmenter2 v.mounts (Clean name) = (some p, r)) :
    v.findMountPoint name = (some p, some (load v.heap p).fS, r) := by
  simp only [Vfs.findMountPoint, ToSlash, h]

theorem findMountPoint_nodeA (v : Vfs) (pa pb : Nat)
    (h : childAt v.mounts.children "/a".toList = some (nodeA pa pb)) (name rest : Str) :
    (Clean name = "/a/b".toList →
      v.findMountPoint name = (some pb, some (load v.heap pb).fS, [])) ∧
    (Clean name = "/a/b/".toList ++ rest →
      v.findMountPoint name = (some pb, some (load v.heap pb).fS, rest)) ∧
    (Clean name = "/a".toList →
      v.findMountPoint name = (some pa, some (load v.heap pa).fS, [])) ∧
    (Clean name = "/a/".toList ++ rest → rest.takeWhile notSlash ≠ ['b'] →
      v.findMountPoint name = (some pa, some (load v.heap pa).fS, rest)) := by
  refine ⟨fun hc => ?_, fun hc => ?_, fun hc => ?_, fun hc hb => ?_⟩
  · exact findMountPoint_of_Get v name pb [] (by rw [hc]; exact (Get_ab_exact _ pa pb h).1)
  · exact findMountPoint_of_Get v name pb rest (by rw [hc]; exact Get_ab_below _ pa pb h rest)
  · exact findMountPoint_of_Get v name pa [] (by rw [hc]; exact (Get_ab_exact _ pa pb h).2)
  · exact findMountPoint_of_Get v name pa rest (by rw [hc]; exact Get_a_below _ pa pb h rest hb)

/-- C6: with mounts at `/a` and `/a/b`, mounted in any order, with or without a mount at
`/`: a name whose cleaned form is `/a/b` or `/a/b/rest` resolves to the mount at `/a/b` with
remainder `rest`, and a name whose cleaned form is `/a` or `/a/rest`, the first segment of
`rest` not being `b`, resolves to the mount at `/a` with remainder `rest`. -/
theorem findMountPoint_a_and_ab (r a b : Nat) (ms : List (Str × FS)) (hms : ms ∈ ordersAB r a b)
    (name rest : Str) :
    ∃ pa pb : Nat,
      load (mountAll ms).heap pa = ⟨"/a".toList, FS.backend a, 0⟩ ∧
      load (mountAll ms).heap pb = ⟨"/a/b".toList, FS.backend b, 0⟩ ∧
      (Clean name = "/a/b".toList →
        (mountAll ms).findMountPoint name = (some pb, some (FS.backend b), [])) ∧
      (Clean name = "/a/b/".toList ++ rest →
        (mountAll ms).findMountPoint name = (some pb, some (FS.backend b), rest)) ∧
      (Clean name = "/a".toList →
        (mountAll ms).findMountPoint name = (some pa, some (FS.backend a), [])) ∧
      (Clean name = "/a/".toList ++ rest → rest.takeWhile notSlash ≠ ['b'] →
        (mountAll ms).findMountPoint name = (some pa, some (FS.backend a), rest)) := by
  simp only [ordersAB, List.mem_cons, List.mem_singleton, List.not_mem_nil, or_false] at hms
  rcases hms with h | h | h | h | h | h | h | h <;> subst h
  · exact ⟨0, 1, rfl, rfl, findMountPoint_nodeA _ 0 1 (by rfl) name rest⟩
  · exact ⟨1, 0, rfl, rfl, findMountPoint_nodeA _ 1 0 (by rfl) name rest⟩
  · exact ⟨1, 2, rfl, rfl, findMountPoint_nodeA _ 1 2 (by rfl) name rest⟩
  · exact ⟨2, 1, rfl, rfl, findMountPoint_nodeA _ 2 1 (by rfl) name rest⟩
  · exact ⟨0, 2, rfl, rfl, findMountPoint_nodeA _ 0 2 (by rfl) name rest⟩
  · exact ⟨0, 1, rfl, rfl, findMountPoint_nodeA _ 0 1 (by rfl) name rest⟩
  · exact ⟨2, 0, rfl, rfl, findMountPoint_nodeA _ 2 0 (by rfl) name rest⟩
  · exact ⟨1, 0, rfl, rfl, findMountPoint_nodeA _ 1 0 (by rfl) name rest⟩

theorem findMountPoint_a_and_ab_witness :
    [("/a".toList, FS.backend 1), ("/a/b".toList, FS.backend 2)] ∈ ordersAB 0 1 2 ∧
    ∃ pa pb : Nat,
      load (mountAll [("/a".toList, FS.backend 1), ("/a/b".toList, FS.backend 2)]).heap pa =
        ⟨"/a".toList, FS.backend 1, 0⟩ ∧
      load (mountAll [("/a".toList, FS.backend 1), ("/a/b".toList, FS.backend 2)]).heap pb =
        ⟨"/a/b".toList, FS.backend 2, 0⟩ ∧
      (mountAll [("/a".toList, FS.backend 1), ("/a/b".toList, FS.backend 2)]).findMountPoint
        "/a/b/c/d.txt".toList = (some pb, some (FS.backend 2), "c/d.txt".toList) := by
  refine ⟨by decide, ?_⟩
  obtain ⟨pa, pb, h1, h2, -, h4, -, -⟩ :=
    findMountPoint_a_and_ab 0 1 2 [("/a".toList, FS.backend 1), ("/a/b".toList, FS.backend 2)]
      (by decide) "/a/b/c/d.txt".toList "c/d.txt".toList
  exact ⟨pa, pb, h1, h2, h4 (by decide)⟩

/-! ## The invariant of the mount table is kept by `Put` and `Delete` -/

set_option linter.unusedSectionVars false
variable {T : Type} [Inhabited T]

theorem AllNodes_mk (Q : List Str → T → Bool → List Str → Prop) (v : T) (h : Bool)
    (cs : List (Str × PathTrie T)) (path : List Str) :
    AllNodes Q (PathTrie.mk v h cs) path ↔
      (Q path v h (cs.map Prod.fst) ∧ AllChildren Q cs path) := by
  rw [AllNodes]

theorem AllChildren_iff (Q : List Str → T → Bool → List Str → Prop)
    (cs : List (Str × PathTrie T)) (path : List Str) :
    AllChildren Q cs path ↔ ∀ kc ∈ cs, AllNodes Q kc.2 (path ++ [kc.1]) := by
  induction cs with
  | nil => simp [AllChildren]
  | cons kc rest ih =>
    obtain ⟨k, c⟩ := kc
    rw [AllChildren, ih]
    simp

theorem AllNodes_iff (Q : List Str → T → Bool → List Str → Prop) (t : PathTrie T)
    (path : List Str) :
    AllNodes Q t path ↔
      (Q path t.value t.hasValue (t.children.map Prod.fst) ∧
        ∀ kc ∈ t.children, AllNodes Q kc.2 (path ++ [kc.1])) := by
  cases t with
  | mk v h cs => rw [AllNodes_mk, AllChildren_iff]; rfl

theorem childAt_mem {cs : List (Str × PathTrie T)} {k : Str} {c : PathTrie T}
    (h : childAt cs k = some c) : (k, c) ∈ cs := by
  induction cs with
  | nil => simp [childAt] at h
  | cons kc rest ih =>
    obtain ⟨k2, c2⟩ := kc
    rw [childAt_cons] at h
    split at h
    · rename_i heq
      simp only [Option.some.injEq] at h
      subst heq; subst h
      exact List.mem_cons_self _ _
    · exact List.mem_cons_of_mem _ (ih h)

theorem childAt_of_mem {cs : List (Str × PathTrie T)} {k : Str} {c : PathTrie T}
    (hn : (cs.map Prod.fst).Nodup) (h : (k, c) ∈ cs) : childAt cs k = some c := by
  induction cs with
  | nil => simp at h
  | cons kc rest ih =>
    obtain ⟨k2, c2⟩ := kc
    rw [childAt_cons]
    simp only [List.map_cons, List.nodup_cons] at hn
    rcases List.mem_cons.1 h with h1 | h1
    · simp only [Prod.mk.injEq] at h1
      rw [if_pos h1.1.symm, h1.2]
    · have : k2 ≠ k := by
        intro heq
        subst heq
        exact hn.1 (List.mem_map.2 ⟨(k2, c), h1, rfl⟩)
      rw [if_neg this]
      exact ih hn.2 h1

theorem mem_setChild {cs : List (Str × PathTrie T)} {k : Str} {c : PathTrie T}
    {kc : Str × PathTrie T} (h : kc ∈ setChild cs k c) : kc ∈ cs ∨ kc = (k, c) := by
  induction cs with
  | nil => simp [setChild] at h; exact Or.inr h
  | cons x rest ih =>
    obtain ⟨k2, c2⟩ := x
    rw [setChild] at h
    split at h
    · rcases List.mem_cons.1 h with h1 | h1
      · rename_i heq
        right; rw [h1, heq]
      · left; exact List.mem_cons_of_mem _ h1
    · rcases List.mem_cons.1 h with h1 | h1
      · left; rw [h1]; exact List.mem_cons_self _ _
      · rcases ih h1 with h2 | h2
        · left; exact List.mem_cons_of_mem _ h2
        · right; exact h2

theorem keys_setChild (cs : List (Str × PathTrie T)) (k : Str) (c : PathTrie T) :
    (setChild cs k c).map Prod.fst =
      if k ∈ cs.map Prod.fst then cs.map Prod.fst else cs.map Prod.fst ++ [k] := by
  induction cs with
  | nil => simp [setChild]
  | cons x rest ih =>
    obtain ⟨k2, c2⟩ := x
    rw [setChild]
    by_cases h : k2 = k
    · simp [h]
    · rw [if_neg h]
      simp only [List.map_cons, ih, List.mem_cons]
      have h' : ¬ k = k2 := fun e => h e.symm
      by_cases h3 : k ∈ rest.map Prod.fst
      · simp [h3]
      · simp [h3, h']

theorem nodup_keys_setChild (cs : List (Str × PathTrie T)) (k : Str) (c : PathTrie T)
    (h : (cs.map Prod.fst).Nodup) : ((setChild cs k c).map Prod.fst).Nodup := by
  rw [keys_setChild]
  split
  · exact h
  · rename_i hk
    rw [List.nodup_append]
    refine ⟨h, by simp, ?_⟩
    intro a ha hb
    simp at hb
    subst hb
    exact hk ha

theorem delChild_sublist (cs : List (Str × PathTrie T)) (k : Str) :
    (delChild cs k).Sublist cs := by
  induction cs with
  | nil => simp [delChild]
  | cons x rest ih =>
    obtain ⟨k2, c2⟩ := x
    rw [delChild]
    split
    · exact List.sublist_cons_self _ _
    · exact ih.cons₂ _

theorem childAt_setChild (cs : List (Str × PathTrie T)) (k : Str) (c : PathTrie T) (q : Str) :
    childAt (setChild cs k c) q = if k = q then some c else childAt cs q := by
  induction cs with
  | nil => simp [setChild, childAt_cons, childAt_nil]
  | cons x rest ih =>
    obtain ⟨k2, c2⟩ := x
    rw [setChild]
    by_cases h : k2 = k
    · subst h
      simp only [if_true, childAt_cons]
      split <;> rfl
    · rw [if_neg h, childAt_cons, childAt_cons, ih]
      by_cases h2 : k2 = q
      · have : ¬ k = q := fun e => h (h2.trans e.symm)
        simp [h2, this]
      · simp [h2]


/-- Induction on a trie: a property holds of a node when it holds of its children. -/
theorem trie_induct {motive : PathTrie T → Prop}
    (step : ∀ (v : T) (h : Bool) (cs : List (Str × PathTrie T)),
      (∀ kc ∈ cs, motive kc.2) → motive (PathTrie.mk v h cs)) :
    ∀ t : PathTrie T, motive t := by
  have key : ∀ (n : Nat) (t : PathTrie T), sizeOf t ≤ n → motive t := by
    intro n
    induction n with
    | zero =>
      intro t hs
      cases t with
      | mk v h cs => simp at hs
    | succ n ih =>
      intro t hs
      cases t with
      | mk v h cs =>
        apply step
        intro kc hkc
        apply ih
        have h1 := List.sizeOf_lt_of_mem hkc
        have h2 : sizeOf kc.2 < sizeOf kc := by
          obtain ⟨a, b⟩ := kc
          simp
        simp at hs
        omega
  intro t
  exact key (sizeOf t) t (le_refl _)

theorem AllNodes_mono {Q Q2 : List Str → T → Bool → List Str → Prop}
    (himp : ∀ path v h keys, Q path v h keys → Q2 path v h keys) (t : PathTrie T) :
    ∀ path : List Str, AllNodes Q t path → AllNodes Q2 t path := by
  induction t using trie_induct with
  | step v h cs ih =>
    intro path hq
    rw [AllNodes_iff] at hq ⊢
    exact ⟨himp _ _ _ _ hq.1, fun kc hkc => ih kc hkc _ (hq.2 kc hkc)⟩

theorem NodeOK_new (heap : List MountPoint) (path : List Str) :
    AllNodes (NodeOK heap) (newPathTrie : PathTrie (Option Nat)) path := by
  rw [AllNodes_iff]
  refine ⟨⟨fun _ => rfl, fun h => by simp [newPathTrie] at h, by simp [newPathTrie]⟩, ?_⟩
  intro kc hkc
  simp [newPathTrie] at hkc

/-- `Put` keeps the invariant of the mount table. -/
theorem putSegs_NodeOK (heap : List MountPoint) (p : Nat) (hp : p < heap.length)
    (hc : CleanAbs (load heap p).mountPrefix) :
    ∀ (segs : List Str) (t : PathTrie (Option Nat)) (path : List Str),
      AllNodes (NodeOK heap) t path → segList (load heap p).mountPrefix = path ++ segs →
      AllNodes (NodeOK heap) (putSegs (some p) segs t).1 path := by
  intro segs
  induction segs with
  | nil =>
    intro t path hq hs
    rw [AllNodes_iff] at hq
    rw [putSegs, AllNodes_iff]
    simp only [setValue, children_mk, value_mk, hasValue_mk]
    refine ⟨⟨fun h => by simp at h, fun _ => ⟨p, rfl, hp, hc, by simpa using hs⟩, hq.1.2.2⟩, hq.2⟩
  | cons part rest ih =>
    intro t path hq hs
    rw [AllNodes_iff] at hq
    rw [putSegs, AllNodes_iff]
    simp only [children_mk, value_mk, hasValue_mk]
    refine ⟨⟨hq.1.1, hq.1.2.1, nodup_keys_setChild _ _ _ hq.1.2.2⟩, ?_⟩
    intro kc hkc
    rcases mem_setChild hkc with h1 | h1
    · exact hq.2 kc h1
    · rw [h1]
      apply ih
      · cases hch : childAt t.children part with
        | none => exact NodeOK_new heap _
        | some c => exact hq.2 (part, c) (childAt_mem hch)
      · rw [hs]; simp

/-- `Delete` keeps the invariant of the mount table. -/
theorem deleteSegs_NodeOK (heap : List MountPoint) :
    ∀ (segs : List Str) (t : PathTrie (Option Nat)) (path : List Str) (t2 : PathTrie (Option Nat))
      (u : Bool), AllNodes (NodeOK heap) t path → deleteSegs segs t = some (t2, u) →
      AllNodes (NodeOK heap) t2 path := by
  intro segs
  induction segs with
  | nil =>
    intro t path t2 u hq hd
    rw [AllNodes_iff] at hq
    simp only [deleteSegs, Option.some.injEq, Prod.mk.injEq] at hd
    rw [← hd.1, AllNodes_iff]
    simp only [clearValue, children_mk, value_mk, hasValue_mk]
    exact ⟨⟨fun _ => rfl, fun h => by simp at h, hq.1.2.2⟩, hq.2⟩
  | cons part rest ih =>
    intro t path t2 u hq hd
    rw [AllNodes_iff] at hq
    rw [deleteSegs] at hd
    cases hch : childAt t.children part with
    | none => rw [hch] at hd; simp at hd
    | some child =>
      rw [hch] at hd
      simp only at hd
      cases hr : deleteSegs rest child with
      | none => rw [hr] at hd; simp at hd
      | some r =>
        obtain ⟨child1, unlink⟩ := r
        rw [hr] at hd
        simp only at hd
        have hchild := ih child (path ++ [part]) child1 unlink
          (hq.2 (part, child) (childAt_mem hch)) hr
        cases unlink with
        | true =>
          simp only [if_true, Option.some.injEq, Prod.mk.injEq] at hd
          rw [← hd.1, AllNodes_iff]
          simp only [children_mk, value_mk, hasValue_mk]
          refine ⟨⟨hq.1.1, hq.1.2.1, ?_⟩, ?_⟩
          · exact List.Nodup.sublist ((delChild_sublist _ _).map _) hq.1.2.2
          · intro kc hkc
            exact hq.2 kc ((delChild_sublist _ _).subset hkc)
        | false =>
          simp only [Bool.false_eq_true, if_false, Option.some.injEq, Prod.mk.injEq] at hd
          rw [← hd.1, AllNodes_iff]
          simp only [children_mk, value_mk, hasValue_mk]
          refine ⟨⟨hq.1.1, hq.1.2.1, nodup_keys_setChild _ _ _ hq.1.2.2⟩, ?_⟩
          intro kc hkc
          rcases mem_setChild hkc with h1 | h1
          · exact hq.2 kc h1
          · rw [h1]; exact hchild

theorem NodeOK_valid {heap : List MountPoint} {t : PathTrie (Option Nat)} {path : List Str}
    (h : AllNodes (NodeOK heap) t path) : ValidPtr heap t.value := by
  rw [AllNodes_iff] at h
  intro p hp
  cases hh : t.hasValue with
  | false => rw [h.1.1 hh] at hp; simp at hp
  | true =>
    obtain ⟨q, hq1, hq2, -⟩ := h.1.2.1 hh
    rw [hq1] at hp
    simp only [Option.some.injEq] at hp
    omega

theorem getSegs_valid (heap : List MountPoint) :
    ∀ (segs : List Str) (t : PathTrie (Option Nat)) (path : List Str)
      (pre : Option (PathTrie (Option Nat))) (pfx : List Str),
      AllNodes (NodeOK heap) t path → (∀ n, pre = some n → ValidPtr heap n.value) →
      ∀ n, (getSegs segs t pre pfx).1 = some n → ValidPtr heap n.value := by
  intro segs
  induction segs with
  | nil =>
    intro t path pre pfx _ hpre n hn
    exact hpre n hn
  | cons part rest ih =>
    intro t path pre pfx hq hpre n hn
    rw [getSegs] at hn
    cases hch : childAt t.children part with
    | none => rw [hch] at hn; exact hpre n hn
    | some child =>
      rw [hch] at hn
      have hchild : AllNodes (NodeOK heap) child (path ++ [part]) := by
        rw [AllNodes_iff] at hq
        exact hq.2 (part, child) (childAt_mem hch)
      refine ih child (path ++ [part]) (some child) _ hchild ?_ n hn
      intro m hm
      simp only [Option.some.injEq] at hm
      rw [← hm]
      exact NodeOK_valid hchild

/-- What `Get` returns from a mount table is nil or points into the heap. -/
theorem Get_valid (heap : List MountPoint) (t : PathTrie (Option Nat)) (key : Str)
    (h : AllNodes (NodeOK heap) t []) : ValidPtr heap (Get PathSegmenter2 t key).1 := by
  rw [PathSegmenter2_eq, Get_eq_getSegs]
  have := getSegs_valid heap (segList key) t [] none [] h (by simp)
  rcases hg : getSegs (segList key) t none [] with ⟨_ | n, pfx⟩
  · intro p hp; simp at hp
  · rw [hg] at this
    exact this n rfl

theorem descend_AllNodes {Q : List Str → T → Bool → List Str → Prop} :
    ∀ (ks : List Str) (t n : PathTrie T) (path : List Str),
      AllNodes Q t path → descend t ks = some n → AllNodes Q n (path ++ ks) := by
  intro ks
  induction ks with
  | nil =>
    intro t n path hq hd
    simp only [descend, Option.some.injEq] at hd
    subst hd
    simpa using hq
  | cons k ks ih =>
    intro t n path hq hd
    rw [descend] at hd
    cases hch : childAt t.children k with
    | none => rw [hch] at hd; simp at hd
    | some c =>
      rw [hch] at hd
      rw [AllNodes_iff] at hq
      have := ih c n (path ++ [k]) (hq.2 (k, c) (childAt_mem hch)) hd
      simpa using this

theorem getSegs_descend :
    ∀ (ks : List Str) (t n : PathTrie T) (pre : Option (PathTrie T)) (pfx : List Str),
      descend t ks = some n → ks ≠ [] → getSegs ks t pre pfx = (some n, pfx ++ ks) := by
  intro ks
  induction ks with
  | nil => intro t n pre pfx _ h; exact absurd rfl h
  | cons k ks ih =>
    intro t n pre pfx hd _
    rw [descend] at hd
    rw [getSegs]
    cases hch : childAt t.children k with
    | none => rw [hch] at hd; simp at hd
    | some c =>
      rw [hch] at hd
      simp only
      cases ks with
      | nil =>
        simp only [descend, Option.some.injEq] at hd
        subst hd
        rfl
      | cons k2 ks2 =>
        rw [ih c n (some c) (pfx ++ [k]) hd (by simp)]
        simp

/-- C1 (code evaluated at the failing input): with mounts at `/a` and `/a/b/c`, the path
`/a/b/x` lies beneath `/a` and no deeper mounted prefix is a prefix of it, yet it does not
resolve to the mount at `/a`: without a root mount nothing is found, with a root mount the
path goes to the root mount with remainder `a/b/x`. -/
theorem findMountPoint_valueless_node_shadows :
    shadowV.entries = [("/a".toList, some 0), ("/a/b/c".toList, some 1)] ∧
    shadowV.findMountPoint "/a/b/x".toList = (none, none, "x".toList) ∧
    shadowRootV.findMountPoint "/a/b/x".toList =
      (some 0, some (FS.backend 0), "a/b/x".toList) ∧
    shadowRootV.findMountPoint "/a/x".toList = (some 1, some (FS.backend 1), "x".toList) := by
  decide

/-! ## Mount and Unmount -/

/-- C9: `Mount` fails with `EINVAL` exactly when the prefix is empty, does not begin with a
slash, or the backend is nil; otherwise it fails with `ErrRecursive` exactly when the backend
is the router itself; otherwise it returns nil. A failing `Mount` leaves the router as it
was, and every error carries the operation `mount` and the prefix as passed. -/
theorem Mount_error_cases (v : Vfs) (pfx : Str) (fsys : Option FS) :
    ((v.Mount pfx fsys).2 = some ⟨"mount", pfx, Errno.EINVAL⟩ ↔
        (pfx = [] ∨ pfx.head? ≠ some '/' ∨ fsys = none)) ∧
    (¬ (pfx = [] ∨ pfx.head? ≠ some '/' ∨ fsys = none) →
        ((v.Mount pfx fsys).2 = some ⟨"mount", pfx, Errno.ErrRecursive⟩ ↔
          fsys = some FS.router)) ∧
    (¬ (pfx = [] ∨ pfx.head? ≠ some '/' ∨ fsys = none) → fsys ≠ some FS.router →
        (v.Mount pfx fsys).2 = none) ∧
    ((v.Mount pfx fsys).2 ≠ none → (v.Mount pfx fsys).1 = v) ∧
    (∀ e, (v.Mount pfx fsys).2 = some e →
        e = ⟨"mount", pfx, Errno.EINVAL⟩ ∨ e = ⟨"mount", pfx, Errno.ErrRecursive⟩) := by
  cases fsys with
  | none => simp [Vfs.Mount]
  | some f =>
    by_cases h1 : pfx = [] ∨ pfx.head? ≠ some '/'
    · have h1b : (pfx = [] ∨ ¬ pfx.head? = some '/') := h1
      simp [Vfs.Mount, h1b]
    · have h1b : ¬ (pfx = [] ∨ ¬ pfx.head? = some '/') := h1
      by_cases h2 : f = FS.router
      · simp [Vfs.Mount, h1b, h2]
      · simp [Vfs.Mount, h1b, h2]

/-- C8 (code evaluated at the failing input): with one mount, at `/c`, the call
`Unmount(".", nil)` names a prefix that is not mounted, yet it returns nil and removes the
mount at `/c`; `Unmount("/non-exist", nil)` fails with `ENOENT` and removes nothing. -/
theorem Unmount_dot_removes_a_mount :
    oneMountV.entries = [("/c".toList, some 0)] ∧
    (oneMountV.Unmount noSync ".".toList none).map (fun r => (r.1.entries, r.2)) =
      some ([], none) ∧
    (oneMountV.Unmount noSync "/non-exist".toList none).map (fun r => (r.1.entries, r.2)) =
      some ([("/c".toList, some 0)], some ⟨"unmount", "/non-exist".toList, Errno.ENOENT⟩) := by
  decide

/-! ## Open handles -/

theorem load_eq (heap : List MountPoint) (p : Nat) :
    load heap p = (heap[p]?).getD default := by
  simp [load, List.getD_eq_getElem?_getD]

theorem AddInt32_length (heap : List MountPoint) (mp : Nat) (d : Int) :
    (AddInt32 heap mp d).1.length = heap.length := by
  simp [AddInt32]

theorem AddInt32_snd (heap : List MountPoint) (mp : Nat) (d : Int) :
    (AddInt32 heap mp d).2 = int32 ((load heap mp).openCount + d) := rfl

theorem load_AddInt32_ne (heap : List MountPoint) (mp q : Nat) (d : Int) (h : q ≠ mp) :
    load (AddInt32 heap mp d).1 q = load heap q := by
  simp only [load_eq, AddInt32, List.getElem?_modify]
  have : ¬ mp = q := fun e => h e.symm
  cases heap[q]? <;> simp [this]

theorem load_AddInt32_mountPrefix (heap : List MountPoint) (mp q : Nat) (d : Int) :
    (load (AddInt32 heap mp d).1 q).mountPrefix = (load heap q).mountPrefix := by
  simp only [load_eq, AddInt32, List.getElem?_modify]
  cases heap[q]? <;> by_cases h : mp = q <;> simp [h]

theorem load_AddInt32_count (heap : List MountPoint) (mp : Nat) (d : Int) (h : mp < heap.length) :
    (load (AddInt32 heap mp d).1 mp).openCount = int32 ((load heap mp).openCount + d) := by
  simp only [load_eq, AddInt32, List.getElem?_modify]
  have : heap[mp]? = some heap[mp] := List.getElem?_eq_getElem h
  simp [this]

theorem int32_of_range (x : Int) (h1 : -2147483648 ≤ x) (h2 : x ≤ 2147483647) : int32 x = x := by
  unfold int32; omega

theorem int32_overflow : int32 (2147483647 + 1) = -2147483648 := by decide

theorem load_append_lt (heap : List MountPoint) (m : MountPoint) (p : Nat) (h : p < heap.length) :
    load (heap ++ [m]) p = load heap p := by
  simp [load_eq, List.getElem?_append_left h]

theorem load_append_eq (heap : List MountPoint) (m : MountPoint) :
    load (heap ++ [m]) heap.length = m := by
  simp [load_eq]

theorem load_ge (heap : List MountPoint) (p : Nat) (h : heap.length ≤ p) :
    load heap p = default := by
  simp [load_eq, List.getElem?_eq_none h]

theorem NodeOK_heap_ext (heap heap2 : List MountPoint) (hl : heap.length ≤ heap2.length)
    (hp : ∀ p < heap.length, (load heap2 p).mountPrefix = (load heap p).mountPrefix)
    (t : PathTrie (Option Nat)) (path : List Str) (h : AllNodes (NodeOK heap) t path) :
    AllNodes (NodeOK heap2) t path := by
  refine AllNodes_mono ?_ t path h
  intro path v hv keys hq
  refine ⟨hq.1, ?_, hq.2.2⟩
  intro hh
  obtain ⟨p, h1, h2, h3, h4⟩ := hq.2.1 hh
  exact ⟨p, h1, by omega, by rw [hp p h2]; exact h3, by rw [hp p h2]; exact h4⟩

theorem TableOK_New : TableOK New := NodeOK_new [] []

theorem Mount_TableOK (v : Vfs) (pfx : Str) (fsys : Option FS) (h : TableOK v) :
    TableOK (v.Mount pfx fsys).1 := by
  unfold Vfs.Mount
  cases fsys with
  | none => exact h
  | some f =>
    simp only
    split
    · exact h
    · rename_i hpfx
      split
      · exact h
      · unfold TableOK
        simp only
        rw [PathSegmenter2_eq, Put_eq_putSegs]
        have hext : AllNodes (NodeOK (v.heap ++ [⟨Clean pfx, f, 0⟩])) v.mounts [] := by
          apply NodeOK_heap_ext v.heap _ (by simp) _ _ _ h
          intro p hp
          rw [load_append_lt _ _ _ hp]
        apply putSegs_NodeOK _ _ (by simp) _ _ _ _ hext
        · rw [load_append_eq]; simp
        · rw [load_append_eq]
          simp only
          cases pfx with
          | nil => simp at hpfx
          | cons c t =>
            have : c = '/' := by
              by_contra hc
              apply hpfx
              right
              simpa using hc
            subst this
            exact Clean_rooted t

theorem Unmount_result (v : Vfs) (syncOf : FS → Option (Option Errno)) (pfx : Str)
    (fsys : Option FS) (r : Vfs × Option PathError) (h : v.Unmount syncOf pfx fsys = some r) :
    r.1 = v ∨ ∃ key, r.1 = { v with mounts := (v.mounts.Delete PathSegmenter2 key).1 } := by
  unfold Vfs.Unmount at h
  split at h
  · simp only [Option.some.injEq] at h; left; rw [← h]
  · simp only at h
    split at h
    · simp at h
    · split at h
      · simp only [Option.some.injEq] at h; left; rw [← h]
      · split at h
        · simp at h
        · split at h
          · simp only [Option.some.injEq] at h; left; rw [← h]
          · split at h
            · simp at h
            · split at h
              · simp only [Option.some.injEq] at h; right; exact ⟨_, by rw [← h]⟩
              · split at h
                · simp only [Option.some.injEq] at h; right; exact ⟨_, by rw [← h]⟩
                · simp only [Option.some.injEq] at h; right; exact ⟨_, by rw [← h]⟩

theorem Delete_NodeOK (heap : List MountPoint) (t : PathTrie (Option Nat)) (key : Str)
    (h : AllNodes (NodeOK heap) t []) :
    AllNodes (NodeOK heap) (t.Delete PathSegmenter2 key).1 [] := by
  rw [PathSegmenter2_eq, Delete_eq_deleteSegs]
  cases hd : deleteSegs (segList key) t with
  | none => exact h
  | some r =>
    obtain ⟨t2, u⟩ := r
    exact deleteSegs_NodeOK heap _ t [] t2 u h hd

theorem Unmount_TableOK (v : Vfs) (syncOf : FS → Option (Option Errno)) (pfx : Str)
    (fsys : Option FS) (r : Vfs × Option PathError) (h : v.Unmount syncOf pfx fsys = some r)
    (hv : TableOK v) : TableOK r.1 ∧ r.1.heap = v.heap := by
  rcases Unmount_result v syncOf pfx fsys r h with h1 | ⟨key, h1⟩
  · rw [h1]; exact ⟨hv, rfl⟩
  · rw [h1]; exact ⟨Delete_NodeOK v.heap v.mounts key hv, rfl⟩

theorem findMountPoint_valid (v : Vfs) (name : Str) (hv : TableOK v) (mp : Nat)
    (h : (v.findMountPoint name).1 = some mp) : mp < v.heap.length := by
  unfold Vfs.findMountPoint at h
  simp only at h
  have h1 := Get_valid v.heap v.mounts (ToSlash (Clean name)) hv
  have h2 := Get_valid v.heap v.mounts ['/'] hv
  rcases hg : Get PathSegmenter2 v.mounts (ToSlash (Clean name)) with ⟨_ | q, unrooted⟩
  · rw [hg] at h
    simp only at h
    rcases hr : (Get PathSegmenter2 v.mounts ['/']).1 with _ | q
    · rw [hr] at h; simp at h
    · rw [hr] at h
      simp only [Option.some.injEq] at h
      exact h2 mp (by rw [hr, h])
  · rw [hg] at h h1
    simp only [Option.some.injEq] at h
    exact h1 mp (by rw [h])

theorem opens_append (p : Nat) (hs : List (fileWrapper × Nat)) (x : fileWrapper × Nat) :
    opens p (hs ++ [x]) = opens p hs + (if x.1.closed = some p then 1 else 0) := by
  induction hs with
  | nil => simp [opens]
  | cons y hs ih => rw [List.cons_append, opens, ih, opens]; omega

theorem closes_append (p : Nat) (hs : List (fileWrapper × Nat)) (x : fileWrapper × Nat) :
    closes p (hs ++ [x]) = closes p hs + (if x.1.closed = some p then x.2 else 0) := by
  induction hs with
  | nil => simp [closes]
  | cons y hs ih => rw [List.cons_append, closes, ih, closes]; omega

theorem opens_set (p : Nat) : ∀ (hs : List (fileWrapper × Nat)) (i : Nat) (f : fileWrapper)
    (n m : Nat), hs.get? i = some (f, n) → opens p (hs.set i (f, m)) = opens p hs := by
  intro hs
  induction hs with
  | nil => intro i f n m h; simp at h
  | cons y hs ih =>
    intro i f n m h
    cases i with
    | zero =>
      simp only [List.get?_cons_zero, Option.some.injEq] at h
      subst h
      simp [opens]
    | succ i =>
      simp only [List.get?_cons_succ] at h
      simp only [List.set_cons_succ, opens, ih i f n m h]

theorem closes_set (p : Nat) : ∀ (hs : List (fileWrapper × Nat)) (i : Nat) (f : fileWrapper)
    (n : Nat), hs.get? i = some (f, n) →
    closes p (hs.set i (f, n + 1)) = closes p hs + (if f.closed = some p then 1 else 0) := by
  intro hs
  induction hs with
  | nil => intro i f n h; simp at h
  | cons y hs ih =>
    intro i f n h
    cases i with
    | zero =>
      simp only [List.get?_cons_zero, Option.some.injEq] at h
      subst h
      simp only [List.set_cons_zero, closes]
      split <;> omega
    | succ i =>
      simp only [List.get?_cons_succ] at h
      simp only [List.set_cons_succ, closes, ih i f n h]
      omega

theorem opens_zero_of_valid (hs : List (fileWrapper × Nat)) (N : Nat)
    (h : ∀ x ∈ hs, ∃ p, x.1.closed = some p ∧ p < N) (q : Nat) (hq : N ≤ q) :
    opens q hs = 0 := by
  induction hs with
  | nil => rfl
  | cons y hs ih =>
    obtain ⟨p, hp1, hp2⟩ := h y (List.mem_cons_self _ _)
    have : ¬ y.1.closed = some q := by
      rw [hp1]; simp; omega
    simp only [opens, this, if_false, ih (fun x hx => h x (List.mem_cons_of_mem _ hx))]

theorem closes_le_opens (p : Nat) (hs : List (fileWrapper × Nat)) (h : ∀ x ∈ hs, x.2 ≤ 1) :
    closes p hs ≤ opens p hs := by
  induction hs with
  | nil => simp [opens, closes]
  | cons y hs ih =>
    have h1 := h y (List.mem_cons_self _ _)
    have h2 := ih (fun x hx => h x (List.mem_cons_of_mem _ hx))
    simp only [opens, closes]
    split <;> omega

theorem TableOK_heap (v : Vfs) (heap2 : List MountPoint) (hl : heap2.length = v.heap.length)
    (hp : ∀ p, (load heap2 p).mountPrefix = (load v.heap p).mountPrefix) (h : TableOK v) :
    TableOK { v with heap := heap2 } := by
  unfold TableOK at h ⊢
  exact NodeOK_heap_ext v.heap heap2 (by omega) (fun p _ => hp p) _ _ h

/-- The invariant is kept when the open count of one mount point goes up and no handle is
returned, or stays as it is. -/
theorem WorldOK_count_up (w : World) (heap2 : List MountPoint) (h : WorldOK w)
    (hpan : w.panicked = none)
    (hl : heap2.length = w.vfs.heap.length)
    (hp : ∀ p, (load heap2 p).mountPrefix = (load w.vfs.heap p).mountPrefix)
    (hc : ∀ p, (load w.vfs.heap p).openCount ≤ (load heap2 p).openCount ∧
      (load heap2 p).openCount ≤ 2147483647) :
    WorldOK { w with vfs := { w.vfs with heap := heap2 } } := by
  obtain ⟨h1, h2, h3, h4, h5⟩ := h
  refine ⟨TableOK_heap _ _ hl hp h1, ?_, ?_, ?_, ?_⟩
  · intro x hx
    obtain ⟨p, hp1, hp2⟩ := h2 x hx
    exact ⟨p, hp1, by simp only; omega⟩
  · intro p
    have := h3 p
    have := hc p
    simp only
    omega
  · intro _ p
    have := h4 hpan p
    have := hc p
    simp only
    omega
  · intro hh
    simp only at hh
    rw [hpan] at hh
    simp at hh

theorem Open_WorldOK (w : World) (b : FS → Str → Except Errno Nat) (name : Str) (h : WorldOK w)
    (hpan : w.panicked = none) : WorldOK (w.opened (w.vfs.Open b name)) := by
  unfold Vfs.Open
  rcases hf : w.vfs.findMountPoint name with ⟨_ | mp, fsys, unrooted⟩
  · simp only [World.opened]
    exact h
  · simp only
    have hmp : mp < w.vfs.heap.length := findMountPoint_valid w.vfs name h.1 mp (by rw [hf])
    have hr := h.2.2.1 mp
    have hlen1 := AddInt32_length w.vfs.heap mp 1
    split
    · -- the counter overflowed and is put back
      rename_i hov
      rw [AddInt32_snd] at hov
      simp only [World.opened]
      apply WorldOK_count_up w _ h hpan
      · rw [AddInt32_length, AddInt32_length]
      · intro p; rw [load_AddInt32_mountPrefix, load_AddInt32_mountPrefix]
      · intro p
        by_cases hpm : p = mp
        · subst hpm
          rw [load_AddInt32_count _ _ _ (by omega), load_AddInt32_count _ _ _ hmp]
          unfold int32 at hov ⊢
          omega
        · rw [load_AddInt32_ne _ _ _ _ hpm, load_AddInt32_ne _ _ _ _ hpm]
          have := h.2.2.1 p
          omega
    · rename_i hov
      rw [AddInt32_snd] at hov
      have hcount : ∀ p, (load w.vfs.heap p).openCount ≤ (load (AddInt32 w.vfs.heap mp 1).1 p).openCount ∧
          (load (AddInt32 w.vfs.heap mp 1).1 p).openCount ≤ 2147483647 := by
        intro p
        by_cases hpm : p = mp
        · subst hpm
          rw [load_AddInt32_count _ _ _ hmp]
          unfold int32 at hov ⊢
          omega
        · rw [load_AddInt32_ne _ _ _ _ hpm]
          have := h.2.2.1 p
          omega
      have hnohandle : WorldOK { w with vfs := { w.vfs with heap := (AddInt32 w.vfs.heap mp 1).1 } } :=
        WorldOK_count_up w _ h hpan hlen1 (fun p => load_AddInt32_mountPrefix _ _ _ _) hcount
      cases fsys with
      | none => simp only [World.opened]; exact hnohandle
      | some f =>
        simp only
        cases hb : b f unrooted with
        | error e => simp only [World.opened]; exact hnohandle
        | ok file =>
          simp only [World.opened, newFileWrapper]
          obtain ⟨h1, h2, h3, h4, h5⟩ := hnohandle
          refine ⟨h1, ?_, h3, ?_, ?_⟩
          · intro x hx
            simp only [List.mem_append, List.mem_singleton] at hx
            rcases hx with hx | hx
            · exact h2 x hx
            · rw [hx]
              exact ⟨mp, rfl, by simp only; omega⟩
          · intro _ p
            simp only [opens_append, closes_append]
            by_cases hpm : p = mp
            · subst hpm
              have := h.2.2.2.1 hpan p
              simp only [if_true]
              rw [load_AddInt32_count _ _ _ hmp]
              unfold int32 at hov ⊢
              push_cast
              omega
            · have := h.2.2.2.1 hpan p
              have hne : ¬ (some mp = some p) := by simp; omega
              simp only [hne, if_false]
              rw [load_AddInt32_ne _ _ _ _ hpm]
              push_cast
              omega
          · intro hh
            simp only at hh
            rw [hpan] at hh
            simp at hh

theorem Close_WorldOK (w : World) (i : Nat) (fc : Option Errno) (h : WorldOK w)
    (hpan : w.panicked = none) : WorldOK (w.step (Op.Close i fc)) := by
  simp only [World.step, hpan]
  cases hg : w.handles.get? i with
  | none => exact h
  | some x =>
    obtain ⟨f, n⟩ := x
    simp only
    have hmem : (f, n) ∈ w.handles := List.get?_mem hg
    obtain ⟨q, hq1, hq2⟩ := h.2.1 (f, n) hmem
    simp only at hq1
    have hr := h.2.2.1 q
    have hinv := h.2.2.2.1 hpan
    have hvalid2 : ∀ x ∈ w.handles.set i (f, n + 1),
        ∃ p, x.1.closed = some p ∧ p < w.vfs.heap.length := by
      intro x hx
      rcases List.mem_or_eq_of_mem_set hx with hx | hx
      · exact h.2.1 x hx
      · rw [hx]; exact ⟨q, hq1, hq2⟩
    have hi : int32 ((load w.vfs.heap q).openCount + -1) = (load w.vfs.heap q).openCount - 1 := by
      unfold int32; omega
    by_cases hneg : int32 ((load w.vfs.heap q).openCount + -1) < 0
    · -- the count would drop below zero
      simp only [fileWrapper.Close, hq1, MountPoint.closed, AddInt32_snd, hneg, if_true]
      rw [hi] at hneg
      refine ⟨h.1, hvalid2, h.2.2.1, fun hh => by simp at hh, ?_⟩
      intro _
      refine ⟨q, ?_⟩
      simp only
      rw [opens_set q _ i f n (n + 1) hg, closes_set q _ i f n hg]
      have := hinv q
      simp only [hq1, if_true]
      omega
    · simp only [fileWrapper.Close, hq1, MountPoint.closed, AddInt32_snd, hneg, if_false]
      rw [hi] at hneg
      have hlen := AddInt32_length w.vfs.heap q (-1)
      refine ⟨TableOK_heap _ _ hlen (fun p => load_AddInt32_mountPrefix _ _ _ _) h.1, ?_, ?_, ?_, ?_⟩
      · intro x hx
        obtain ⟨p, hp1, hp2⟩ := hvalid2 x hx
        exact ⟨p, hp1, by simp only; omega⟩
      · intro p
        simp only
        by_cases hpq : p = q
        · subst hpq
          rw [load_AddInt32_count _ _ _ hq2, hi]
          omega
        · rw [load_AddInt32_ne _ _ _ _ hpq]
          exact h.2.2.1 p
      · intro _ p
        simp only
        rw [opens_set p _ i f n (n + 1) hg, closes_set p _ i f n hg]
        have := hinv p
        by_cases hpq : p = q
        · subst hpq
          rw [load_AddInt32_count _ _ _ hq2, hi]
          simp only [hq1, if_true]
          push_cast
          omega
        · rw [load_AddInt32_ne _ _ _ _ hpq]
          have hne : ¬ (f.closed = some p) := by rw [hq1]; simp; omega
          simp only [hne, if_false]
          push_cast
          omega
      · intro hh
        simp at hh

theorem Mount_heap (v : Vfs) (pfx : Str) (fsys : Option FS) :
    (v.Mount pfx fsys).1.heap = v.heap ∨
      ∃ m : MountPoint, m.openCount = 0 ∧ (v.Mount pfx fsys).1.heap = v.heap ++ [m] := by
  unfold Vfs.Mount
  cases fsys with
  | none => left; rfl
  | some f =>
    simp only
    split
    · left; rfl
    · split
      · left; rfl
      · right; exact ⟨_, rfl, rfl⟩

theorem Mount_WorldOK (w : World) (pfx : Str) (fsys : Option FS) (h : WorldOK w)
    (hpan : w.panicked = none) : WorldOK (w.step (Op.Mount pfx fsys)) := by
  simp only [World.step, hpan]
  have hT := Mount_TableOK w.vfs pfx fsys h.1
  rcases Mount_heap w.vfs pfx fsys with hh | ⟨m, hm, hh⟩
  · refine ⟨hT, ?_, ?_, ?_, ?_⟩
    · simp only [hh]; exact h.2.1
    · simp only [hh]; exact h.2.2.1
    · simp only [hh]; exact fun _ => h.2.2.2.1 hpan
    · intro hx; simp at hx
  · have hload : ∀ p, (load (w.vfs.heap ++ [m]) p).openCount = (load w.vfs.heap p).openCount := by
      intro p
      rcases Nat.lt_trichotomy p w.vfs.heap.length with hlt | heq | hgt
      · rw [load_append_lt _ _ _ hlt]
      · rw [heq, load_append_eq, load_ge _ _ (le_refl _), hm]; rfl
      · rw [load_ge _ _ (by simp; omega), load_ge _ _ (by omega)]
    refine ⟨hT, ?_, ?_, ?_, ?_⟩
    · simp only [hh]
      intro x hx
      obtain ⟨p, hp1, hp2⟩ := h.2.1 x hx
      exact ⟨p, hp1, by simp; omega⟩
    · simp only [hh]
      intro p
      rw [hload]
      exact h.2.2.1 p
    · simp only [hh]
      intro _ p
      rw [hload]
      exact h.2.2.2.1 hpan p
    · intro hx; simp at hx

theorem Unmount_WorldOK (w : World) (syncOf : FS → Option (Option Errno)) (pfx : Str)
    (fsys : Option FS) (h : WorldOK w) (hpan : w.panicked = none) :
    WorldOK (w.step (Op.Unmount syncOf pfx fsys)) := by
  simp only [World.step, hpan]
  cases hu : w.vfs.Unmount syncOf pfx fsys with
  | none =>
    simp only
    exact ⟨h.1, h.2.1, h.2.2.1, fun hh => by simp at hh, fun hh => by simp at hh⟩
  | some r =>
    simp only
    obtain ⟨hT, hheap⟩ := Unmount_TableOK w.vfs syncOf pfx fsys r hu h.1
    refine ⟨hT, ?_, ?_, ?_, ?_⟩
    · simp only [hheap]; exact h.2.1
    · simp only [hheap]; exact h.2.2.1
    · simp only [hheap]; exact fun _ => h.2.2.2.1 hpan
    · intro hx; simp at hx

theorem step_WorldOK (w : World) (op : Op) (h : WorldOK w) : WorldOK (w.step op) := by
  cases hpan : w.panicked with
  | some x =>
    have : w.step op = w := by simp [World.step, hpan]
    rw [this]; exact h
  | none =>
    cases op with
    | Mount pfx fsys => exact Mount_WorldOK w pfx fsys h hpan
    | Unmount syncOf pfx fsys => exact Unmount_WorldOK w syncOf pfx fsys h hpan
    | Open b name =>
      have : w.step (Op.Open b name) = w.opened (w.vfs.Open b name) := by
        simp [World.step, hpan]
      rw [this]; exact Open_WorldOK w b name h hpan
    | OpenFile b name =>
      have : w.step (Op.OpenFile b name) = w.opened (w.vfs.Open b name) := by
        simp [World.step, hpan, Vfs.OpenFile]
      rw [this]; exact Open_WorldOK w b name h hpan
    | Close i fc => exact Close_WorldOK w i fc h hpan

theorem run_WorldOK (ops : List Op) : ∀ w : World, WorldOK w → WorldOK (w.run ops) := by
  induction ops with
  | nil => intro w h; exact h
  | cons op ops ih =>
    intro w h
    exact ih _ (step_WorldOK w op h)

theorem init_WorldOK : WorldOK World.init := by
  refine ⟨TableOK_New, ?_, ?_, ?_, ?_⟩
  · intro x hx; simp [World.init] at hx
  · intro p
    have : load World.init.vfs.heap p = default := load_ge _ _ (by simp [World.init, New])
    rw [this]
    decide
  · intro _ p
    have : load World.init.vfs.heap p = default := load_ge _ _ (by simp [World.init, New])
    rw [this]
    simp only [World.init, opens, closes]
    decide
  · intro hh; simp [World.init] at hh

/-- C4: in every state reached from `New()` by `Mount`, `Unmount`, `Open`, `OpenFile` and
`Close` in which every handle returned has been closed at most once, the panic
`open count < 0` has not happened and the open count of every mount point ever created,
mounted or not, is at least zero. -/
theorem openCount_never_negative (ops : List Op)
    (honce : ∀ x ∈ (World.init.run ops).handles, x.2 ≤ 1) :
    (World.init.run ops).panicked ≠ some Panic.openCountNegative ∧
    ∀ mp ∈ (World.init.run ops).vfs.heap, 0 ≤ mp.openCount := by
  have h := run_WorldOK ops World.init init_WorldOK
  constructor
  · intro hp
    obtain ⟨p, hlt⟩ := h.2.2.2.2 hp
    have := closes_le_opens p _ honce
    omega
  · intro mp hmp
    obtain ⟨i, hi, heq⟩ := List.getElem_of_mem hmp
    have := (h.2.2.1 i).1
    rw [load_eq, List.getElem?_eq_getElem hi] at this
    simpa [heq] using this

theorem openCount_never_negative_witness :
    (World.init.run openCloseOps).handles = [(⟨7, some 0⟩, 1)] ∧
    (World.init.run openCloseOps).panicked ≠ some Panic.openCountNegative ∧
    ∀ mp ∈ (World.init.run openCloseOps).vfs.heap, 0 ≤ mp.openCount :=
  ⟨by decide, openCount_never_negative openCloseOps (by decide)⟩

/-! ## Resolving a mounted prefix -/

theorem walkChildren_collect {T : Type} [Inhabited T] (cs : List (Str × PathTrie T))
    (ih : ∀ kc ∈ cs, ∀ (key : Str) (acc : List (Str × T)),
      walk (fun key value (l : List (Str × T)) => (l ++ [(key, value)], false)) kc.2 key acc =
        (acc ++ walkList kc.2 key, false)) :
    ∀ (key : Str) (acc : List (Str × T)),
      walkChildren (fun key value (l : List (Str × T)) => (l ++ [(key, value)], false)) cs key acc =
        (acc ++ walkListCh cs key, false) := by
  induction cs with
  | nil => intro key acc; simp [walkChildren, walkListCh]
  | cons kc rest ihr =>
    intro key acc
    obtain ⟨part, child⟩ := kc
    rw [walkChildren, walkListCh]
    have h1 := ih (part, child) (List.mem_cons_self _ _) (key ++ part) acc
    simp only at h1
    rw [h1]
    simp only [Bool.false_eq_true, if_false]
    rw [ihr (fun kc hkc => ih kc (List.mem_cons_of_mem _ hkc))]
    simp

/-- A walk whose walker appends what it is given, and never fails, visits `walkList`. -/
theorem walk_collect {T : Type} [Inhabited T] (t : PathTrie T) : ∀ (key : Str) (acc : List (Str × T)),
    walk (fun key value (l : List (Str × T)) => (l ++ [(key, value)], false)) t key acc =
      (acc ++ walkList t key, false) := by
  induction t using trie_induct with
  | step v h cs ih =>
    intro key acc
    rw [walk, walkList]
    cases h with
    | true =>
      simp only [if_true, Bool.false_eq_true, if_false]
      rw [walkChildren_collect cs ih]
      simp
    | false =>
      simp only [Bool.false_eq_true, if_false]
      rw [walkChildren_collect cs ih]
      simp

theorem mem_walkListCh {T : Type} [Inhabited T] (cs : List (Str × PathTrie T)) (key : Str) (x : Str × T) :
    x ∈ walkListCh cs key ↔ ∃ kc ∈ cs, x ∈ walkList kc.2 (key ++ kc.1) := by
  induction cs with
  | nil => simp [walkListCh]
  | cons kc rest ih =>
    obtain ⟨part, child⟩ := kc
    rw [walkListCh, List.mem_append, ih]
    simp

theorem entries_eq (v : Vfs) : v.entries = walkList v.mounts [] := by
  unfold Vfs.entries PathTrie.Walk
  rw [walk_collect]
  simp

/-- In a mount table that satisfies the invariant, what a walk visits is the value of a node
that holds a value, and the key is the concatenation of the segments leading to the node. -/
theorem walkList_descend (heap : List MountPoint) (t : PathTrie (Option Nat)) :
    ∀ (path : List Str) (key : Str) (x : Str × Option Nat), AllNodes (NodeOK heap) t path →
      x ∈ walkList t key →
      ∃ ks n, descend t ks = some n ∧ n.hasValue = true ∧ n.value = x.2 ∧
        x.1 = key ++ ks.flatten := by
  induction t using trie_induct with
  | step v h cs ih =>
    intro path key x hq hx
    rw [AllNodes_iff] at hq
    rw [walkList, List.mem_append] at hx
    rcases hx with hx | hx
    · cases h with
      | false => simp at hx
      | true =>
        simp only [if_true, List.mem_singleton] at hx
        exact ⟨[], _, rfl, rfl, by rw [hx]; rfl, by rw [hx]; simp⟩
    · obtain ⟨kc, hkc, hx2⟩ := (mem_walkListCh cs key x).1 hx
      obtain ⟨ks, n, h1, h2, h3, h4⟩ := ih kc hkc _ _ x (hq.2 kc hkc) hx2
      refine ⟨kc.1 :: ks, n, ?_, h2, h3, ?_⟩
      · rw [descend]
        have : childAt (PathTrie.mk v h cs).children kc.1 = some kc.2 :=
          childAt_of_mem hq.1.2.2 hkc
        rw [this]
        exact h1
      · rw [h4]; simp

theorem TableOK_run (ops : List Op) : TableOK (World.init.run ops).vfs :=
  (run_WorldOK ops World.init init_WorldOK).1

/-- What the invariant says about a key that a walk of the mount table visits. -/
theorem entries_node (v : Vfs) (hv : TableOK v) (P : Str) (p : Nat)
    (h : (P, some p) ∈ v.entries) :
    (load v.heap p).mountPrefix = P ∧ CleanAbs P ∧ p < v.heap.length ∧
    ∃ n, descend v.mounts (segList P) = some n ∧ n.hasValue = true ∧ n.value = some p := by
  rw [entries_eq] at h
  obtain ⟨ks, n, h1, h2, h3, h4⟩ := walkList_descend v.heap v.mounts [] [] _ hv h
  have hn := descend_AllNodes ks v.mounts n [] hv h1
  rw [AllNodes_iff] at hn
  obtain ⟨q, hq1, hq2, hq3, hq4⟩ := hn.1.2.1 h2
  simp only at h3 h4
  rw [h3] at hq1
  simp only [Option.some.injEq] at hq1
  subst hq1
  simp only [List.nil_append] at hq4 h4
  have hP : (load v.heap p).mountPrefix = P := by
    rw [h4, ← hq4, segList_flatten]
  rw [hP] at hq3 hq4
  exact ⟨hP, hq3, hq2, n, by rw [hq4]; exact h1, h2, h3⟩

/-- Resolving a key that holds a value in the table, in a table that satisfies the
invariant. -/
theorem findMountPoint_entry (v : Vfs) (hv : TableOK v) (P : Str) (p : Nat)
    (h : (P, some p) ∈ v.entries) :
    v.findMountPoint P = (some p, some (load v.heap p).fS, []) ∧
      (load v.heap p).mountPrefix = P := by
  obtain ⟨hP, hc, _, n, hd, _, hval⟩ := entries_node v hv P p h
  refine ⟨?_, hP⟩
  apply findMountPoint_of_Get
  rw [Clean_idem_abs P hc, PathSegmenter2_eq, Get_eq_getSegs]
  rw [getSegs_descend (segList P) v.mounts n none [] hd (segList_ne_nil P (CleanAbs_ne_nil P hc))]
  simp only [List.nil_append, hval, Join_segList P hc, TrimPrefix_self, TrimPrefix_nil_left]

/-- C7: in every state reached from `New()`, resolving a prefix `P` that is mounted (a walk of
the table visits the key `P` with the mount point `p`) returns `p`, the backend of `p` and
the empty remainder; `P` is the prefix recorded in `p`. -/
theorem findMountPoint_mounted_prefix (ops : List Op) (P : Str) (p : Nat)
    (h : (P, some p) ∈ (World.init.run ops).vfs.entries) :
    (World.init.run ops).vfs.findMountPoint P =
      (some p, some (load (World.init.run ops).vfs.heap p).fS, []) ∧
    (load (World.init.run ops).vfs.heap p).mountPrefix = P :=
  findMountPoint_entry _ (TableOK_run ops) P p h

theorem findMountPoint_mounted_prefix_witness :
    ("/data".toList, some 1) ∈ (World.init.run dataOps).vfs.entries ∧
    ((World.init.run dataOps).vfs.findMountPoint "/data".toList =
        (some 1, some (load (World.init.run dataOps).vfs.heap 1).fS, []) ∧
      (load (World.init.run dataOps).vfs.heap 1).mountPrefix = "/data".toList) ∧
    (load (World.init.run dataOps).vfs.heap 1).fS = FS.backend 1 ∧
    (World.init.run dataOps).vfs.findMountPoint "/data/x.txt".toList =
      (some 1, some (FS.backend 1), "x.txt".toList) ∧
    (World.init.run dataOps).vfs.findMountPoint "/readme.txt".toList =
      (some 0, some (FS.backend 0), "readme.txt".toList) :=
  ⟨by decide, findMountPoint_mounted_prefix dataOps "/data".toList 1 (by decide), by decide,
    by decide, by decide⟩

/-! ## Mounting again at a mounted prefix -/

theorem setChild_setChild (cs : List (Str × PathTrie T)) (k : Str) (c d : PathTrie T) :
    setChild (setChild cs k c) k d = setChild cs k d := by
  induction cs with
  | nil => simp [setChild]
  | cons x rest ih =>
    obtain ⟨k2, c2⟩ := x
    by_cases h : k2 = k
    · simp [setChild, h]
    · simp [setChild, h, ih]

theorem childAt_setChild_self (cs : List (Str × PathTrie T)) (k : Str) (c : PathTrie T) :
    childAt (setChild cs k c) k = some c := by
  rw [childAt_setChild]; simp

/-- Putting twice at one key is putting the second value. -/
theorem putSegs_putSegs (a b : T) : ∀ (ks : List Str) (t : PathTrie T),
    (putSegs b ks (putSegs a ks t).1).1 = (putSegs b ks t).1 := by
  intro ks
  induction ks with
  | nil => intro t; simp [putSegs, setValue]
  | cons k rest ih =>
    intro t
    simp only [putSegs, children_mk, value_mk, hasValue_mk, childAt_setChild_self,
      Option.getD_some, ih, setChild_setChild]

theorem putSegs_value (x : T) (ks : List Str) (t : PathTrie T) :
    (putSegs x ks t).1.value = if ks = [] then x else t.value := by
  cases ks with
  | nil => simp [putSegs, setValue]
  | cons k rest => simp [putSegs]

theorem getSegs_pre (qs : List Str) (t : PathTrie T) (pre1 pre2 : Option (PathTrie T))
    (pfx : List Str) :
    (getSegs qs t pre1 pfx = (pre1, pfx) ∧ getSegs qs t pre2 pfx = (pre2, pfx)) ∨
      getSegs qs t pre1 pfx = getSegs qs t pre2 pfx := by
  cases qs with
  | nil => left; exact ⟨rfl, rfl⟩
  | cons q qs =>
    rw [getSegs, getSegs]
    cases childAt t.children q with
    | none => left; exact ⟨rfl, rfl⟩
    | some c => right; rfl

theorem getSegs_children (qs : List Str) (t t2 : PathTrie T) (h : t.children = t2.children)
    (pre : Option (PathTrie T)) (pfx : List Str) :
    getSegs qs t pre pfx = getSegs qs t2 pre pfx := by
  cases qs with
  | nil => rfl
  | cons q qs => rw [getSegs, getSegs, h]

/-- Looking up any key in two tries that differ in the value put at `ks`. -/
theorem getSegs_putSegs (a b : T) : ∀ (ks qs : List Str) (t : PathTrie T)
    (pre1 pre2 : Option (PathTrie T)) (pfx : List Str), SameOrSwapped a b pre1 pre2 →
    (getSegs qs (putSegs a ks t).1 pre1 pfx).2 = (getSegs qs (putSegs b ks t).1 pre2 pfx).2 ∧
    SameOrSwapped a b (getSegs qs (putSegs a ks t).1 pre1 pfx).1
      (getSegs qs (putSegs b ks t).1 pre2 pfx).1 := by
  intro ks
  induction ks with
  | nil =>
    intro qs t pre1 pre2 pfx hR
    have hch : (putSegs a [] t).1.children = (putSegs b [] t).1.children := by
      simp [putSegs, setValue]
    rw [getSegs_children qs _ _ hch]
    rcases getSegs_pre qs (putSegs b [] t).1 pre1 pre2 pfx with ⟨h1, h2⟩ | h1
    · rw [h1, h2]; exact ⟨rfl, hR⟩
    · rw [h1]; exact ⟨rfl, Or.inl rfl⟩
  | cons k rest ih =>
    intro qs t pre1 pre2 pfx hR
    cases qs with
    | nil => exact ⟨rfl, hR⟩
    | cons q qs =>
      simp only [putSegs, getSegs, children_mk, childAt_setChild]
      by_cases hk : k = q
      · simp only [hk, if_true]
        apply ih
        simp only [SameOrSwapped, Option.map_some', putSegs_value]
        by_cases hr : rest = []
        · simp [hr]
        · simp [hr]
      · simp only [hk, if_false]
        cases childAt t.children q with
        | none => exact ⟨rfl, hR⟩
        | some c => exact ⟨rfl, Or.inl rfl⟩

theorem Get_putSegs (a b : Option Nat) (ks : List Str) (t : PathTrie (Option Nat)) (key : Str) :
    (Get PathSegmenter2 (putSegs b ks t).1 key).2 = (Get PathSegmenter2 (putSegs a ks t).1 key).2 ∧
    ((Get PathSegmenter2 (putSegs b ks t).1 key).1 = (Get PathSegmenter2 (putSegs a ks t).1 key).1 ∨
      ((Get PathSegmenter2 (putSegs a ks t).1 key).1 = a ∧
        (Get PathSegmenter2 (putSegs b ks t).1 key).1 = b)) := by
  rw [PathSegmenter2_eq, Get_eq_getSegs, Get_eq_getSegs]
  obtain ⟨h1, h2⟩ := getSegs_putSegs a b ks (segList key) t none none [] (Or.inl rfl)
  rcases hA : getSegs (segList key) (putSegs a ks t).1 none [] with ⟨n1, p1⟩
  rcases hB : getSegs (segList key) (putSegs b ks t).1 none [] with ⟨n2, p2⟩
  rw [hA, hB] at h1 h2
  simp only at h1
  subst h1
  simp only [SameOrSwapped] at h2
  cases n1 with
  | none =>
    cases n2 with
    | none => exact ⟨rfl, Or.inl rfl⟩
    | some m2 => simp at h2
  | some m1 =>
    cases n2 with
    | none => simp at h2
    | some m2 =>
      simp only [Option.map_some', Option.some.injEq] at h2
      refine ⟨rfl, ?_⟩
      rcases h2 with h2 | h2
      · left; exact h2.symm
      · right; exact h2

theorem putSegs_values (P : T → Prop) (b : T) (hb : P b) (hd : P default) :
    ∀ (ks : List Str) (t : PathTrie T) (path : List Str),
      AllNodes (fun _ v _ _ => P v) t path →
      AllNodes (fun _ v _ _ => P v) (putSegs b ks t).1 path := by
  intro ks
  induction ks with
  | nil =>
    intro t path hq
    rw [AllNodes_iff] at hq
    rw [putSegs, AllNodes_iff]
    simp only [setValue, children_mk, value_mk, hasValue_mk]
    exact ⟨hb, hq.2⟩
  | cons part rest ih =>
    intro t path hq
    rw [AllNodes_iff] at hq
    rw [putSegs, AllNodes_iff]
    simp only [children_mk, value_mk, hasValue_mk]
    refine ⟨hq.1, ?_⟩
    intro kc hkc
    rcases mem_setChild hkc with h1 | h1
    · exact hq.2 kc h1
    · rw [h1]
      apply ih
      cases hch : childAt t.children part with
      | none =>
        rw [Option.getD_none, AllNodes_iff]
        exact ⟨hd, fun kc hkc => by simp [newPathTrie] at hkc⟩
      | some c => exact hq.2 (part, c) (childAt_mem hch)

theorem getSegs_values (P : T → Prop) :
    ∀ (segs : List Str) (t : PathTrie T) (path : List Str) (pre : Option (PathTrie T))
      (pfx : List Str), AllNodes (fun _ v _ _ => P v) t path →
      (∀ n, pre = some n → P n.value) →
      ∀ n, (getSegs segs t pre pfx).1 = some n → P n.value := by
  intro segs
  induction segs with
  | nil =>
    intro t path pre pfx _ hpre n hn
    exact hpre n hn
  | cons part rest ih =>
    intro t path pre pfx hq hpre n hn
    rw [getSegs] at hn
    cases hch : childAt t.children part with
    | none => rw [hch] at hn; exact hpre n hn
    | some child =>
      rw [hch] at hn
      have hchild : AllNodes (fun _ v _ _ => P v) child (path ++ [part]) := by
        rw [AllNodes_iff] at hq
        exact hq.2 (part, child) (childAt_mem hch)
      refine ih child (path ++ [part]) (some child) _ hchild ?_ n hn
      intro m hm
      simp only [Option.some.injEq] at hm
      rw [← hm]
      rw [AllNodes_iff] at hchild
      exact hchild.1

theorem Get_values (P : Option Nat → Prop) (hd : P none) (t : PathTrie (Option Nat)) (key : Str)
    (h : AllNodes (fun _ v _ _ => P v) t []) : P (Get PathSegmenter2 t key).1 := by
  rw [PathSegmenter2_eq, Get_eq_getSegs]
  have := getSegs_values P (segList key) t [] none [] h (by simp)
  rcases hg : getSegs (segList key) t none [] with ⟨_ | n, pfx⟩
  · exact hd
  · rw [hg] at this
    exact this n rfl

/-- The node at the key of a `Put` holds the value put. -/
theorem descend_putSegs_self (b : T) : ∀ (ks : List Str) (t : PathTrie T),
    ∃ n, descend (putSegs b ks t).1 ks = some n ∧ n.hasValue = true ∧ n.value = b := by
  intro ks
  induction ks with
  | nil => intro t; exact ⟨_, rfl, rfl, rfl⟩
  | cons k rest ih =>
    intro t
    rw [putSegs, descend]
    simp only [children_mk, childAt_setChild_self]
    exact ih _

/-- The nodes at other keys keep their values across a `Put`. -/
theorem descend_putSegs_other (b : T) : ∀ (ks qs : List Str) (t : PathTrie T), qs ≠ ks →
    (∀ n2, descend (putSegs b ks t).1 qs = some n2 → n2.hasValue = true →
      ∃ n, descend t qs = some n ∧ n.hasValue = true ∧ n.value = n2.value) ∧
    (∀ n, descend t qs = some n →
      ∃ n2, descend (putSegs b ks t).1 qs = some n2 ∧ n2.hasValue = n.hasValue ∧
        n2.value = n.value) := by
  intro ks
  induction ks with
  | nil =>
    intro qs t hne
    cases qs with
    | nil => exact absurd rfl hne
    | cons q qs =>
      have : descend (putSegs b [] t).1 (q :: qs) = descend t (q :: qs) := by
        rw [descend, descend]
        simp [putSegs, setValue]
      rw [this]
      exact ⟨fun n2 h1 h2 => ⟨n2, h1, h2, rfl⟩, fun n h1 => ⟨n, h1, rfl, rfl⟩⟩
  | cons k rest ih =>
    intro qs t hne
    cases qs with
    | nil =>
      constructor
      · intro n2 h1 h2
        simp only [descend, putSegs, Option.some.injEq] at h1
        subst h1
        exact ⟨t, rfl, h2, rfl⟩
      · intro n h1
        simp only [descend, Option.some.injEq] at h1
        subst h1
        exact ⟨_, rfl, rfl, rfl⟩
    | cons q qs =>
      rw [putSegs]
      simp only [descend, children_mk, childAt_setChild]
      by_cases hk : k = q
      · subst hk
        simp only [if_true]
        have hne2 : qs ≠ rest := fun e => hne (by rw [e])
        obtain ⟨ih1, ih2⟩ := ih qs ((childAt t.children k).getD newPathTrie) hne2
        cases hch : childAt t.children k with
        | none =>
          rw [hch] at ih1 ih2
          simp only [Option.getD_none] at ih1 ih2 ⊢
          constructor
          · intro n2 h1 h2
            obtain ⟨n, hn1, hn2, _⟩ := ih1 n2 h1 h2
            cases qs with
            | nil =>
              simp only [descend, Option.some.injEq] at hn1
              subst hn1
              simp [newPathTrie] at hn2
            | cons q2 qs2 =>
              simp [descend, newPathTrie, childAt_nil] at hn1
          · intro n h1
            simp at h1
        | some c =>
          rw [hch] at ih1 ih2
          simp only [Option.getD_some] at ih1 ih2 ⊢
          exact ⟨ih1, ih2⟩
      · simp only [hk, if_false]
        exact ⟨fun n2 h1 h2 => ⟨n2, h1, h2, rfl⟩, fun n h1 => ⟨n, h1, rfl, rfl⟩⟩

/-- A node that holds a value is visited by a walk. -/
theorem descend_mem_walkList : ∀ (qs : List Str) (t n : PathTrie T) (key : Str),
    descend t qs = some n → n.hasValue = true → (key ++ qs.flatten, n.value) ∈ walkList t key := by
  intro qs
  induction qs with
  | nil =>
    intro t n key h1 h2
    simp only [descend, Option.some.injEq] at h1
    subst h1
    cases t with
    | mk v h cs =>
      simp only [hasValue_mk] at h2
      subst h2
      rw [walkList]
      simp
  | cons q qs ih =>
    intro t n key h1 h2
    rw [descend] at h1
    cases hch : childAt t.children q with
    | none => rw [hch] at h1; simp at h1
    | some c =>
      rw [hch] at h1
      have := ih c n (key ++ q) h1 h2
      cases t with
      | mk v h cs =>
        rw [walkList, List.mem_append]
        right
        rw [mem_walkListCh]
        refine ⟨(q, c), childAt_mem hch, ?_⟩
        simpa using this

/-- In a mount table that satisfies the invariant, a key visited below the node at `path`
is segmented into `path` followed by more segments. -/
theorem walkList_segList (heap : List MountPoint) (t : PathTrie (Option Nat)) (path : List Str)
    (x : Str × Option Nat) (hq : AllNodes (NodeOK heap) t path)
    (hx : x ∈ walkList t path.flatten) : ∃ qs, segList x.1 = path ++ qs := by
  obtain ⟨ks, n, h1, h2, _, h4⟩ := walkList_descend heap t path _ x hq hx
  have hn := descend_AllNodes ks t n path hq h1
  rw [AllNodes_iff] at hn
  obtain ⟨q, _, _, _, hq4⟩ := hn.1.2.1 h2
  refine ⟨ks, ?_⟩
  have : x.1 = (load heap q).mountPrefix := by
    rw [h4, ← List.flatten_append, ← hq4, segList_flatten]
  rw [this, hq4]

theorem flatten_snoc (path : List Str) (k : Str) : path.flatten ++ k = (path ++ [k]).flatten := by
  simp

theorem walkListCh_keys_nodup (heap : List MountPoint) (path : List Str) :
    ∀ cs : List (Str × PathTrie (Option Nat)), (cs.map Prod.fst).Nodup →
      (∀ kc ∈ cs, AllNodes (NodeOK heap) kc.2 (path ++ [kc.1])) →
      (∀ kc ∈ cs, ((walkList kc.2 (path ++ [kc.1]).flatten).map Prod.fst).Nodup) →
      ((walkListCh cs path.flatten).map Prod.fst).Nodup := by
  intro cs
  induction cs with
  | nil => intro _ _ _; simp [walkListCh]
  | cons kc rest ih =>
    intro hnd hall hnod
    obtain ⟨k, c⟩ := kc
    simp only [List.map_cons, List.nodup_cons] at hnd
    rw [walkListCh, List.map_append, List.nodup_append, flatten_snoc]
    refine ⟨hnod (k, c) (List.mem_cons_self _ _),
      ih hnd.2 (fun kc h => hall kc (List.mem_cons_of_mem _ h))
        (fun kc h => hnod kc (List.mem_cons_of_mem _ h)), ?_⟩
    intro key hk1 hk2
    obtain ⟨x, hx, hxk⟩ := List.mem_map.1 hk1
    obtain ⟨y, hy, hyk⟩ := List.mem_map.1 hk2
    obtain ⟨kc2, hkc2, hy2⟩ := (mem_walkListCh rest _ y).1 hy
    rw [flatten_snoc] at hy2
    obtain ⟨qs1, h1⟩ := walkList_segList heap c (path ++ [k]) x
      (hall (k, c) (List.mem_cons_self _ _)) hx
    obtain ⟨qs2, h2⟩ := walkList_segList heap kc2.2 (path ++ [kc2.1]) y
      (hall kc2 (List.mem_cons_of_mem _ hkc2)) hy2
    rw [hxk] at h1
    rw [hyk, h1] at h2
    simp only [List.append_assoc, List.singleton_append, List.append_cancel_left_eq,
      List.cons.injEq] at h2
    apply hnd.1
    rw [h2.1]
    exact List.mem_map.2 ⟨kc2, hkc2, rfl⟩

/-- In a mount table that satisfies the invariant, a walk visits no key twice. -/
theorem walkList_keys_nodup (heap : List MountPoint) (t : PathTrie (Option Nat)) :
    ∀ path : List Str, AllNodes (NodeOK heap) t path →
      ((walkList t path.flatten).map Prod.fst).Nodup := by
  induction t using trie_induct with
  | step v h cs ih =>
    intro path hq
    have hq0 := hq
    rw [AllNodes_iff] at hq
    simp only [children_mk, value_mk, hasValue_mk] at hq
    have hch : ((walkListCh cs path.flatten).map Prod.fst).Nodup :=
      walkListCh_keys_nodup heap path cs hq.1.2.2 hq.2
        (fun kc hkc => ih kc hkc _ (hq.2 kc hkc))
    rw [walkList, List.map_append, List.nodup_append]
    refine ⟨by split <;> simp, hch, ?_⟩
    intro key hk1 hk2
    cases h with
    | false => simp at hk1
    | true =>
      simp only [if_true, List.map_cons, List.map_nil, List.mem_singleton] at hk1
      obtain ⟨p, _, _, _, hp4⟩ := hq.1.2.1 rfl
      obtain ⟨y, hy, hyk⟩ := List.mem_map.1 hk2
      obtain ⟨kc2, hkc2, hy2⟩ := (mem_walkListCh cs _ y).1 hy
      rw [flatten_snoc] at hy2
      obtain ⟨qs2, h2⟩ := walkList_segList heap kc2.2 (path ++ [kc2.1]) y (hq.2 kc2 hkc2) hy2
      have hown : segList key = path := by
        rw [hk1, ← hp4, segList_flatten, hp4]
      rw [hyk, hown] at h2
      have := congrArg List.length h2
      simp at this

theorem entries_keys_nodup (v : Vfs) (hv : TableOK v) : (v.entries.map Prod.fst).Nodup := by
  rw [entries_eq]
  exact walkList_keys_nodup v.heap v.mounts [] hv

theorem mem_entries_iff (v : Vfs) (hv : TableOK v) (k : Str) (x : Option Nat) :
    (k, x) ∈ v.entries ↔
      ∃ qs n, descend v.mounts qs = some n ∧ n.hasValue = true ∧ n.value = x ∧ k = qs.flatten := by
  rw [entries_eq]
  constructor
  · intro h
    obtain ⟨ks, n, h1, h2, h3, h4⟩ := walkList_descend v.heap v.mounts [] [] _ hv h
    exact ⟨ks, n, h1, h2, h3, by simpa using h4⟩
  · rintro ⟨qs, n, h1, h2, h3, h4⟩
    have := descend_mem_walkList qs v.mounts n [] h1 h2
    rw [h3] at this
    rw [h4]
    simpa using this

theorem filter_key_of_nodup {α : Type} : ∀ (l : List (Str × α)) (k : Str) (x : α),
    (l.map Prod.fst).Nodup → (k, x) ∈ l → l.filter (fun e => decide (e.1 = k)) = [(k, x)] := by
  intro l
  induction l with
  | nil => intro k x _ h; simp at h
  | cons y l ih =>
    intro k x hnd hmem
    simp only [List.map_cons, List.nodup_cons] at hnd
    rcases List.mem_cons.1 hmem with h | h
    · subst h
      rw [List.filter_cons]
      simp only [decide_True, if_true, List.cons.injEq, true_and]
      rw [List.filter_eq_nil_iff]
      intro e he hek
      simp only [decide_eq_true_eq] at hek
      exact hnd.1 (List.mem_map.2 ⟨e, he, hek⟩)
    · have hne : ¬ (y.1 = k) := by
        intro e
        exact hnd.1 (List.mem_map.2 ⟨(k, x), h, e.symm⟩)
      rw [List.filter_cons]
      simp only [hne, decide_False, Bool.false_eq_true, if_false]
      exact ih k x hnd.2 h

theorem Mount_ok (v v1 : Vfs) (P : Str) (A : FS) (h : v.Mount P (some A) = (v1, none)) :
    v1 = ⟨(putSegs (some v.heap.length) (segList (Clean P)) v.mounts).1,
      v.heap ++ [⟨Clean P, A, 0⟩]⟩ := by
  unfold Vfs.Mount at h
  simp only at h
  split at h
  · simp at h
  · split at h
    · simp at h
    · simp only [Prod.mk.injEq, and_true] at h
      rw [← h, PathSegmenter2_eq, Put_eq_putSegs]

theorem NodeOK_value_ne (heap : List MountPoint) (t : PathTrie (Option Nat)) (path : List Str)
    (h : AllNodes (NodeOK heap) t path) :
    AllNodes (fun _ v _ _ => v ≠ some heap.length) t path := by
  refine AllNodes_mono ?_ t path h
  intro path v hv keys hq hne
  cases hv with
  | false => rw [hq.1 rfl] at hne; simp at hne
  | true =>
    obtain ⟨p, hp1, hp2, _⟩ := hq.2.1 rfl
    rw [hp1] at hne
    simp only [Option.some.injEq] at hne
    omega

/-- Mounting twice at one cleaned prefix, on a table that satisfies the invariant. -/
theorem Mount_twice (v0 v1 v2 : Vfs) (hv0 : TableOK v0) (P P2 : Str) (A B : FS)
    (h1 : v0.Mount P (some A) = (v1, none)) (h2 : v1.Mount P2 (some B) = (v2, none))
    (hc : Clean P2 = Clean P) :
    v2.heap = v0.heap ++ [⟨Clean P, A, 0⟩, ⟨Clean P, B, 0⟩] ∧
    v2.entries.filter (fun e => decide (e.1 = Clean P)) =
      [(Clean P, some (v0.heap.length + 1))] ∧
    (∀ name q f r, v1.findMountPoint name = (some q, f, r) →
      v2.findMountPoint name =
        if q = v0.heap.length then (some (v0.heap.length + 1), some B, r) else (some q, f, r)) ∧
    (∀ k x, k ≠ Clean P → ((k, x) ∈ v2.entries ↔ (k, x) ∈ v1.entries)) := by
  have hT1 : TableOK v1 := by
    have := Mount_TableOK v0 P (some A) hv0
    rw [h1] at this; exact this
  have hT2 : TableOK v2 := by
    have := Mount_TableOK v1 P2 (some B) hT1
    rw [h2] at this; exact this
  have e1 := Mount_ok v0 v1 P A h1
  have e2 := Mount_ok v1 v2 P2 B h2
  have hm1 : v1.mounts = (putSegs (some v0.heap.length) (segList (Clean P)) v0.mounts).1 := by
    rw [e1]
  have hh1 : v1.heap = v0.heap ++ [⟨Clean P, A, 0⟩] := by rw [e1]
  have hlen1 : v1.heap.length = v0.heap.length + 1 := by rw [hh1]; simp
  have hm2 : v2.mounts = (putSegs (some (v0.heap.length + 1)) (segList (Clean P)) v1.mounts).1 := by
    rw [e2, hc, hlen1]
  have hm2b : v2.mounts =
      (putSegs (some (v0.heap.length + 1)) (segList (Clean P)) v0.mounts).1 := by
    rw [hm2, hm1, putSegs_putSegs]
  have hh2 : v2.heap = v1.heap ++ [⟨Clean P, B, 0⟩] := by rw [e2, hc]
  have hmem : (Clean P, some (v0.heap.length + 1)) ∈ v2.entries := by
    rw [mem_entries_iff v2 hT2]
    obtain ⟨n, hn1, hn2, hn3⟩ :=
      descend_putSegs_self (some (v0.heap.length + 1)) (segList (Clean P)) v1.mounts
    exact ⟨segList (Clean P), n, by rw [hm2]; exact hn1, hn2, hn3, (segList_flatten _).symm⟩
  refine ⟨?_, ?_, ?_, ?_⟩
  · rw [hh2, hh1]; simp
  · exact filter_key_of_nodup _ _ _ (entries_keys_nodup v2 hT2) hmem
  · -- resolution
    intro name q f r hf
    have hne2 : ∀ key, (Get PathSegmenter2 v2.mounts key).1 ≠ some v0.heap.length := by
      intro key
      rw [hm2b]
      apply Get_values (fun v => v ≠ some v0.heap.length) (by simp)
      exact putSegs_values _ _ (by simp) (by simp) _ _ _ (NodeOK_value_ne v0.heap v0.mounts [] hv0)
    have hrel : ∀ key,
        (Get PathSegmenter2 v2.mounts key).2 = (Get PathSegmenter2 v1.mounts key).2 ∧
        ((Get PathSegmenter2 v2.mounts key).1 = (Get PathSegmenter2 v1.mounts key).1 ∨
          ((Get PathSegmenter2 v1.mounts key).1 = some v0.heap.length ∧
            (Get PathSegmenter2 v2.mounts key).1 = some (v0.heap.length + 1))) := by
      intro key
      rw [hm2b, hm1]
      exact Get_putSegs _ _ _ _ _
    have hvalid1 : ∀ key, ValidPtr v1.heap (Get PathSegmenter2 v1.mounts key).1 :=
      fun key => Get_valid v1.heap v1.mounts key hT1
    have hloadB : (load v2.heap (v0.heap.length + 1)).fS = B := by
      rw [hh2, ← hlen1, load_append_eq]
    have hload : ∀ p, p < v1.heap.length → load v2.heap p = load v1.heap p := by
      intro p hp
      rw [hh2, load_append_lt _ _ _ hp]
    -- what one lookup gives in the two tables
    have hstep : ∀ key p, (Get PathSegmenter2 v1.mounts key).1 = some p →
        (Get PathSegmenter2 v2.mounts key).1 =
            (if p = v0.heap.length then some (v0.heap.length + 1) else some p) ∧
          (if p = v0.heap.length then some B else some (load v1.heap p).fS) =
            ((Get PathSegmenter2 v2.mounts key).1.map (fun m => (load v2.heap m).fS)) := by
      intro key p hp
      rcases (hrel key).2 with h | ⟨ha, hb⟩
      · have hpn : p ≠ v0.heap.length := by
          intro e
          apply hne2 key
          rw [h, hp, e]
        rw [h, hp]
        simp only [hpn, if_false, Option.map_some', true_and]
        rw [hload p (hvalid1 key p hp)]
      · rw [hp] at ha
        simp only [Option.some.injEq] at ha
        rw [hb]
        simp only [ha, if_true, Option.map_some', hloadB, true_and]
    unfold Vfs.findMountPoint at hf ⊢
    simp only at hf ⊢
    rcases hg1 : Get PathSegmenter2 v1.mounts (ToSlash (Clean name)) with ⟨x1, r1⟩
    rcases hg2 : Get PathSegmenter2 v2.mounts (ToSlash (Clean name)) with ⟨x2, r2⟩
    have hr := hrel (ToSlash (Clean name))
    rw [hg1, hg2] at hr
    simp only at hr
    obtain ⟨hr1, hr2⟩ := hr
    subst hr1
    rw [hg1] at hf
    cases x1 with
    | some p =>
      simp only [Prod.mk.injEq, Option.some.injEq] at hf
      obtain ⟨hq, hfs, hrr⟩ := hf
      subst hq; subst hrr
      have hs := hstep (ToSlash (Clean name)) p (by rw [hg1])
      rw [hg2] at hs
      simp only at hs
      obtain ⟨hs1, hs2⟩ := hs
      by_cases hpn : p = v0.heap.length
      · simp only [hpn, if_true] at hs1 hs2 ⊢
        rw [hs1] at hs2 ⊢
        simp only [Option.map_some', Option.some.injEq] at hs2
        simp only [hs2]
      · simp only [hpn, if_false] at hs1 hs2 ⊢
        rw [hs1] at hs2 ⊢
        simp only [Option.map_some', Option.some.injEq] at hs2
        simp only [← hs2, hfs]
    | none =>
      have hx2 : x2 = none := by
        rcases hr2 with h | ⟨ha, _⟩
        · exact h
        · simp at ha
      subst hx2
      simp only at hf ⊢
      rcases hroot1 : (Get PathSegmenter2 v1.mounts ['/']).1 with _ | p
      · rw [hroot1] at hf; simp at hf
      · rw [hroot1] at hf
        simp only [Prod.mk.injEq, Option.some.injEq] at hf
        obtain ⟨hq, hfs, hrr⟩ := hf
        subst hq; subst hrr
        obtain ⟨hs1, hs2⟩ := hstep ['/'] p hroot1
        by_cases hpn : p = v0.heap.length
        · simp only [hpn, if_true] at hs1 hs2 ⊢
          rw [hs1] at hs2 ⊢
          simp only [Option.map_some', Option.some.injEq] at hs2
          simp only [hs2]
        · simp only [hpn, if_false] at hs1 hs2 ⊢
          rw [hs1] at hs2 ⊢
          simp only [Option.map_some', Option.some.injEq] at hs2
          simp only [← hs2, hfs]
  · -- the other mounts
    intro k x hk
    rw [mem_entries_iff v2 hT2, mem_entries_iff v1 hT1, hm2]
    constructor
    · rintro ⟨qs, n2, hd, hv, hval, hflat⟩
      have hne : qs ≠ segList (Clean P) := by
        intro e
        apply hk
        rw [hflat, e, segList_flatten]
      obtain ⟨n, hn1, hn2, hn3⟩ :=
        (descend_putSegs_other _ (segList (Clean P)) qs v1.mounts hne).1 n2 hd hv
      exact ⟨qs, n, hn1, hn2, by rw [hn3, hval], hflat⟩
    · rintro ⟨qs, n, hd, hv, hval, hflat⟩
      have hne : qs ≠ segList (Clean P) := by
        intro e
        apply hk
        rw [hflat, e, segList_flatten]
      obtain ⟨n2, hn1, hn2, hn3⟩ :=
        (descend_putSegs_other (some (v0.heap.length + 1)) (segList (Clean P)) qs v1.mounts
          hne).2 n hd
      exact ⟨qs, n2, hn1, by rw [hn2, hv], by rw [hn3, hval], hflat⟩

/-- C10: in a state reached from `New()`, after a successful `Mount(P, A)` followed by a
successful `Mount(P2, B)` where `P2` cleans to the same prefix as `P`: the two mount points
are appended to the heap, which is otherwise unchanged; a walk of the table visits that prefix
exactly once, with the mount point of `B`, whose open count is 0; every name that resolved to
the mount point of `A` resolves to that of `B` with the same remainder, and every other name
that resolved resolves as before; the entries of the other prefixes are the same. -/
theorem Mount_same_prefix_replaces (ops : List Op) (v1 v2 : Vfs) (P P2 : Str) (A B : FS)
    (h1 : (World.init.run ops).vfs.Mount P (some A) = (v1, none))
    (h2 : v1.Mount P2 (some B) = (v2, none)) (hc : Clean P2 = Clean P) :
    v2.heap = (World.init.run ops).vfs.heap ++ [⟨Clean P, A, 0⟩, ⟨Clean P, B, 0⟩] ∧
    v2.entries.filter (fun e => decide (e.1 = Clean P)) =
      [(Clean P, some ((World.init.run ops).vfs.heap.length + 1))] ∧
    (∀ name q f r, v1.findMountPoint name = (some q, f, r) →
      v2.findMountPoint name =
        if q = (World.init.run ops).vfs.heap.length then
          (some ((World.init.run ops).vfs.heap.length + 1), some B, r)
        else (some q, f, r)) ∧
    (∀ k x, k ≠ Clean P → ((k, x) ∈ v2.entries ↔ (k, x) ∈ v1.entries)) :=
  Mount_twice _ v1 v2 (TableOK_run ops) P P2 A B h1 h2 hc

theorem Mount_same_prefix_replaces_witness :
    Clean "/a/".toList = Clean "/a".toList ∧
    replaceV1.findMountPoint "/a/x".toList = (some 2, some (FS.backend 1), "x".toList) ∧
    replaceV2.heap = (World.init.run replaceOps).vfs.heap ++
      [⟨"/a".toList, FS.backend 1, 0⟩, ⟨"/a".toList, FS.backend 2, 0⟩] ∧
    replaceV2.entries.filter (fun e => decide (e.1 = "/a".toList)) = [("/a".toList, some 3)] ∧
    replaceV2.findMountPoint "/a/x".toList = (some 3, some (FS.backend 2), "x".toList) :=
  ⟨by decide, by decide,
    (Mount_same_prefix_replaces replaceOps replaceV1 replaceV2 "/a".toList "/a/".toList
      (FS.backend 1) (FS.backend 2) rfl rfl (by decide)).1,
    (Mount_same_prefix_replaces replaceOps replaceV1 replaceV2 "/a".toList "/a/".toList
      (FS.backend 1) (FS.backend 2) rfl rfl (by decide)).2.1,
    (Mount_same_prefix_replaces replaceOps replaceV1 replaceV2 "/a".toList "/a/".toList
      (FS.backend 1) (FS.backend 2) rfl rfl (by decide)).2.2.1 "/a/x".toList 2
      (some (FS.backend 1)) "x".toList (by decide)⟩

/-! ## Only the root is mounted -/

/-- The node `getSegs` returns is the given one, or is reached along a non-empty initial part
of the segments, which is what is added to the segments followed. -/
theorem getSegs_reached {T : Type} [Inhabited T] : ∀ (segs : List Str) (t : PathTrie T)
    (pre : Option (PathTrie T)) (pfx0 : List Str),
    ((getSegs segs t pre pfx0).1 = pre ∧ (getSegs segs t pre pfx0).2 = pfx0) ∨
    ∃ qs n, qs ≠ [] ∧ qs <+: segs ∧ (getSegs segs t pre pfx0) = (some n, pfx0 ++ qs) ∧
      descend t qs = some n := by
  intro segs
  induction segs with
  | nil => intro t pre pfx0; left; exact ⟨rfl, rfl⟩
  | cons s rest ih =>
    intro t pre pfx0
    rw [getSegs]
    cases hch : childAt t.children s with
    | none => left; exact ⟨rfl, rfl⟩
    | some c =>
      right
      simp only
      rcases ih c (some c) (pfx0 ++ [s]) with ⟨h1, h2⟩ | ⟨qs, n, h1, h2, h3, h4⟩
      · refine ⟨[s], c, by simp, ?_, ?_, ?_⟩
        · exact ⟨rest, rfl⟩
        · exact Prod.ext h1 h2
        · simp [descend, hch]
      · refine ⟨s :: qs, n, by simp, ?_, ?_, ?_⟩
        · obtain ⟨r, hr⟩ := h2
          exact ⟨r, by rw [← hr]; simp⟩
        · rw [h3]; simp
        · simp [descend, hch, h4]

theorem segList_elem_ne_nil : ∀ (k : Str) (s : Str), s ∈ segList k → s ≠ [] := by
  intro k
  induction k with
  | nil => intro s h; simp [segList] at h
  | cons c t ih =>
    intro s h
    rw [segList] at h
    cases hs : segList t with
    | nil =>
      rw [hs] at h
      simp only [List.mem_singleton] at h
      rw [h]; simp
    | cons s1 ss =>
      rw [hs] at h ih
      simp only at h
      split at h
      · rcases List.mem_cons.1 h with h1 | h1
        · rw [h1]; simp
        · exact ih s h1
      · rcases List.mem_cons.1 h with h1 | h1
        · rw [h1]; simp
        · exact ih s (List.mem_cons_of_mem _ h1)

/-- Looking up a key that a walk visits returns the value visited and no remainder. -/
theorem Get_entry (v : Vfs) (hv : TableOK v) (P : Str) (p : Nat)
    (h : (P, some p) ∈ v.entries) : Get PathSegmenter2 v.mounts P = (some p, []) := by
  obtain ⟨_, hc, _, n, hd, _, hval⟩ := entries_node v hv P p h
  rw [PathSegmenter2_eq, Get_eq_getSegs]
  rw [getSegs_descend (segList P) v.mounts n none [] hd (segList_ne_nil P (CleanAbs_ne_nil P hc))]
  simp only [List.nil_append, hval, Join_segList P hc, TrimPrefix_self, TrimPrefix_nil_left]

theorem Join_root : Join ([] ++ [['/']]) = ['/'] := by decide

/-- In a table that satisfies the invariant and in which a walk visits `/` only, looking up a
cleaned name finds the mount at `/` when the name is `/` and no value otherwise. -/
theorem Get_only_root (v : Vfs) (hv : TableOK v) (p : Nat)
    (he : v.entries = [(['/'], some p)]) (name : Str) :
    (Clean name = ['/'] ∧ Get PathSegmenter2 v.mounts (Clean name) = (some p, [])) ∨
      (Get PathSegmenter2 v.mounts (Clean name)).1 = none := by
  by_cases hc : Clean name = ['/']
  · left
    refine ⟨hc, ?_⟩
    rw [hc]
    exact Get_entry v hv ['/'] p (by rw [he]; simp)
  · right
    rw [PathSegmenter2_eq, Get_eq_getSegs]
    rcases getSegs_reached (segList (Clean name)) v.mounts none [] with ⟨h1, h2⟩ | ⟨qs, n, h1, h2, h3, h4⟩
    · rcases hg : getSegs (segList (Clean name)) v.mounts none [] with ⟨r, pfx⟩
      rw [hg] at h1
      simp only at h1
      subst h1
      rfl
    · rw [h3]
      simp only
      cases hh : n.hasValue with
      | false =>
        have hn := descend_AllNodes qs v.mounts n [] hv h4
        rw [AllNodes_iff] at hn
        exact hn.1.1 hh
      | true =>
        exfalso
        have hmem := descend_mem_walkList qs v.mounts n [] h4 hh
        rw [← entries_eq, he] at hmem
        simp only [List.nil_append, List.mem_singleton, Prod.mk.injEq] at hmem
        -- the first segment of the cleaned name is `/`
        obtain ⟨q, qs2, rfl⟩ := List.exists_cons_of_ne_nil h1
        obtain ⟨r, hr⟩ := h2
        have hq : q ∈ segList (Clean name) := by rw [← hr]; simp
        have hqne := segList_elem_ne_nil _ q hq
        have hflat := hmem.1
        simp only [List.flatten_cons] at hflat
        have hq1 : q = ['/'] := by
          obtain ⟨c, q2, rfl⟩ := List.exists_cons_of_ne_nil hqne
          simp only [List.cons_append, List.cons.injEq, List.append_eq_nil] at hflat
          rw [hflat.1, hflat.2.1]
        subst hq1
        cases hcn : Clean name with
        | nil =>
          rw [hcn] at hr
          simp [segList] at hr
        | cons c t =>
          rw [hcn, segList_cons] at hr
          simp only [List.cons_append, List.cons.injEq] at hr
          obtain ⟨⟨hc1, hc2⟩, _⟩ := hr
          subst hc1
          rcases (takeWhile_nil_iff t).1 hc2.symm with ht | ht
          · apply hc; rw [hcn, ht]
          · cases t with
            | nil => simp at ht
            | cons d t2 =>
              simp only [List.head?_cons, Option.some.injEq] at ht
              subst ht
              exact Clean_no_double_slash name t2 hcn

/-- C5: in every state reached from `New()` in which `/` is the only mount (a walk of the
table visits the key `/` only, with the mount point `p`), every name resolves to `p` and its
backend, and the remainder is the cleaned name without its leading slash. -/
theorem findMountPoint_root_only (ops : List Op) (p : Nat)
    (h : (World.init.run ops).vfs.entries = [(['/'], some p)]) (name : Str) :
    (World.init.run ops).vfs.findMountPoint name =
      (some p, some (load (World.init.run ops).vfs.heap p).fS, TrimPrefix (Clean name) ['/']) := by
  have hv := TableOK_run ops
  have hroot := Get_entry _ hv ['/'] p (by rw [h]; simp)
  rcases Get_only_root _ hv p h name with ⟨hc, hg⟩ | hg
  · rw [findMountPoint_of_Get _ name p [] hg, hc]
    rfl
  · unfold Vfs.findMountPoint ToSlash
    simp only
    rcases hgg : Get PathSegmenter2 (World.init.run ops).vfs.mounts (Clean name) with ⟨x, r⟩
    rw [hgg] at hg
    simp only at hg
    subst hg
    simp only [hroot]

theorem findMountPoint_root_only_witness :
    (World.init.run [Op.Mount "/".toList (some (FS.backend 0))]).vfs.entries =
      [(['/'], some 0)] ∧
    (World.init.run [Op.Mount "/".toList (some (FS.backend 0))]).vfs.findMountPoint
      "/a.txt".toList = (some 0, some (FS.backend 0), "a.txt".toList) ∧
    (World.init.run [Op.Mount "/".toList (some (FS.backend 0))]).vfs.findMountPoint
      "/".toList = (some 0, some (FS.backend 0), []) :=
  ⟨by decide,
    findMountPoint_root_only [Op.Mount "/".toList (some (FS.backend 0))] 0 (by decide)
      "/a.txt".toList,
    findMountPoint_root_only [Op.Mount "/".toList (some (FS.backend 0))] 0 (by decide)
      "/".toList⟩

/-- C2 (code evaluated at the failing input): after mounting `/c`, opening `/c/1.txt`,
failing to open `/c/2.txt` and closing the one handle returned, every handle has been closed
(once), yet the open count of the mount is 1 and `Unmount("/c", nil)` fails with `EBUSY`. -/
theorem Unmount_busy_after_failed_open :
    leakW.handles = [(⟨7, some 0⟩, 1)] ∧ leakW.panicked = none ∧
    (load leakW.vfs.heap 0).openCount = 1 ∧
    (leakW.vfs.Unmount noSync "/c".toList none).map (fun r => (r.1.entries, r.2)) =
      some ([("/c".toList, some 0)], some ⟨"unmount", "/c".toList, Errno.EBUSY⟩) := by
  decide

/-- C3 (code evaluated at the failing input): the second `Close` on a handle decrements the
open count again. With one handle the count goes 1, 0 and then below zero, which panics; with
two handles, two `Close` calls on the first bring the count from 2 to 0 while the second
handle is still open, and `Unmount` then succeeds. -/
theorem Close_twice_decrements_twice :
    closeTwiceW.handles = [(⟨7, some 0⟩, 2)] ∧
    closeTwiceW.panicked = some Panic.openCountNegative ∧
    twoHandlesW.handles = [(⟨7, some 0⟩, 2), (⟨7, some 0⟩, 0)] ∧
    twoHandlesW.panicked = none ∧
    (load twoHandlesW.vfs.heap 0).openCount = 0 ∧
    (twoHandlesW.vfs.Unmount noSync "/c".toList none).map (fun r => (r.1.entries, r.2)) =
      some ([], none) := by
  decide

/-! ## The value at a key after `Put` and `Delete` -/

theorem descend_nil (t : PathTrie T) : descend t [] = some t := by
  rw [descend]

theorem descend_cons (t : PathTrie T) (k : Str) (ks : List Str) :
    descend t (k :: ks) = (childAt t.children k).bind (fun c => descend c ks) := by
  rw [descend]
  cases childAt t.children k <;> rfl

theorem valueAt_nil (t : PathTrie T) :
    valueAt t [] = if t.hasValue then some t.value else none := by
  simp only [valueAt, descend_nil]

theorem valueAt_cons (t : PathTrie T) (k : Str) (ks : List Str) :
    valueAt t (k :: ks) = (childAt t.children k).bind (fun c => valueAt c ks) := by
  simp only [valueAt, descend_cons]
  cases childAt t.children k <;> rfl

theorem valueAt_new (ks : List Str) : valueAt (newPathTrie : PathTrie T) ks = none := by
  cases ks with
  | nil => simp [valueAt_nil, newPathTrie]
  | cons k ks => simp [valueAt_cons, newPathTrie, childAt_nil]

/-- The values at the keys of a trie after a `Put`. -/
theorem valueAt_putSegs (v : T) : ∀ (ks qs : List Str) (t : PathTrie T),
    valueAt (putSegs v ks t).1 qs = if qs = ks then some v else valueAt t qs := by
  intro ks
  induction ks with
  | nil =>
    intro qs t
    cases qs with
    | nil => simp [putSegs, setValue, valueAt_nil]
    | cons q qs => simp [putSegs, setValue, valueAt_cons]
  | cons k ks ih =>
    intro qs t
    cases qs with
    | nil => simp [putSegs, valueAt_nil]
    | cons q qs =>
      rw [putSegs, valueAt_cons, valueAt_cons]
      simp only [children_mk, childAt_setChild]
      by_cases hk : k = q
      · subst hk
        simp only [if_true, List.cons.injEq, true_and, Option.bind_some]
        cases hc : childAt t.children k with
        | none => simp [valueAt_new, ih]
        | some c => simp [ih]
      · have hne : ¬ (q :: qs = k :: ks) := by
          intro h; simp only [List.cons.injEq] at h; exact hk h.1.symm
        simp only [if_neg hk, if_neg hne]

theorem childAt_delChild (cs : List (Str × PathTrie T)) (k q : Str)
    (hn : (cs.map Prod.fst).Nodup) :
    childAt (delChild cs k) q = if k = q then none else childAt cs q := by
  induction cs with
  | nil => simp [delChild, childAt_nil]
  | cons kc rest ih =>
    obtain ⟨p, c⟩ := kc
    simp only [List.map_cons, List.nodup_cons] at hn
    rw [delChild]
    by_cases hp : p = k
    · subst hp
      simp only [if_true, childAt_cons]
      by_cases hq : p = q
      · subst hq
        simp only [if_true]
        cases hc : childAt rest p with
        | none => rfl
        | some c2 => exact absurd (List.mem_map_of_mem Prod.fst (childAt_mem hc)) hn.1
      · simp only [if_neg hq]
    · simp only [if_neg hp, childAt_cons, ih hn.2]
      by_cases hq : p = q
      · subst hq
        simp only [if_true]
        rw [if_neg (fun h => hp h.symm)]
      · simp only [if_neg hq]

/-- When `Delete` goes on to unlink a node, the node has neither a value nor children. -/
theorem deleteSegs_unlink : ∀ (ks : List Str) (t t2 : PathTrie T),
    deleteSegs ks t = some (t2, true) → t2.children = [] ∧ t2.hasValue = false := by
  intro ks t t2 h
  cases ks with
  | nil =>
    simp only [deleteSegs, Option.some.injEq, Prod.mk.injEq] at h
    rw [← h.1]
    have h2 := h.2
    simp only [isLeaf, clearValue, children_mk, hasValue_mk] at h2 ⊢
    exact ⟨List.length_eq_zero.1 (by simpa using h2), trivial⟩
  | cons k ks =>
    rw [deleteSegs] at h
    cases hch : childAt t.children k with
    | none => rw [hch] at h; simp at h
    | some child =>
      rw [hch] at h
      simp only at h
      cases hr : deleteSegs ks child with
      | none => rw [hr] at h; simp at h
      | some r =>
        obtain ⟨child1, unlink⟩ := r
        rw [hr] at h
        simp only at h
        cases unlink with
        | true =>
          simp only [if_true, Option.some.injEq, Prod.mk.injEq, Bool.and_eq_true,
            beq_iff_eq, Bool.not_eq_true'] at h
          rw [← h.1]
          simp only [children_mk, hasValue_mk]
          exact ⟨List.length_eq_zero.1 h.2.1, h.2.2⟩
        | false =>
          simp at h

theorem valueAt_leaf (t : PathTrie T) (hc : t.children = []) (hv : t.hasValue = false)
    (qs : List Str) : valueAt t qs = none := by
  cases qs with
  | nil => simp [valueAt_nil, hv]
  | cons q qs => simp [valueAt_cons, hc, childAt_nil]

/-- The values at the keys of a trie after a `Delete` that found its node. -/
theorem valueAt_deleteSegs : ∀ (ks : List Str) (t t2 : PathTrie T) (u : Bool) (path : List Str),
    AllNodes KeysNodup t path → deleteSegs ks t = some (t2, u) →
    ∀ qs, valueAt t2 qs = if qs = ks then none else valueAt t qs := by
  intro ks
  induction ks with
  | nil =>
    intro t t2 u path hq h qs
    simp only [deleteSegs, Option.some.injEq, Prod.mk.injEq] at h
    rw [← h.1]
    cases qs with
    | nil => simp [clearValue, valueAt_nil]
    | cons q qs => simp [clearValue, valueAt_cons]
  | cons k ks ih =>
    intro t t2 u path hq h qs
    rw [AllNodes_iff] at hq
    rw [deleteSegs] at h
    cases hch : childAt t.children k with
    | none => rw [hch] at h; simp at h
    | some child =>
      rw [hch] at h
      simp only at h
      cases hr : deleteSegs ks child with
      | none => rw [hr] at h; simp at h
      | some r =>
        obtain ⟨child1, unlink⟩ := r
        rw [hr] at h
        simp only at h
        have hchild := ih child child1 unlink (path ++ [k])
          (hq.2 (k, child) (childAt_mem hch)) hr
        cases unlink with
        | true =>
          simp only [if_true, Option.some.injEq, Prod.mk.injEq] at h
          rw [← h.1]
          obtain ⟨hl1, hl2⟩ := deleteSegs_unlink ks child child1 hr
          cases qs with
          | nil => simp [valueAt_nil]
          | cons q qs =>
            rw [valueAt_cons, valueAt_cons]
            simp only [children_mk, childAt_delChild _ _ _ hq.1]
            by_cases hk : k = q
            · subst hk
              simp only [if_true, List.cons.injEq, true_and, hch]
              have h3 := hchild qs
              rw [valueAt_leaf child1 hl1 hl2] at h3
              by_cases hqs : qs = ks
              · simp [hqs]
              · rw [if_neg hqs] at h3 ⊢
                exact h3
            · have hne : ¬ (q :: qs = k :: ks) := by
                intro h; simp only [List.cons.injEq] at h; exact hk h.1.symm
              simp only [if_neg hk, if_neg hne]
        | false =>
          simp only [Bool.false_eq_true, if_false, Option.some.injEq, Prod.mk.injEq] at h
          rw [← h.1]
          cases qs with
          | nil => simp [valueAt_nil]
          | cons q qs =>
            rw [valueAt_cons, valueAt_cons]
            simp only [children_mk, childAt_setChild]
            by_cases hk : k = q
            · subst hk
              simp only [if_true, List.cons.injEq, true_and, hch]
              exact hchild qs
            · have hne : ¬ (q :: qs = k :: ks) := by
                intro h; simp only [List.cons.injEq] at h; exact hk h.1.symm
              simp only [if_neg hk, if_neg hne]

/-! ## What a walk visits -/

theorem TrieOK_KeysNodup (t : PathTrie T) (path : List Str) (h : AllNodes TrieOK t path) :
    AllNodes KeysNodup t path :=
  AllNodes_mono (fun _ _ _ _ hq => hq.2.2.1) t path h

theorem NodeOK_KeysNodup (heap : List MountPoint) (t : PathTrie (Option Nat)) (path : List Str)
    (h : AllNodes (NodeOK heap) t path) : AllNodes KeysNodup t path :=
  AllNodes_mono (fun _ _ _ _ hq => hq.2.2) t path h

/-- What a walk visits is the value at a sequence of segments, and the key is the
concatenation of the segments. -/
theorem walkList_valueAt (t : PathTrie T) :
    ∀ (path : List Str) (key : Str) (x : Str × T), AllNodes KeysNodup t path →
      x ∈ walkList t key → ∃ ks, valueAt t ks = some x.2 ∧ x.1 = key ++ ks.flatten := by
  induction t using trie_induct with
  | step v h cs ih =>
    intro path key x hq hx
    rw [AllNodes_iff] at hq
    rw [walkList, List.mem_append] at hx
    rcases hx with hx | hx
    · cases h with
      | false => simp at hx
      | true =>
        simp only [if_true, List.mem_singleton] at hx
        exact ⟨[], by rw [hx]; simp [valueAt_nil], by rw [hx]; simp⟩
    · obtain ⟨kc, hkc, hx2⟩ := (mem_walkListCh cs key x).1 hx
      obtain ⟨ks, h1, h4⟩ := ih kc hkc _ _ x (hq.2 kc hkc) hx2
      refine ⟨kc.1 :: ks, ?_, ?_⟩
      · rw [valueAt_cons]
        have : childAt (PathTrie.mk v h cs).children kc.1 = some kc.2 :=
          childAt_of_mem hq.1 hkc
        rw [this]
        exact h1
      · rw [h4]; simp

theorem valueAt_some (t : PathTrie T) (qs : List Str) (x : T) :
    valueAt t qs = some x ↔ ∃ n, descend t qs = some n ∧ n.hasValue = true ∧ n.value = x := by
  rw [valueAt]
  cases hd : descend t qs with
  | none => simp
  | some n =>
    cases hh : n.hasValue <;> simp [hh]

theorem valueAt_mem_walkList (t : PathTrie T) (qs : List Str) (x : T) (key : Str)
    (h : valueAt t qs = some x) : (key ++ qs.flatten, x) ∈ walkList t key := by
  obtain ⟨n, h1, h2, h3⟩ := (valueAt_some t qs x).1 h
  rw [← h3]
  exact descend_mem_walkList qs t n key h1 h2

/-- In a trie that satisfies the invariant, the segments of a value are the segments of the
key it is visited with. -/
theorem valueAt_segList (t : PathTrie T) (path ks : List Str) (x : T)
    (hq : AllNodes TrieOK t path) (h : valueAt t ks = some x) :
    segList (path ++ ks).flatten = path ++ ks := by
  obtain ⟨n, h1, h2, _⟩ := (valueAt_some t ks x).1 h
  have hn := descend_AllNodes ks t n path hq h1
  rw [AllNodes_iff] at hn
  exact hn.1.2.1 h2

theorem walkList_segs (t : PathTrie T) (path : List Str) (x : Str × T)
    (hq : AllNodes TrieOK t path) (hx : x ∈ walkList t path.flatten) :
    ∃ qs, segList x.1 = path ++ qs := by
  obtain ⟨ks, h1, h4⟩ := walkList_valueAt t path _ x (TrieOK_KeysNodup t path hq) hx
  refine ⟨ks, ?_⟩
  rw [h4, ← List.flatten_append]
  exact valueAt_segList t path ks x.2 hq h1

theorem walkListCh_nodup (path : List Str) :
    ∀ cs : List (Str × PathTrie T), (cs.map Prod.fst).Nodup →
      (∀ kc ∈ cs, AllNodes TrieOK kc.2 (path ++ [kc.1])) →
      (∀ kc ∈ cs, ((walkList kc.2 (path ++ [kc.1]).flatten).map Prod.fst).Nodup) →
      ((walkListCh cs path.flatten).map Prod.fst).Nodup := by
  intro cs
  induction cs with
  | nil => intro _ _ _; simp [walkListCh]
  | cons kc rest ih =>
    intro hnd hall hnod
    obtain ⟨k, c⟩ := kc
    simp only [List.map_cons, List.nodup_cons] at hnd
    rw [walkListCh, List.map_append, List.nodup_append, flatten_snoc]
    refine ⟨hnod (k, c) (List.mem_cons_self _ _),
      ih hnd.2 (fun kc h => hall kc (List.mem_cons_of_mem _ h))
        (fun kc h => hnod kc (List.mem_cons_of_mem _ h)), ?_⟩
    intro key hk1 hk2
    obtain ⟨x, hx, hxk⟩ := List.mem_map.1 hk1
    obtain ⟨y, hy, hyk⟩ := List.mem_map.1 hk2
    obtain ⟨kc2, hkc2, hy2⟩ := (mem_walkListCh rest _ y).1 hy
    rw [flatten_snoc] at hy2
    obtain ⟨qs1, h1⟩ := walkList_segs c (path ++ [k]) x
      (hall (k, c) (List.mem_cons_self _ _)) hx
    obtain ⟨qs2, h2⟩ := walkList_segs kc2.2 (path ++ [kc2.1]) y
      (hall kc2 (List.mem_cons_of_mem _ hkc2)) hy2
    rw [hxk] at h1
    rw [hyk, h1] at h2
    simp only [List.append_assoc, List.singleton_append, List.append_cancel_left_eq,
      List.cons.injEq] at h2
    apply hnd.1
    rw [h2.1]
    exact List.mem_map.2 ⟨kc2, hkc2, rfl⟩

/-- In a trie that satisfies the invariant, a walk visits no key twice. -/
theorem walkList_nodup (t : PathTrie T) :
    ∀ path : List Str, AllNodes TrieOK t path →
      ((walkList t path.flatten).map Prod.fst).Nodup := by
  induction t using trie_induct with
  | step v h cs ih =>
    intro path hq
    have hq0 := hq
    rw [AllNodes_iff] at hq
    simp only [children_mk, value_mk, hasValue_mk] at hq
    have hch : ((walkListCh cs path.flatten).map Prod.fst).Nodup :=
      walkListCh_nodup path cs hq.1.2.2.1 hq.2
        (fun kc hkc => ih kc hkc _ (hq.2 kc hkc))
    rw [walkList, List.map_append, List.nodup_append]
    refine ⟨by split <;> simp, hch, ?_⟩
    intro key hk1 hk2
    cases h with
    | false => simp at hk1
    | true =>
      simp only [if_true, List.map_cons, List.map_nil, List.mem_singleton] at hk1
      have hp4 := hq.1.2.1 rfl
      obtain ⟨y, hy, hyk⟩ := List.mem_map.1 hk2
      obtain ⟨kc2, hkc2, hy2⟩ := (mem_walkListCh cs _ y).1 hy
      rw [flatten_snoc] at hy2
      obtain ⟨qs2, h2⟩ := walkList_segs kc2.2 (path ++ [kc2.1]) y (hq.2 kc2 hkc2) hy2
      have hown : segList key = path := by
        rw [hk1, hp4]
      rw [hyk, hown] at h2
      have := congrArg List.length h2
      simp at this

theorem visited_eq (t : PathTrie T) : t.visited = walkList t [] := by
  unfold visited Walk
  rw [walk_collect]
  simp

/-- In a trie that satisfies the invariant, a walk visits the key `k` with the value `x`
exactly when `x` is the value at the segments of `k`. -/
theorem mem_visited_iff (t : PathTrie T) (ht : AllNodes TrieOK t []) (k : Str) (x : T) :
    (k, x) ∈ t.visited ↔ valueAt t (segList k) = some x := by
  rw [visited_eq]
  constructor
  · intro h
    obtain ⟨ks, h1, h4⟩ := walkList_valueAt t [] [] _ (TrieOK_KeysNodup t [] ht) h
    have := valueAt_segList t [] ks x ht h1
    simp only [List.nil_append] at this h4
    rw [h4, this]
    exact h1
  · intro h
    have := valueAt_mem_walkList t (segList k) x [] h
    rw [segList_flatten] at this
    simpa using this

/-! ## The invariant of a trie built by calls -/

theorem TrieOK_new : AllNodes TrieOK (newPathTrie : PathTrie T) [] := by
  rw [newPathTrie, AllNodes_mk]
  refine ⟨⟨fun _ => rfl, fun h => by simp at h, by simp, fun h => absurd rfl h⟩, ?_⟩
  rw [AllChildren_iff]
  intro kc hkc
  simp at hkc

/-- `Put` keeps the invariant of a trie; the node it returns is never one that would have to be
pruned. -/
theorem putSegs_TrieOK (v : T) :
    ∀ (segs : List Str) (t : PathTrie T) (path : List Str),
      (AllNodes TrieOK t path ∨ t = newPathTrie) →
      segList (path ++ segs).flatten = path ++ segs →
      AllNodes TrieOK (putSegs v segs t).1 path ∧
        ((putSegs v segs t).1.hasValue = true ∨ (putSegs v segs t).1.children ≠ []) := by
  intro segs
  induction segs with
  | nil =>
    intro t path hq hs
    rw [putSegs]
    simp only [setValue, children_mk, value_mk, hasValue_mk, true_or, and_true]
    rw [AllNodes_iff]
    simp only [children_mk, value_mk, hasValue_mk]
    rcases hq with hq | hq
    · rw [AllNodes_iff] at hq
      exact ⟨⟨fun h => by simp at h, fun _ => by simpa using hs, hq.1.2.2.1, fun _ => Or.inl rfl⟩,
        hq.2⟩
    · subst hq
      refine ⟨⟨fun h => by simp at h, fun _ => by simpa using hs, by simp [newPathTrie],
        fun _ => Or.inl rfl⟩, ?_⟩
      intro kc hkc
      simp [newPathTrie] at hkc
  | cons part rest ih =>
    intro t path hq hs
    rw [putSegs]
    simp only [children_mk, value_mk, hasValue_mk]
    have hchild := ih ((childAt t.children part).getD newPathTrie) (path ++ [part])
      (by
        cases hch : childAt t.children part with
        | none => right; rfl
        | some c =>
          left
          rcases hq with hq | hq
          · rw [AllNodes_iff] at hq
            exact hq.2 (part, c) (childAt_mem hch)
          · subst hq
            simp [newPathTrie, childAt_nil] at hch)
      (by rw [List.append_assoc]; exact hs)
    have hne : ∀ c : PathTrie T, setChild t.children part c ≠ [] := by
      intro c h0
      have := childAt_setChild_self t.children part c
      rw [h0, childAt_nil] at this
      simp at this
    refine ⟨?_, Or.inr (hne _)⟩
    rw [AllNodes_iff]
    simp only [children_mk, value_mk, hasValue_mk]
    have hkeys : ∀ c : PathTrie T, (List.map Prod.fst (setChild t.children part c)) ≠ [] := by
      intro c h0
      exact hne c (List.map_eq_nil_iff.1 h0)
    rcases hq with hq | hq
    · rw [AllNodes_iff] at hq
      refine ⟨⟨hq.1.1, hq.1.2.1, nodup_keys_setChild _ _ _ hq.1.2.2.1,
        fun _ => Or.inr (hkeys _)⟩, ?_⟩
      intro kc hkc
      rcases mem_setChild hkc with h1 | h1
      · exact hq.2 kc h1
      · rw [h1]; exact hchild.1
    · subst hq
      refine ⟨⟨fun _ => rfl, fun h => by simp [newPathTrie] at h,
        nodup_keys_setChild _ _ _ (by simp [newPathTrie]), fun _ => Or.inr (hkeys _)⟩, ?_⟩
      intro kc hkc
      rcases mem_setChild hkc with h1 | h1
      · simp [newPathTrie] at h1
      · rw [h1]; exact hchild.1

/-- `Delete` keeps the invariant of a trie: the node it returns satisfies the invariant, or is
to be unlinked and has neither a value nor children. -/
theorem deleteSegs_TrieOK :
    ∀ (segs : List Str) (t : PathTrie T) (path : List Str) (t2 : PathTrie T)
      (u : Bool), AllNodes TrieOK t path → deleteSegs segs t = some (t2, u) →
      (u = false → AllNodes TrieOK t2 path) ∧ (u = true → t2 = newPathTrie) := by
  intro segs
  induction segs with
  | nil =>
    intro t path t2 u hq hd
    rw [AllNodes_iff] at hq
    simp only [deleteSegs, Option.some.injEq, Prod.mk.injEq] at hd
    rw [← hd.1, ← hd.2]
    simp only [isLeaf, clearValue, children_mk, beq_eq_false_iff_ne, ne_eq, beq_iff_eq,
      List.length_eq_zero]
    constructor
    · intro hu
      rw [AllNodes_iff]
      simp only [children_mk, value_mk, hasValue_mk]
      refine ⟨⟨fun _ => rfl, fun h => by simp at h, hq.1.2.2.1, fun _ => Or.inr ?_⟩, hq.2⟩
      intro h0
      exact hu (List.map_eq_nil_iff.1 h0)
    · intro hu
      rw [hu, newPathTrie]
  | cons part rest ih =>
    intro t path t2 u hq hd
    rw [AllNodes_iff] at hq
    rw [deleteSegs] at hd
    cases hch : childAt t.children part with
    | none => rw [hch] at hd; simp at hd
    | some child =>
      rw [hch] at hd
      simp only at hd
      cases hr : deleteSegs rest child with
      | none => rw [hr] at hd; simp at hd
      | some r =>
        obtain ⟨child1, unlink⟩ := r
        rw [hr] at hd
        simp only at hd
        have hchild := ih child (path ++ [part]) child1 unlink
          (hq.2 (part, child) (childAt_mem hch)) hr
        cases unlink with
        | true =>
          simp only [if_true, Option.some.injEq, Prod.mk.injEq] at hd
          rw [← hd.1, ← hd.2]
          simp only [Bool.and_eq_false_imp, beq_iff_eq, List.length_eq_zero,
            Bool.not_eq_false', Bool.and_eq_true, Bool.not_eq_true']
          constructor
          · intro hu
            rw [AllNodes_iff]
            simp only [children_mk, value_mk, hasValue_mk]
            refine ⟨⟨hq.1.1, hq.1.2.1, ?_, fun _ => ?_⟩, ?_⟩
            · exact List.Nodup.sublist ((delChild_sublist _ _).map _) hq.1.2.2.1
            · by_cases h0 : delChild t.children part = []
              · exact Or.inl (hu h0)
              · right
                intro h1
                exact h0 (List.map_eq_nil_iff.1 h1)
            · intro kc hkc
              exact hq.2 kc ((delChild_sublist _ _).subset hkc)
          · intro hu
            cases t with
            | mk tv th tcs =>
              simp only [children_mk, value_mk, hasValue_mk] at hu hq ⊢
              rw [hu.1, hu.2, hq.1.1 hu.2, newPathTrie]
        | false =>
          simp only [Bool.false_eq_true, if_false, Option.some.injEq, Prod.mk.injEq] at hd
          rw [← hd.1, ← hd.2]
          simp only [true_implies, Bool.false_eq_true, false_implies, and_true]
          rw [AllNodes_iff]
          simp only [children_mk, value_mk, hasValue_mk]
          refine ⟨⟨hq.1.1, hq.1.2.1, nodup_keys_setChild _ _ _ hq.1.2.2.1, fun _ => Or.inr ?_⟩, ?_⟩
          · intro h0
            have := childAt_setChild_self t.children part child1
            rw [List.map_eq_nil_iff.1 h0, childAt_nil] at this
            simp at this
          · intro kc hkc
            rcases mem_setChild hkc with h1 | h1
            · exact hq.2 kc h1
            · rw [h1]; exact hchild.1 rfl

theorem applyOp_TrieOK (t : PathTrie T) (op : TrieOp T) (h : AllNodes TrieOK t []) :
    AllNodes TrieOK (t.applyOp op) [] := by
  cases op with
  | Put key value =>
    simp only [applyOp, Put_eq_putSegs]
    exact (putSegs_TrieOK value (segList key) t [] (Or.inl h)
      (by simp [segList_flatten])).1
  | Delete key =>
    simp only [applyOp, Delete_eq_deleteSegs]
    cases hd : deleteSegs (segList key) t with
    | none => exact h
    | some r =>
      obtain ⟨t2, u⟩ := r
      have := deleteSegs_TrieOK (segList key) t [] t2 u h hd
      cases u with
      | false => exact this.1 rfl
      | true => simp only; rw [this.2 rfl]; exact TrieOK_new

theorem foldl_TrieOK (ops : List (TrieOp T)) : ∀ t : PathTrie T, AllNodes TrieOK t [] →
    AllNodes TrieOK (ops.foldl applyOp t) [] := by
  induction ops with
  | nil => intro t h; exact h
  | cons op ops ih => intro t h; exact ih _ (applyOp_TrieOK t op h)

/-- Every trie built by `Put` and `Delete` satisfies the invariant. -/
theorem build_TrieOK (ops : List (TrieOp T)) : AllNodes TrieOK (build ops) [] :=
  foldl_TrieOK ops _ TrieOK_new

/-! ## A built trie and the history of its keys -/

/-- What `Put` returns: whether the key held no value. -/
theorem putSegs_snd (v : T) : ∀ (ks : List Str) (t : PathTrie T),
    (putSegs v ks t).2 = (valueAt t ks).isNone := by
  intro ks
  induction ks with
  | nil =>
    intro t
    rw [putSegs, valueAt_nil]
    cases t.hasValue <;> simp
  | cons k ks ih =>
    intro t
    rw [putSegs, valueAt_cons]
    simp only [ih]
    cases hc : childAt t.children k with
    | none => simp [valueAt_new]
    | some c => rfl

theorem deleteSegs_none (ks : List Str) : ∀ t : PathTrie T,
    deleteSegs ks t = none → valueAt t ks = none := by
  induction ks with
  | nil => intro t h; simp [deleteSegs] at h
  | cons k ks ih =>
    intro t h
    rw [deleteSegs] at h
    rw [valueAt_cons]
    cases hch : childAt t.children k with
    | none => rfl
    | some child =>
      rw [hch] at h
      simp only at h
      show valueAt child ks = none
      apply ih
      cases hr : deleteSegs ks child with
      | none => rfl
      | some r =>
        obtain ⟨c1, u⟩ := r
        rw [hr] at h
        simp only at h
        cases u <;> simp at h

theorem segList_inj {a b : Str} (h : segList a = segList b) : a = b := by
  rw [← segList_flatten a, ← segList_flatten b, h]

/-- The value at a key after one call. -/
theorem valueAt_applyOp (t : PathTrie T) (ht : AllNodes TrieOK t []) (op : TrieOp T) (k : Str) :
    valueAt (t.applyOp op) (segList k) =
      if op.key = k then op.stored else valueAt t (segList k) := by
  cases op with
  | Put key value =>
    simp only [applyOp, Put_eq_putSegs, valueAt_putSegs, TrieOp.key, TrieOp.stored]
    by_cases hk : key = k
    · subst hk; simp
    · have : ¬ segList k = segList key := fun h => hk (segList_inj h).symm
      simp [hk, this]
  | Delete key =>
    simp only [applyOp, Delete_eq_deleteSegs, TrieOp.key, TrieOp.stored]
    cases hd : deleteSegs (segList key) t with
    | none =>
      simp only
      by_cases hk : key = k
      · subst hk; simp [deleteSegs_none _ t hd]
      · simp [hk]
    | some r =>
      obtain ⟨t2, u⟩ := r
      simp only
      rw [valueAt_deleteSegs (segList key) t t2 u [] (TrieOK_KeysNodup t [] ht) hd]
      by_cases hk : key = k
      · subst hk; simp
      · have : ¬ segList k = segList key := fun h => hk (segList_inj h).symm
        simp [hk, this]

theorem lastPut_snoc (ops : List (TrieOp T)) (op : TrieOp T) (k : Str) :
    lastPut (ops ++ [op]) k = if op.key = k then op.stored else lastPut ops k := by
  unfold lastPut
  rw [List.foldl_append]
  rfl

theorem build_snoc (ops : List (TrieOp T)) (op : TrieOp T) :
    build (ops ++ [op]) = (build ops).applyOp op := by
  unfold build
  rw [List.foldl_append]
  rfl

/-- The value at a key of a trie built by calls is the value most recently put. -/
theorem valueAt_build (ops : List (TrieOp T)) (k : Str) :
    valueAt (build ops) (segList k) = lastPut ops k := by
  induction ops using List.reverseRecOn with
  | nil => simp [build, lastPut, valueAt_new]
  | append_singleton ops op ih =>
    rw [build_snoc, lastPut_snoc, valueAt_applyOp _ (build_TrieOK ops), ih]

theorem walkFold_append {σ : Type} (walker : Str → T → σ → σ × Bool) :
    ∀ (l1 l2 : List (Str × T)) (s : σ),
      walkFold walker (l1 ++ l2) s =
        if (walkFold walker l1 s).2 then walkFold walker l1 s
        else walkFold walker l2 (walkFold walker l1 s).1 := by
  intro l1
  induction l1 with
  | nil => intro l2 s; simp [walkFold]
  | cons x rest ih =>
    intro l2 s
    rw [List.cons_append, walkFold, walkFold]
    by_cases hx : (walker x.1 x.2 s).2 = true
    · simp [hx]
    · simp only [hx, if_false, Bool.false_eq_true]
      exact ih l2 _

theorem walkChildren_walkFold {σ : Type} (walker : Str → T → σ → σ × Bool)
    (cs : List (Str × PathTrie T))
    (ih : ∀ kc ∈ cs, ∀ (key : Str) (s : σ),
      walk walker kc.2 key s = walkFold walker (walkList kc.2 key) s) :
    ∀ (key : Str) (s : σ),
      walkChildren walker cs key s = walkFold walker (walkListCh cs key) s := by
  induction cs with
  | nil =>
    intro key s
    simp [walkListCh, walkChildren, walkFold]
  | cons kc rest ihr =>
    intro key s
    obtain ⟨part, child⟩ := kc
    rw [walkListCh, walkChildren, walkFold_append]
    have h1 := ih (part, child) (List.mem_cons_self _ _) (key ++ part) s
    simp only at h1
    rw [h1]
    by_cases hx : (walkFold walker (walkList child (key ++ part)) s).2 = true
    · simp only [hx, if_true]
      exact Prod.ext rfl hx.symm
    · simp only [hx, if_false, Bool.false_eq_true]
      exact ihr (fun kc h => ih kc (List.mem_cons_of_mem _ h)) key _

/-- A walk passes the pairs of `walkList` to the walker, in order, until the walker returns
an error. -/
theorem walk_walkFold {σ : Type} (walker : Str → T → σ → σ × Bool) (t : PathTrie T) :
    ∀ (key : Str) (s : σ), walk walker t key s = walkFold walker (walkList t key) s := by
  induction t using trie_induct with
  | step v h cs ih =>
    intro key s
    rw [walk, walkList]
    cases h with
    | true =>
      simp only [if_true, List.singleton_append, walkFold]
      by_cases hx : (walker key v s).2 = true
      · simp [hx]
      · simp only [hx, if_false, Bool.false_eq_true]
        exact walkChildren_walkFold walker cs ih key _
    | false =>
      simp only [Bool.false_eq_true, if_false, List.nil_append]
      exact walkChildren_walkFold walker cs ih key _

theorem Walk_walkFold {σ : Type} (walker : Str → T → σ → σ × Bool) (t : PathTrie T) (s : σ) :
    t.Walk walker s = walkFold walker t.visited s := by
  rw [visited_eq, Walk, walk_walkFold]

/-! ## `Delete` after `Put`; the segments `Get` follows -/

theorem delChild_setChild_new (cs : List (Str × PathTrie T)) (k : Str) (c : PathTrie T)
    (h : childAt cs k = none) : delChild (setChild cs k c) k = cs := by
  induction cs with
  | nil => simp [setChild, delChild]
  | cons kc rest ih =>
    obtain ⟨p, d⟩ := kc
    rw [childAt_cons] at h
    by_cases hp : p = k
    · simp [hp] at h
    · rw [if_neg hp] at h
      rw [setChild, if_neg hp, delChild, if_neg hp, ih h]

theorem setChild_same (cs : List (Str × PathTrie T)) (k : Str) (c : PathTrie T)
    (h : childAt cs k = some c) : setChild cs k c = cs := by
  induction cs with
  | nil => simp [childAt_nil] at h
  | cons kc rest ih =>
    obtain ⟨p, d⟩ := kc
    rw [childAt_cons] at h
    by_cases hp : p = k
    · rw [if_pos hp] at h
      simp only [Option.some.injEq] at h
      rw [setChild, if_pos hp, h]
    · rw [if_neg hp] at h
      rw [setChild, if_neg hp, ih h]

theorem eta_mk (t : PathTrie T) : PathTrie.mk t.value t.hasValue t.children = t := by
  cases t; rfl

/-- `Delete` after `Put` at a key that held no value gives back the node as it was, and goes
on to unlink it exactly when it had neither a value nor children. -/
theorem deleteSegs_putSegs (v : T) : ∀ (ks : List Str) (t : PathTrie T) (path : List Str),
    (AllNodes TrieOK t path ∨ t = newPathTrie) → valueAt t ks = none →
    deleteSegs ks (putSegs v ks t).1 = some (t, t.children.length == 0 && !t.hasValue) := by
  intro ks
  induction ks with
  | nil =>
    intro t path hq hv
    rw [valueAt_nil] at hv
    have hh : t.hasValue = false := by
      cases h : t.hasValue with
      | false => rfl
      | true => rw [h] at hv; simp at hv
    have hd : t.value = default := by
      rcases hq with hq | hq
      · rw [AllNodes_iff] at hq
        exact hq.1.1 hh
      · rw [hq]; rfl
    rw [putSegs, deleteSegs]
    simp only [setValue, clearValue, children_mk, isLeaf, hh, Bool.not_false, Bool.and_true]
    cases t with
    | mk tv th tcs =>
      simp only [value_mk, hasValue_mk, children_mk] at hh hd ⊢
      rw [hh, hd]
  | cons k ks ih =>
    intro t path hq hv
    rw [valueAt_cons] at hv
    rw [putSegs, deleteSegs]
    simp only [children_mk, childAt_setChild_self, value_mk, hasValue_mk]
    cases hch : childAt t.children k with
    | none =>
      have := ih (newPathTrie : PathTrie T) (path ++ [k]) (Or.inr rfl) (valueAt_new ks)
      simp only [Option.getD_none, this]
      simp only [newPathTrie, children_mk, hasValue_mk, List.length_nil, beq_self_eq_true,
        Bool.not_false, Bool.and_self, if_true]
      rw [delChild_setChild_new _ _ _ hch, eta_mk]
    | some c =>
      rw [hch] at hv
      replace hv : valueAt c ks = none := hv
      have hc : AllNodes TrieOK c (path ++ [k]) := by
        rcases hq with hq | hq
        · rw [AllNodes_iff] at hq
          exact hq.2 (k, c) (childAt_mem hch)
        · subst hq
          simp [newPathTrie, childAt_nil] at hch
      have := ih c (path ++ [k]) (Or.inl hc) hv
      simp only [Option.getD_some, this]
      have hkeep : (c.children.length == 0 && !c.hasValue) = false := by
        rw [AllNodes_iff] at hc
        rcases hc.1.2.2.2 (by simp) with h1 | h1
        · simp [h1]
        · have : c.children ≠ [] := fun h0 => h1 (by rw [h0]; rfl)
          simp [this]
      simp only [hkeep, Bool.false_eq_true, if_false]
      rw [setChild_setChild, setChild_same _ _ _ hch, eta_mk]
      have hne : t.children ≠ [] := by
        intro h0
        rw [h0, childAt_nil] at hch
        simp at hch
      simp [hne]

/-- What the loop of `Get` returns: the node reached along the segments followed. -/
theorem getSegs_followed : ∀ (segs : List Str) (t : PathTrie T) (pre : Option (PathTrie T))
    (pfx : List Str),
    getSegs segs t pre pfx =
      if followed t segs = [] then (pre, pfx)
      else (descend t (followed t segs), pfx ++ followed t segs) := by
  intro segs
  induction segs with
  | nil => intro t pre pfx; simp [getSegs, followed]
  | cons k ks ih =>
    intro t pre pfx
    rw [getSegs, followed]
    cases hch : childAt t.children k with
    | none => simp
    | some c =>
      simp only [List.cons_ne_nil, if_false]
      rw [ih, descend_cons, hch]
      by_cases hf : followed c ks = []
      · simp [hf, descend_nil]
      · simp [hf]

theorem followed_initial : ∀ (segs : List Str) (t : PathTrie T), followed t segs <+: segs := by
  intro segs
  induction segs with
  | nil => intro t; simp [followed]
  | cons k ks ih =>
    intro t
    rw [followed]
    cases hch : childAt t.children k with
    | none => simp
    | some c =>
      simp only
      exact (List.prefix_cons_inj k).2 (ih c)

theorem descend_followed : ∀ (segs : List Str) (t : PathTrie T),
    ∃ n, descend t (followed t segs) = some n := by
  intro segs
  induction segs with
  | nil => intro t; exact ⟨t, by simp [followed, descend_nil]⟩
  | cons k ks ih =>
    intro t
    rw [followed]
    cases hch : childAt t.children k with
    | none => exact ⟨t, by simp [descend_nil]⟩
    | some c =>
      obtain ⟨n, hn⟩ := ih c
      exact ⟨n, by simp only [descend_cons, hch, Option.bind_some]; exact hn⟩

/-- The segments followed cannot be followed any further. -/
theorem followed_maximal : ∀ (segs : List Str) (t n : PathTrie T) (k : Str) (rest : List Str),
    descend t (followed t segs) = some n → segs = followed t segs ++ k :: rest →
    childAt n.children k = none := by
  intro segs
  induction segs with
  | nil => intro t n k rest _ h; simp [followed] at h
  | cons q qs ih =>
    intro t n k rest hd hs
    rw [followed] at hd hs
    cases hch : childAt t.children q with
    | none =>
      rw [hch] at hd hs
      simp only [descend_nil, Option.some.injEq, List.nil_append, List.cons.injEq] at hd hs
      rw [← hd, ← hs.1]
      exact hch
    | some c =>
      rw [hch] at hd hs
      simp only [descend_cons, hch, Option.bind_some, List.cons_append, List.cons.injEq,
        true_and] at hd hs
      exact ih c n k rest hd hs

/-! ## `path.Clean` on unrooted paths -/

theorem relBuf_cons (e : Str) (es : List Str) :
    relBuf (e :: es) = e.reverse ++ (if es = [] then [] else '/' :: relBuf es) := by
  cases es with
  | nil => simp [relBuf]
  | cons e2 es => simp [relBuf]

theorem relBuf_eq_nil (es : List Str) (h : ∀ e ∈ es, e ≠ []) : relBuf es = [] ↔ es = [] := by
  cases es with
  | nil => simp [relBuf]
  | cons e es =>
    have he := h e (List.mem_cons_self _ _)
    rw [relBuf_cons]
    simp [he]

theorem relBuf_length_le (rep : List Str) : ∀ vs : List Str,
    (relBuf rep).length ≤ (relBuf (vs ++ rep)).length := by
  intro vs
  induction vs with
  | nil => simp
  | cons e vs ih =>
    rw [List.cons_append, relBuf_cons]
    by_cases h0 : vs ++ rep = []
    · have : rep = [] := (List.append_eq_nil.1 h0).2
      subst this
      simp [relBuf]
    · simp only [h0, if_false, List.length_append, List.length_cons, List.length_reverse]
      omega

theorem relBuf_length_lt (rep : List Str) (e : Str) (vs : List Str) (he : e ≠ []) :
    (relBuf rep).length < (relBuf (e :: vs ++ rep)).length := by
  have h1 := relBuf_length_le rep vs
  have h2 : 0 < e.length := List.length_pos.mpr he
  rw [List.cons_append, relBuf_cons]
  by_cases h0 : vs ++ rep = []
  · have : rep = [] := (List.append_eq_nil.1 h0).2
    subst this
    simp [relBuf, h2]
  · simp only [h0, if_false, List.length_append, List.length_cons, List.length_reverse]
    omega

/-- Backtracking over the last element of an unrooted buffer: the element and the slash
before it are dropped. -/
theorem cleanBack_rel (d : Nat) (L : List Str) (hL : ∀ e ∈ L, e ≠ [])
    (hd : d ≤ (relBuf L).length) (l : Str) (hl : ∀ c ∈ l, notSlash c = true) (x : Char)
    (hx : notSlash x = true) :
    cleanBack d x (l ++ (if L = [] then [] else '/' :: relBuf L)) = relBuf L := by
  induction l generalizing x with
  | nil =>
    have hx2 : x ≠ '/' := (notSlash_iff x).1 hx
    by_cases h0 : L = []
    · subst h0; simp [cleanBack, relBuf]
    · have hne : relBuf L ≠ [] := fun h => h0 ((relBuf_eq_nil L hL).1 h)
      obtain ⟨z, zs, hz⟩ := List.exists_cons_of_ne_nil hne
      simp only [List.nil_append, h0, if_false]
      rw [hz] at hd ⊢
      rw [cleanBack]
      have : (('/' :: z :: zs).length > d ∧ x ≠ '/') := ⟨by simp at hd ⊢; omega, hx2⟩
      rw [if_pos this, cleanBack]
      simp
  | cons y l ih =>
    have hx2 : x ≠ '/' := (notSlash_iff x).1 hx
    rw [List.cons_append, cleanBack]
    have hlen : (y :: (l ++ if L = [] then [] else '/' :: relBuf L)).length > d := by
      by_cases h0 : L = []
      · subst h0
        simp [relBuf] at hd
        simp [hd]
      · simp only [h0, if_false, List.length_cons, List.length_append]
        omega
    rw [if_pos ⟨hlen, hx2⟩]
    exact ih (fun c hc => hl c (List.mem_cons_of_mem _ hc)) y (hl y (List.mem_cons_self _ _))

theorem relElems_ne (n : Nat) (vs : List Str) (h : ∀ e ∈ vs, validElem e) :
    ∀ e ∈ vs ++ List.replicate n ['.', '.'], e ≠ [] := by
  intro e he
  rcases List.mem_append.1 he with h1 | h1
  · exact (h e h1).1
  · rw [List.eq_of_mem_replicate h1]; simp

/-- The unrooted loop of `path.Clean` keeps the buffer in the form `../../e1/.../en`, and
`dotdot` at the end of the `..` elements. -/
theorem cleanLoop_unrooted_form (fuel : Nat) : ∀ (rest : Str) (vs : List Str) (n : Nat),
    (∀ e ∈ vs, validElem e) →
    ∃ (vs2 : List Str) (n2 : Nat), (∀ e ∈ vs2, validElem e) ∧
      cleanLoop false fuel rest (relBuf (vs ++ List.replicate n ['.', '.']))
        (relBuf (List.replicate n ['.', '.'])).length =
          relBuf (vs2 ++ List.replicate n2 ['.', '.']) := by
  induction fuel with
  | zero => intro rest vs n h; exact ⟨vs, n, h, by simp [cleanLoop]⟩
  | succ fuel ih =>
    intro rest vs n h
    cases rest with
    | nil => exact ⟨vs, n, h, by simp [cleanLoop]⟩
    | cons c t =>
      rw [cleanLoop_cons]
      split
      · exact ih t vs n h
      · rename_i hc
        split
        · exact ih t vs n h
        · rename_i hdot
          split
          · rename_i hdd
            cases vs with
            | nil =>
              simp only [List.nil_append, gt_iff_lt, Nat.lt_irrefl, if_false, if_true]
              have hb : '.' :: '.' :: (if 0 < (relBuf (List.replicate n ['.', '.'])).length
                  then '/' :: relBuf (List.replicate n ['.', '.'])
                  else relBuf (List.replicate n ['.', '.'])) =
                    relBuf (List.replicate (n + 1) ['.', '.']) := by
                rw [List.replicate_succ, relBuf_cons]
                cases n with
                | zero => simp [relBuf]
                | succ m =>
                  have : relBuf (['.', '.'] :: List.replicate m ['.', '.']) ≠ [] := by
                    rw [relBuf_cons]; simp
                  simp [List.length_pos.mpr this, List.replicate_succ, this]
              rw [hb]
              have := ih t.tail [] (n + 1) (by simp)
              simpa using this
            | cons e vs0 =>
              have hv := h e (List.mem_cons_self _ _)
              have hlt := relBuf_length_lt (List.replicate n ['.', '.']) e vs0 hv.1
              rw [if_pos hlt]
              have hne : e.reverse ≠ [] := by simpa using hv.1
              obtain ⟨x, l, hxl⟩ := List.exists_cons_of_ne_nil hne
              have hall : ∀ c ∈ x :: l, notSlash c = true := by
                intro c hc
                rw [← hxl] at hc
                exact hv.2.1 c (by simpa using hc)
              have hb : relBuf (e :: vs0 ++ List.replicate n ['.', '.']) =
                  x :: (l ++ (if vs0 ++ List.replicate n ['.', '.'] = [] then []
                    else '/' :: relBuf (vs0 ++ List.replicate n ['.', '.']))) := by
                rw [List.cons_append, relBuf_cons, hxl]; rfl
              rw [hb]
              simp only []
              rw [cleanBack_rel _ _
                (relElems_ne n vs0 (fun e he => h e (List.mem_cons_of_mem _ he)))
                (relBuf_length_le _ vs0) l (fun c hc => hall c (List.mem_cons_of_mem _ hc)) x
                (hall x (List.mem_cons_self _ _))]
              exact ih _ vs0 n (fun e he => h e (List.mem_cons_of_mem _ he))
          · rename_i hdd
            -- a real path element
            have hcn : notSlash c = true := notSlash_of_ne hc
            have htw : (c :: t).takeWhile notSlash = c :: t.takeWhile notSlash := by
              simp [List.takeWhile_cons, hcn]
            have hvalid : validElem (c :: t.takeWhile notSlash) := by
              refine ⟨by simp, ?_, ?_, ?_⟩
              · intro d hd
                rcases List.mem_cons.1 hd with h1 | h1
                · rw [h1]; exact hcn
                · exact takeWhile_all t d h1
              · intro heq
                simp only [List.cons.injEq] at heq
                exact hdot ⟨heq.1, (takeWhile_nil_iff t).1 heq.2⟩
              · intro heq
                simp only [List.cons.injEq] at heq
                obtain ⟨h1, h2⟩ := heq
                cases t with
                | nil => simp at h2
                | cons d t2 =>
                  by_cases hd : notSlash d = true
                  · simp only [List.takeWhile_cons, hd, if_true, List.cons.injEq] at h2
                    exact hdd ⟨h1, by simp [h2.1], by simpa using (takeWhile_nil_iff t2).1 h2.2⟩
                  · simp [List.takeWhile_cons, hd] at h2
            have hbuf : ((c :: t).takeWhile notSlash).reverse ++
                (if (relBuf (vs ++ List.replicate n ['.', '.'])).length ≠ 0
                  then '/' :: relBuf (vs ++ List.replicate n ['.', '.'])
                  else relBuf (vs ++ List.replicate n ['.', '.'])) =
                  relBuf ((c :: t.takeWhile notSlash) :: vs ++ List.replicate n ['.', '.']) := by
              rw [htw, List.cons_append, relBuf_cons]
              congr 1
              have hiff := relBuf_eq_nil _ (relElems_ne n vs h)
              by_cases hes : vs ++ List.replicate n ['.', '.'] = []
              · rw [hes]; simp [relBuf]
              · have : relBuf (vs ++ List.replicate n ['.', '.']) ≠ [] := fun h0 => hes (hiff.1 h0)
                simp [hes, this]
            simp only [Bool.false_eq_true, false_and, true_and, false_or]
            rw [hbuf]
            exact ih _ _ n (fun e he => by
              rcases List.mem_cons.1 he with h1 | h1
              · rw [h1]; exact hvalid
              · exact h e h1)

theorem relPath_cons (e : Str) (es : List Str) :
    relPath (e :: es) = e ++ (if es = [] then [] else '/' :: relPath es) := by
  cases es with
  | nil => simp [relPath]
  | cons e2 es => simp [relPath]

theorem relPath_snoc (es : List Str) (e : Str) :
    relPath (es ++ [e]) = (if es = [] then [] else relPath es ++ ['/']) ++ e := by
  induction es with
  | nil => simp [relPath]
  | cons e1 es ih =>
    rw [List.cons_append, relPath_cons, ih, relPath_cons]
    by_cases h0 : es = []
    · subst h0; simp
    · simp [h0]

theorem relBuf_reverse (es : List Str) : (relBuf es).reverse = relPath es.reverse := by
  induction es with
  | nil => rfl
  | cons e es0 ih =>
    rw [relBuf_cons, List.reverse_cons, relPath_snoc]
    by_cases h0 : es0 = []
    · subst h0; simp
    · simp [h0, ih]

theorem cleanRun_eq (rooted : Bool) (fuel : Nat) (rest out : Str) (dotdot : Nat)
    (h : rest.length ≤ fuel) :
    cleanLoop rooted fuel rest out dotdot = cleanRun rooted rest out dotdot :=
  cleanLoop_fuel rooted _ _ _ _ _ h (le_refl _)

/-- `path.Clean` of an unrooted path is `.` or a path of `..` elements followed by valid
elements. -/
theorem Clean_unrooted_form (c : Char) (t : Str) (hc : c ≠ '/') : CleanRel (Clean (c :: t)) := by
  obtain ⟨vs, n, hvs, heq⟩ := cleanLoop_unrooted_form (c :: t).length (c :: t) [] 0 (by simp)
  simp only [List.replicate_zero, List.append_nil, relBuf, List.length_nil] at heq
  simp only [Clean, hc, if_false]
  rw [heq]
  by_cases h0 : vs ++ List.replicate n ['.', '.'] = []
  · left
    rw [h0]; rfl
  · right
    have hne : relBuf (vs ++ List.replicate n ['.', '.']) ≠ [] :=
      fun h => h0 ((relBuf_eq_nil _ (relElems_ne n vs hvs)).1 h)
    refine ⟨n, vs.reverse, fun e he => hvs e (List.mem_reverse.1 he), ?_, ?_⟩
    · intro h
      apply h0
      have := congrArg List.reverse h
      simpa [relElems] using this
    · have hl : ¬ (relBuf (vs ++ List.replicate n ['.', '.'])).length = 0 := by
        rw [List.length_eq_zero]; exact hne
      rw [if_neg hl, relBuf_reverse]
      simp [relElems]

/-- One valid element is copied to the unrooted buffer. -/
theorem cleanRun_rel_elem (e rest : Str) (L : List Str) (d : Nat) (he : validElem e)
    (hL : ∀ x ∈ L, x ≠ []) (hr : rest = [] ∨ rest.head? = some '/') :
    cleanRun false (e ++ rest) (relBuf L) d = cleanRun false rest (relBuf (e :: L)) d := by
  obtain ⟨hne, hall, hdot, hdotdot⟩ := he
  obtain ⟨c, e2, rfl⟩ := List.exists_cons_of_ne_nil hne
  have hc : c ≠ '/' := (notSlash_iff c).1 (hall c (List.mem_cons_self _ _))
  have hall2 : ∀ d ∈ e2, notSlash d = true := fun d hd => hall d (List.mem_cons_of_mem _ hd)
  unfold cleanRun
  rw [List.cons_append, List.length_cons, cleanLoop_cons]
  have h1 : ¬ (c = '.' ∧ (e2 ++ rest = [] ∨ (e2 ++ rest).head? = some '/')) := by
    rintro ⟨hcd, h⟩
    apply hdot
    have : (e2 ++ rest).takeWhile notSlash = [] := (takeWhile_nil_iff _).2 h
    rw [(takeWhile_elem e2 rest hall2 hr).1] at this
    rw [hcd, this]
  have h2 : ¬ (c = '.' ∧ (e2 ++ rest).head? = some '.' ∧
      ((e2 ++ rest).tail = [] ∨ (e2 ++ rest).tail.head? = some '/')) := by
    rintro ⟨hcd, hh, ht⟩
    apply hdotdot
    cases e2 with
    | nil =>
      rcases hr with hr | hr
      · subst hr; simp at hh
      · simp only [List.nil_append] at hh; rw [hr] at hh; simp at hh
    | cons d e3 =>
      simp only [List.cons_append, List.head?_cons, Option.some.injEq] at hh
      simp only [List.cons_append, List.tail_cons] at ht
      have hall3 : ∀ x ∈ e3, notSlash x = true :=
        fun x hx => hall2 x (List.mem_cons_of_mem _ hx)
      have : (e3 ++ rest).takeWhile notSlash = [] := (takeWhile_nil_iff _).2 ht
      rw [(takeWhile_elem e3 rest hall3 hr).1] at this
      rw [hcd, hh, this]
  rw [if_neg hc, if_neg h1, if_neg h2]
  have htd := takeWhile_elem (c :: e2) rest hall hr
  simp only [List.cons_append] at htd
  rw [htd.1, htd.2]
  have hbuf : (c :: e2).reverse ++
      (if (false = true ∧ (relBuf L).length ≠ 1) ∨ (false = false ∧ (relBuf L).length ≠ 0)
        then '/' :: relBuf L else relBuf L) = relBuf ((c :: e2) :: L) := by
    rw [relBuf_cons]
    congr 1
    by_cases h0 : L = []
    · subst h0; simp [relBuf]
    · have : relBuf L ≠ [] := fun h => h0 ((relBuf_eq_nil L hL).1 h)
      simp [h0, this]
  rw [hbuf]
  apply cleanLoop_fuel
  · rw [List.length_append]; omega
  · exact le_refl _

/-- One `..` element that cannot backtrack is appended to the unrooted buffer. -/
theorem cleanRun_rel_dotdot (rest : Str) (L : List Str) (d : Nat)
    (hd : (relBuf L).length ≤ d) (hL : ∀ x ∈ L, x ≠ [])
    (hr : rest = [] ∨ rest.head? = some '/') :
    cleanRun false (['.', '.'] ++ rest) (relBuf L) d =
      cleanRun false rest (relBuf (['.', '.'] :: L)) (relBuf (['.', '.'] :: L)).length := by
  unfold cleanRun
  simp only [List.cons_append, List.nil_append, List.length_cons]
  rw [cleanLoop_cons]
  have h0 : ¬ ('.' = '/') := by decide
  have h1 : ¬ ('.' = '.' ∧ ('.' :: rest = [] ∨ ('.' :: rest).head? = some '/')) := by
    simp
  have h2 : ('.' = '.' ∧ ('.' :: rest).head? = some '.' ∧
      (('.' :: rest).tail = [] ∨ ('.' :: rest).tail.head? = some '/')) := by
    simpa using hr
  rw [if_neg h0, if_neg h1, if_pos h2, if_neg (by omega)]
  simp only [if_true, List.tail_cons]
  have hbuf : '.' :: '.' :: (if (relBuf L).length > 0 then '/' :: relBuf L else relBuf L) =
      relBuf (['.', '.'] :: L) := by
    rw [relBuf_cons]
    by_cases h0 : L = []
    · subst h0; simp [relBuf]
    · have : relBuf L ≠ [] := fun h => h0 ((relBuf_eq_nil L hL).1 h)
      simp [h0, List.length_pos.mpr this]
  rw [hbuf]
  apply cleanLoop_fuel
  · omega
  · exact le_refl _

theorem flatMap_sep_head (j : Nat) (more : List Str) (rest : Str)
    (hr : rest = [] ∨ rest.head? = some '/') :
    more.flatMap (fun e => List.replicate (j + 1) '/' ++ e) ++ rest = [] ∨
      (more.flatMap (fun e => List.replicate (j + 1) '/' ++ e) ++ rest).head? = some '/' := by
  cases more with
  | nil => simpa using hr
  | cons e2 r => right; simp [List.replicate_succ]

theorem dots_ne (n : Nat) : ∀ e ∈ List.replicate n ['.', '.'], e ≠ [] := by
  intro e he
  rw [List.eq_of_mem_replicate he]; simp

/-- Leading `..` elements separated by runs of slashes are appended to the buffer one after
the other. -/
theorem cleanRun_rel_dots (j : Nat) : ∀ (m n : Nat) (rest : Str),
    (rest = [] ∨ rest.head? = some '/') →
    cleanRun false ((List.replicate m ['.', '.']).flatMap
        (fun e => List.replicate (j + 1) '/' ++ e) ++ rest)
      (relBuf (List.replicate n ['.', '.'])) (relBuf (List.replicate n ['.', '.'])).length =
    cleanRun false rest (relBuf (List.replicate (m + n) ['.', '.']))
      (relBuf (List.replicate (m + n) ['.', '.'])).length := by
  intro m
  induction m with
  | zero => intro n rest _; simp
  | succ m ih =>
    intro n rest hr
    have hs0 : List.replicate (m + 1) ['.', '.'] = ['.', '.'] :: List.replicate m ['.', '.'] :=
      List.replicate_succ _ _
    rw [hs0, List.flatMap_cons, List.append_assoc, List.append_assoc, cleanRun_slashes]
    rw [cleanRun_rel_dotdot _ _ _ (le_refl _) (dots_ne n)
      (flatMap_sep_head j _ rest hr)]
    have := ih (n + 1) rest hr
    have hs : List.replicate (n + 1) ['.', '.'] = ['.', '.'] :: List.replicate n ['.', '.'] :=
      List.replicate_succ _ _
    rw [← hs, this]
    have hmn : m + (n + 1) = m + 1 + n := by omega
    rw [hmn]

/-- Valid elements separated by runs of slashes are pushed on the unrooted buffer one after
the other. -/
theorem cleanRun_rel_elems (j : Nat) (d : Nat) : ∀ (more L : List Str),
    (∀ x ∈ more, validElem x) → (∀ x ∈ L, x ≠ []) →
    cleanRun false (more.flatMap (fun e => List.replicate (j + 1) '/' ++ e)) (relBuf L) d =
      relBuf (more.reverse ++ L) := by
  intro more
  induction more with
  | nil => intro L _ _; simp [cleanRun_nil]
  | cons e rest ih =>
    intro L hm hL
    have he := hm e (List.mem_cons_self _ _)
    have hrest : ∀ x ∈ rest, validElem x := fun x hx => hm x (List.mem_cons_of_mem _ hx)
    rw [List.flatMap_cons, List.append_assoc, cleanRun_slashes]
    rw [cleanRun_rel_elem e _ L d he hL]
    · rw [ih (e :: L) hrest]
      · simp
      · intro x hx
        rcases List.mem_cons.1 hx with h | h
        · rw [h]; exact he.1
        · exact hL x h
    · have := flatMap_sep_head j rest [] (Or.inl rfl)
      simpa using this

theorem cleanRun_relElems (j n : Nat) (vs : List Str) (hvs : ∀ x ∈ vs, validElem x) :
    cleanRun false ((relElems n vs).flatMap (fun e => List.replicate (j + 1) '/' ++ e)) [] 0 =
      relBuf (relElems n vs).reverse := by
  have h1 := cleanRun_rel_dots j n 0
    (vs.flatMap (fun e => List.replicate (j + 1) '/' ++ e))
    (by have := flatMap_sep_head j vs [] (Or.inl rfl); simpa using this)
  simp only [List.replicate_zero, relBuf, List.length_nil, Nat.add_zero] at h1
  rw [relElems, List.flatMap_append, h1]
  rw [cleanRun_rel_elems j _ vs _ hvs (dots_ne n)]
  simp

theorem relElems_head (n : Nat) (vs : List Str) (hvs : ∀ x ∈ vs, validElem x) (e : Str)
    (r : List Str) (h : relElems n vs = e :: r) : ∃ c t, e = c :: t ∧ c ≠ '/' := by
  cases n with
  | zero =>
    simp only [relElems, List.replicate_zero, List.nil_append] at h
    have he := hvs e (by rw [h]; exact List.mem_cons_self _ _)
    obtain ⟨c, t, rfl⟩ := List.exists_cons_of_ne_nil he.1
    exact ⟨c, t, rfl, (notSlash_iff c).1 (he.2.1 c (List.mem_cons_self _ _))⟩
  | succ m =>
    simp only [relElems, List.replicate_succ, List.cons_append, List.cons.injEq] at h
    exact ⟨'.', ['.'], h.1.symm, by decide⟩

/-- `path.Clean` of the elements of a cleaned unrooted path, separated by runs of slashes, is
the path. -/
theorem Clean_relElems (j n : Nat) (vs : List Str) (hvs : ∀ x ∈ vs, validElem x) (e : Str)
    (r : List Str) (h : relElems n vs = e :: r) :
    Clean (e ++ r.flatMap (fun x => List.replicate (j + 1) '/' ++ x)) = relPath (e :: r) := by
  obtain ⟨c, t, hct, hc⟩ := relElems_head n vs hvs e r h
  have hrun := cleanRun_relElems j n vs hvs
  rw [h, List.flatMap_cons, List.append_assoc, cleanRun_slashes] at hrun
  subst hct
  rw [List.cons_append]
  simp only [Clean, hc, if_false]
  rw [cleanRun_eq _ _ _ _ _ (le_refl _)]
  rw [List.cons_append] at hrun
  rw [hrun]
  have hne : relBuf ((c :: t) :: r).reverse ≠ [] := by
    intro h0
    have hall : ∀ x ∈ ((c :: t) :: r).reverse, x ≠ [] := by
      intro x hx
      have hx2 : x ∈ vs ++ List.replicate n ['.', '.'] := by
        rw [List.mem_reverse, ← h, relElems] at hx
        rw [List.mem_append] at hx ⊢
        exact hx.symm
      exact relElems_ne n vs hvs x hx2
    have := (relBuf_eq_nil _ hall).1 h0
    simp at this
  have hl : ¬ (relBuf ((c :: t) :: r).reverse).length = 0 := by
    rw [List.length_eq_zero]; exact hne
  rw [if_neg hl, relBuf_reverse, List.reverse_reverse]

theorem relPath_flatMap (e : Str) (r : List Str) :
    relPath (e :: r) = e ++ r.flatMap (fun x => '/' :: x) := by
  induction r generalizing e with
  | nil => simp [relPath]
  | cons e2 r ih =>
    rw [relPath_cons, ih e2]
    simp

/-- The segments of a path whose elements hold no slash. -/
theorem segList_slashFree : ∀ (els : List Str), (∀ e ∈ els, ∀ c ∈ e, notSlash c = true) →
    segList (els.flatMap (fun e => '/' :: e)) = els.map (fun e => '/' :: e) := by
  intro els
  induction els with
  | nil => intro _; rfl
  | cons e rest ih =>
    intro h
    have he := h e (List.mem_cons_self _ _)
    have hr : rest.flatMap (fun e => '/' :: e) = [] ∨
        (rest.flatMap (fun e => '/' :: e)).head? = some '/' := by
      cases rest with
      | nil => left; rfl
      | cons e2 r => right; simp
    have htd := takeWhile_elem e _ he hr
    rw [List.flatMap_cons, List.cons_append, segList_cons, htd.1, htd.2,
      ih (fun x hx => h x (List.mem_cons_of_mem _ hx))]
    rfl

theorem relElems_slashFree (n : Nat) (vs : List Str) (hvs : ∀ x ∈ vs, validElem x) :
    ∀ e ∈ relElems n vs, ∀ c ∈ e, notSlash c = true := by
  intro e he c hc
  rcases List.mem_append.1 he with h1 | h1
  · rw [List.eq_of_mem_replicate h1] at hc
    simp only [List.mem_cons, List.mem_singleton, List.not_mem_nil, or_false, or_self] at hc
    rw [hc]; decide
  · exact (hvs e h1).2.1 c hc

theorem segList_relPath (n : Nat) (vs : List Str) (hvs : ∀ x ∈ vs, validElem x) (e : Str)
    (r : List Str) (h : relElems n vs = e :: r) :
    segList (relPath (e :: r)) = e :: r.map (fun x => '/' :: x) := by
  obtain ⟨c, t, hct, hc⟩ := relElems_head n vs hvs e r h
  have hsf := relElems_slashFree n vs hvs
  rw [h] at hsf
  have hr : r.flatMap (fun e => '/' :: e) = [] ∨
      (r.flatMap (fun e => '/' :: e)).head? = some '/' := by
    cases r with
    | nil => left; rfl
    | cons e2 r => right; simp
  subst hct
  have htd := takeWhile_elem t _
    (fun d hd => hsf (c :: t) (List.mem_cons_self _ _) d (List.mem_cons_of_mem _ hd)) hr
  rw [relPath_flatMap, List.cons_append, segList_cons, htd.1, htd.2,
    segList_slashFree r (fun x hx => hsf x (List.mem_cons_of_mem _ hx))]

/-- `path.Join` of the segments of a cleaned unrooted path is the path. -/
theorem Join_segList_rel (k : Str) (h : CleanRel k) : Join (segList k) = k := by
  rcases h with h | ⟨n, vs, hvs, hne, hk⟩
  · subst h; decide
  · obtain ⟨e, r, her⟩ := List.exists_cons_of_ne_nil hne
    rw [her] at hk
    subst hk
    rw [segList_relPath n vs hvs e r her]
    obtain ⟨c, t, hct, hc⟩ := relElems_head n vs hvs e r her
    unfold Join
    have hsum : ¬ ((List.map List.length (e :: List.map (fun x => '/' :: x) r)).sum = 0) := by
      rw [hct]; simp
    rw [if_neg hsum, joinBuf]
    have hen : e ≠ [] := by rw [hct]; simp
    simp only [List.length_nil, gt_iff_lt, Nat.lt_irrefl, false_or, ne_eq, hen,
      not_false_eq_true, if_true, if_false, List.nil_append]
    rw [joinBuf_elems r _ hen]
    exact Clean_relElems 1 n vs hvs e r her

theorem prefix_singleton {α : Type} (qs : List α) (a : α) (hq : qs ≠ []) (hp : qs <+: [a]) :
    qs = [a] := by
  obtain ⟨t, ht⟩ := hp
  cases qs with
  | nil => exact absurd rfl hq
  | cons q qs =>
    simp only [List.cons_append, List.cons.injEq, List.append_eq_nil] at ht
    rw [ht.1, ht.2.1]

/-- A non-empty initial part of the segments of a cleaned rooted path is joined by `path.Join`
to its concatenation. -/
theorem Join_prefix_abs (key : Str) (h : CleanAbs key) (qs : List Str) (hq : qs ≠ [])
    (hp : qs <+: segList key) : Join qs = qs.flatten := by
  obtain ⟨els, hels, rfl⟩ := (CleanAbs_iff key).1 h
  rw [segList_absPath els hels] at hp
  by_cases h0 : els = []
  · simp only [h0, if_true] at hp
    rw [prefix_singleton qs _ hq hp]
    decide
  · simp only [h0, if_false] at hp
    have hqs : qs = (els.take qs.length).map (fun e => '/' :: e) := by
      rw [List.map_take]
      exact List.prefix_iff_eq_take.1 hp
    have hne : els.take qs.length ≠ [] := by
      intro h1
      rw [h1] at hqs
      exact hq hqs
    have hv : ∀ e ∈ els.take qs.length, validElem e :=
      fun e he => hels e (List.mem_of_mem_take he)
    have hseg := segList_absPath _ hv
    simp only [hne, if_false] at hseg
    rw [hqs, ← hseg, Join_segList_absPath _ hv, segList_flatten]

theorem take_relElems (n m : Nat) (vs : List Str) :
    (relElems n vs).take m = relElems (min m n) (vs.take (m - n)) := by
  simp [relElems, List.take_append_eq_append_take, List.take_replicate]

/-- A non-empty initial part of the segments of a cleaned unrooted path is joined by
`path.Join` to its concatenation. -/
theorem Join_prefix_rel (key : Str) (h : CleanRel key) (qs : List Str) (hq : qs ≠ [])
    (hp : qs <+: segList key) : Join qs = qs.flatten := by
  rcases h with h | ⟨n, vs, hvs, hne, hk⟩
  · subst h
    have : segList ['.'] = [['.']] := by decide
    rw [this] at hp
    rw [prefix_singleton qs _ hq hp]
    decide
  · obtain ⟨e, r, her⟩ := List.exists_cons_of_ne_nil hne
    rw [her] at hk
    subst hk
    rw [segList_relPath n vs hvs e r her] at hp
    have hlen : 0 < qs.length := List.length_pos.mpr hq
    obtain ⟨m, hm⟩ : ∃ m, qs.length = m + 1 := ⟨qs.length - 1, by omega⟩
    have hqs : qs = e :: (r.take m).map (fun x => '/' :: x) := by
      have := List.prefix_iff_eq_take.1 hp
      rw [hm, List.take_succ_cons, ← List.map_take] at this
      exact this
    have hels : relElems (min (m + 1) n) (vs.take (m + 1 - n)) = e :: r.take m := by
      rw [← take_relElems, her, List.take_succ_cons]
    have hv : ∀ x ∈ vs.take (m + 1 - n), validElem x :=
      fun x hx => hvs x (List.mem_of_mem_take hx)
    have hcr : CleanRel (relPath (e :: r.take m)) :=
      Or.inr ⟨_, _, hv, by rw [hels]; simp, by rw [hels]⟩
    have hseg := segList_relPath _ _ hv e (r.take m) hels
    rw [hqs, ← hseg, Join_segList_rel _ hcr, segList_flatten]

/-- A path that `path.Clean` leaves as it is has one of the two cleaned forms. -/
theorem Clean_fixed_form (key : Str) (hk : Clean key = key) : CleanAbs key ∨ CleanRel key := by
  cases key with
  | nil => simp [Clean] at hk
  | cons c t =>
    by_cases hc : c = '/'
    · left
      subst hc
      rw [← hk]
      exact Clean_rooted t
    · right
      rw [← hk]
      exact Clean_unrooted_form c t hc

/-- For a cleaned key, `path.Join` of a non-empty initial part of its segments is that part
of the key. -/
theorem Join_initial (key : Str) (hk : Clean key = key) (qs : List Str) (hq : qs ≠ [])
    (hp : qs <+: segList key) : Join qs = qs.flatten := by
  rcases Clean_fixed_form key hk with h | h
  · exact Join_prefix_abs key h qs hq hp
  · exact Join_prefix_rel key h qs hq hp

theorem flatten_prefix {qs segs : List Str} (hp : qs <+: segs) :
    segs.flatten = qs.flatten ++ (segs.drop qs.length).flatten := by
  obtain ⟨t, rfl⟩ := hp
  simp

theorem TrimPrefix_flatten (key : Str) (qs : List Str) (hp : qs <+: segList key) :
    TrimPrefix key qs.flatten = key.drop qs.flatten.length := by
  have h1 := flatten_prefix hp
  rw [segList_flatten] at h1
  have : TrimPrefix key qs.flatten = ((segList key).drop qs.length).flatten := by
    conv_lhs => rw [h1]
    exact TrimPrefix_append _ _
  rw [this]
  conv_rhs => rw [h1]
  simp

/-! ## `Unmount` and the `Sync` of a backend -/

theorem entries_visited (v : Vfs) : v.entries = v.mounts.visited := rfl

theorem entries_some (v : Vfs) (hv : TableOK v) (k : Str) (x : Option Nat)
    (h : (k, x) ∈ v.entries) : ∃ p, x = some p := by
  obtain ⟨qs, n, h1, h2, h3, _⟩ := (mem_entries_iff v hv k x).1 h
  have hn := descend_AllNodes qs v.mounts n [] hv h1
  rw [AllNodes_iff] at hn
  obtain ⟨p, hp, _⟩ := hn.1.2.1 h2
  exact ⟨p, by rw [← h3, hp]⟩

/-- In a mount table that satisfies the invariant, a walk visits the key `k` with the value
`x` exactly when `x` is the value at the segments of `k`. -/
theorem mem_entries_valueAt (v : Vfs) (hv : TableOK v) (k : Str) (x : Option Nat) :
    (k, x) ∈ v.entries ↔ valueAt v.mounts (segList k) = some x := by
  constructor
  · intro h
    obtain ⟨p, hp⟩ := entries_some v hv k x h
    subst hp
    obtain ⟨_, _, _, n, h1, h2, h3⟩ := entries_node v hv k p h
    exact (valueAt_some _ _ _).2 ⟨n, h1, h2, h3⟩
  · intro h
    have := valueAt_mem_walkList v.mounts (segList k) x [] h
    rw [segList_flatten] at this
    rw [entries_eq]
    simpa using this

/-- Go's `==` on filesystems that can be compared says whether the two are the same. -/
theorem FS_eq_some (a b : FS) (c : Bool) (h : a.eq b = some c) : c = decide (a = b) := by
  unfold FS.eq at h
  split at h
  · split at h
    · simp at h
    · rename_i hst
      simp only [Option.some.injEq] at h
      subst h
      symm
      simp only [decide_eq_false_iff_not]
      intro he
      injection he with h1 _
      exact hst h1
  · simp only [Option.some.injEq] at h
    exact h.symm

/-- Go's `==` panics exactly on two filesystems of one class that cannot be compared. -/
theorem FS_eq_none_iff (a b : FS) :
    a.eq b = none ↔ ∃ s i j, a = FS.uncomparable s i ∧ b = FS.uncomparable s j := by
  unfold FS.eq
  constructor
  · intro h
    split at h
    · rename_i s i t j
      split at h
      · rename_i hst
        subst hst
        exact ⟨s, i, j, rfl, rfl⟩
      · simp at h
    · simp at h
  · rintro ⟨s, i, j, ha, hb⟩
    subst ha hb
    simp

/-- Go's `==` does not panic when one of the two filesystems can be compared. -/
theorem FS_eq_comparable (a b : FS) (h : a.comparable = true ∨ b.comparable = true) :
    a.eq b = some (decide (a = b)) := by
  cases hab : a.eq b with
  | none =>
    obtain ⟨s, i, j, ha, hb⟩ := (FS_eq_none_iff a b).1 hab
    subst ha hb
    simp [FS.comparable] at h
  | some c => rw [FS_eq_some a b c hab]

/-- When Go's `==` holds for a filesystem, comparing with it never panics. -/
theorem FS_eq_true_total (a b c : FS) (h : a.eq b = some true) : c.eq b ≠ none := by
  intro hc
  obtain ⟨s, i, j, _, hb⟩ := (FS_eq_none_iff c b).1 hc
  have := FS_eq_some a b true h
  simp only [true_eq_decide_iff] at this
  subst this hb
  simp [FS.eq] at h

/-- What the first walker of `Unmount` finds: a key that is visited, and the backend of its
mount point. -/
theorem unmountWalker_found (heap : List MountPoint) (P : Str) :
    ∀ (l : List (Str × Option Nat)) (s : Vfs.Scan), s.remove = [] → s.panicked = false →
      (walkFold (Vfs.unmountWalker heap P) l s).1.panicked = false →
      (walkFold (Vfs.unmountWalker heap P) l s).1.remove ≠ [] →
      ∃ p, ((walkFold (Vfs.unmountWalker heap P) l s).1.remove, some p) ∈ l ∧
        (walkFold (Vfs.unmountWalker heap P) l s).1.fsys = some (load heap p).fS := by
  intro l
  induction l with
  | nil => intro s h1 _ _ h4; exact absurd h1 h4
  | cons x rest ih =>
    intro s h1 h2 h3 h4
    obtain ⟨k, val⟩ := x
    rw [walkFold] at h3 h4 ⊢
    cases val with
    | none => simp [Vfs.unmountWalker] at h3
    | some p =>
      simp only [Vfs.unmountWalker] at h3 h4 ⊢
      by_cases hc : P = ['.'] ∨ (load heap p).mountPrefix = P
      · simp only [if_pos hc] at h3 h4 ⊢
        cases hf : s.fsys with
        | none =>
          simp only [hf, if_true] at h3 h4 ⊢
          exact ⟨p, List.mem_cons_self _ _, rfl⟩
        | some f =>
          cases he : (load heap p).fS.eq f with
          | none => simp [hf, he] at h3
          | some c =>
            cases c with
            | true =>
              simp only [hf, he, if_true] at h3 h4 ⊢
              exact ⟨p, List.mem_cons_self _ _, rfl⟩
            | false =>
              simp only [hf, he, Bool.false_eq_true, if_false] at h3 h4 ⊢
              obtain ⟨q, hq1, hq2⟩ := ih s h1 h2 h3 h4
              exact ⟨q, List.mem_cons_of_mem _ hq1, hq2⟩
      · simp only [if_neg hc, Bool.false_eq_true, if_false] at h3 h4 ⊢
        obtain ⟨q, hq1, hq2⟩ := ih s h1 h2 h3 h4
        exact ⟨q, List.mem_cons_of_mem _ hq1, hq2⟩

/-- When the first walker of `Unmount` panics: when `fsys` is given and a mount that the
prefix selects has a backend that Go cannot compare with it. -/
theorem unmountWalker_panicked (heap : List MountPoint) (P : Str) :
    ∀ (l : List (Str × Option Nat)) (s : Vfs.Scan), (∀ x ∈ l, ∃ p, x.2 = some p) →
      s.panicked = false →
      ((walkFold (Vfs.unmountWalker heap P) l s).1.panicked = true ↔
        ∃ f, s.fsys = some f ∧ ∃ x ∈ l, ∃ q, x.2 = some q ∧
          (P = ['.'] ∨ (load heap q).mountPrefix = P) ∧ (load heap q).fS.eq f = none) := by
  intro l
  induction l with
  | nil => intro s _ h2; simp [walkFold, h2]
  | cons x rest ih =>
    intro s h h2
    obtain ⟨k, val⟩ := x
    obtain ⟨p, hp⟩ := h (k, val) (List.mem_cons_self _ _)
    simp only at hp
    subst hp
    have ih1 := ih s (fun x hx => h x (List.mem_cons_of_mem _ hx)) h2
    have hskip : ¬ ((P = ['.'] ∨ (load heap p).mountPrefix = P) ∧
        ∃ f, s.fsys = some f ∧ (load heap p).fS.eq f = none) →
        ((∃ f, s.fsys = some f ∧ ∃ x ∈ (k, some p) :: rest, ∃ q, x.2 = some q ∧
          (P = ['.'] ∨ (load heap q).mountPrefix = P) ∧ (load heap q).fS.eq f = none) ↔
        ∃ f, s.fsys = some f ∧ ∃ x ∈ rest, ∃ q, x.2 = some q ∧
          (P = ['.'] ∨ (load heap q).mountPrefix = P) ∧ (load heap q).fS.eq f = none) := by
      intro hno
      constructor
      · rintro ⟨f, hf, x, hx, q, hq1, hq2, hq3⟩
        rcases List.mem_cons.1 hx with h1 | h1
        · subst h1
          simp only [Option.some.injEq] at hq1
          subst hq1
          exact absurd ⟨hq2, f, hf, hq3⟩ hno
        · exact ⟨f, hf, x, h1, q, hq1, hq2, hq3⟩
      · rintro ⟨f, hf, x, hx, q, hq1, hq2, hq3⟩
        exact ⟨f, hf, x, List.mem_cons_of_mem _ hx, q, hq1, hq2, hq3⟩
    rw [walkFold]
    simp only [Vfs.unmountWalker]
    by_cases hc : P = ['.'] ∨ (load heap p).mountPrefix = P
    · simp only [if_pos hc]
      cases hf : s.fsys with
      | none =>
        simp only [if_true, h2]
        simp
      | some f =>
        simp only []
        cases he : (load heap p).fS.eq f with
        | none =>
          simp only [if_true, true_iff]
          exact ⟨f, rfl, (k, some p), List.mem_cons_self _ _, p, rfl, hc, he⟩
        | some c =>
          cases c with
          | true =>
            simp only [if_true, h2]
            constructor
            · intro h0; simp at h0
            · rintro ⟨g, hg, x, _, q, _, _, hq3⟩
              simp only [Option.some.injEq] at hg
              subst hg
              exact absurd hq3 (FS_eq_true_total _ _ _ he)
          | false =>
            simp only [Bool.false_eq_true, if_false]
            rw [ih1, hf]
            rw [hf] at hskip
            exact (hskip (by
              rintro ⟨_, g, hg, hg2⟩
              simp only [Option.some.injEq] at hg
              subst hg
              rw [he] at hg2
              simp at hg2)).symm
    · simp only [if_neg hc, Bool.false_eq_true, if_false]
      rw [ih1]
      exact (hskip (fun h0 => hc h0.1)).symm

/-- What the second walker of `Unmount` leaves: it panics exactly when a mount is visited whose
backend Go cannot compare with the backend given; otherwise it leaves nil when a mount of the
backend is visited, and the backend when none is. -/
theorem stillMounted_left (heap : List MountPoint) (B : FS) :
    ∀ (l : List (Str × Option Nat)), (∀ x ∈ l, ∃ p, x.2 = some p) →
      ((walkFold (Vfs.stillMountedWalker heap) l (some B, false)).1.2 = true ↔
        ∃ x ∈ l, ∃ q, x.2 = some q ∧ (load heap q).fS.eq B = none) ∧
      ((walkFold (Vfs.stillMountedWalker heap) l (some B, false)).1.2 = false →
        (walkFold (Vfs.stillMountedWalker heap) l (some B, false)).1.1 =
          if ∃ x ∈ l, ∃ q, x.2 = some q ∧ (load heap q).fS = B then none else some B) := by
  intro l
  induction l with
  | nil => intro _; simp [walkFold]
  | cons x rest ih =>
    intro h
    obtain ⟨k, val⟩ := x
    obtain ⟨p, hp⟩ := h (k, val) (List.mem_cons_self _ _)
    simp only at hp
    subst hp
    have ih1 := ih (fun x hx => h x (List.mem_cons_of_mem _ hx))
    rw [walkFold]
    simp only [Vfs.stillMountedWalker]
    cases he : (load heap p).fS.eq B with
    | none =>
      simp only [if_true, true_iff, Bool.true_eq_false, false_implies, and_true]
      exact ⟨(k, some p), List.mem_cons_self _ _, p, rfl, he⟩
    | some c =>
      cases c with
      | true =>
        have hB : (load heap p).fS = B := by
          have := FS_eq_some _ _ _ he
          simpa using this
        simp only [if_true, Bool.false_eq_true, false_iff, forall_true_left]
        constructor
        · rintro ⟨x, _, q, _, hq⟩
          exact absurd hq (FS_eq_true_total _ _ _ he)
        · rw [if_pos ⟨(k, some p), List.mem_cons_self _ _, p, rfl, hB⟩]
      | false =>
        have hB : (load heap p).fS ≠ B := by
          have := FS_eq_some _ _ _ he
          simpa using this
        simp only [Bool.false_eq_true, if_false]
        have hiff1 : (∃ x ∈ (k, some p) :: rest, ∃ q, x.2 = some q ∧
            (load heap q).fS.eq B = none) ↔
            (∃ x ∈ rest, ∃ q, x.2 = some q ∧ (load heap q).fS.eq B = none) := by
          constructor
          · rintro ⟨x, hx, q, hq1, hq2⟩
            rcases List.mem_cons.1 hx with h1 | h1
            · subst h1
              simp only [Option.some.injEq] at hq1
              subst hq1
              rw [he] at hq2
              simp at hq2
            · exact ⟨x, h1, q, hq1, hq2⟩
          · rintro ⟨x, hx, q, hq1, hq2⟩
            exact ⟨x, List.mem_cons_of_mem _ hx, q, hq1, hq2⟩
        have hiff2 : (∃ x ∈ (k, some p) :: rest, ∃ q, x.2 = some q ∧ (load heap q).fS = B) ↔
            (∃ x ∈ rest, ∃ q, x.2 = some q ∧ (load heap q).fS = B) := by
          constructor
          · rintro ⟨x, hx, q, hq1, hq2⟩
            rcases List.mem_cons.1 hx with h1 | h1
            · subst h1
              simp only [Option.some.injEq] at hq1
              subst hq1
              exact absurd hq2 hB
            · exact ⟨x, h1, q, hq1, hq2⟩
          · rintro ⟨x, hx, q, hq1, hq2⟩
            exact ⟨x, List.mem_cons_of_mem _ hx, q, hq1, hq2⟩
        rw [hiff1]
        simp only [hiff2]
        exact ih1

/-- The keys a walk visits after the `Delete` of a key that is visited. -/
theorem entries_Delete (v : Vfs) (hv : TableOK v) (K : Str) (p : Nat)
    (hK : (K, some p) ∈ v.entries) (k : Str) (x : Option Nat) :
    (k, x) ∈ ({ v with mounts := (v.mounts.Delete PathSegmenter2 K).1 } : Vfs).entries ↔
      ((k, x) ∈ v.entries ∧ k ≠ K) := by
  have hv1 : TableOK ({ v with mounts := (v.mounts.Delete PathSegmenter2 K).1 } : Vfs) :=
    Delete_NodeOK v.heap v.mounts K hv
  rw [mem_entries_valueAt _ hv1, mem_entries_valueAt v hv]
  have hval := (mem_entries_valueAt v hv K (some p)).1 hK
  simp only
  rw [PathSegmenter2_eq, Delete_eq_deleteSegs]
  cases hd : deleteSegs (segList K) v.mounts with
  | none =>
    rw [deleteSegs_none _ _ hd] at hval
    simp at hval
  | some r =>
    obtain ⟨t2, u⟩ := r
    simp only
    rw [valueAt_deleteSegs (segList K) v.mounts t2 u [] (NodeOK_KeysNodup v.heap _ [] hv) hd]
    by_cases hk : k = K
    · subst hk; simp
    · have : ¬ segList k = segList K := fun h => hk (segList_inj h)
      simp [hk, this]

/-- The recorded `Unmount` returns what `Unmount` returns. -/
theorem UnmountSync_Unmount (v : Vfs) (hasSync : FS → Bool) (syncResult : FS → Option Errno)
    (pfx : Str) (fsys : Option FS) :
    (v.UnmountSync hasSync syncResult pfx fsys).map (fun r => (r.1, r.2.1)) =
      v.Unmount (fun f => if hasSync f then some (syncResult f) else none) pfx fsys := by
  unfold Vfs.UnmountSync Vfs.Unmount
  split
  · rfl
  · simp only
    split
    · rfl
    · split
      · rfl
      · split
        · rfl
        · split
          · rfl
          · split
            · rfl
            · split
              · rfl
              · rename_i f _
                cases hs : hasSync f with
                | false => simp
                | true =>
                  cases hr : syncResult f <;> simp [hr]

/-- What `Unmount` does after it has removed a mount. -/
theorem UnmountSync_removed (v : Vfs) (hv : TableOK v) (hasSync : FS → Bool)
    (syncResult : FS → Option Errno) (pfx : Str) (fsys : Option FS) (v1 : Vfs)
    (err : Option PathError) (calls : List BackendCall)
    (h : v.UnmountSync hasSync syncResult pfx fsys = some (v1, err, calls))
    (hrem : v1.entries ≠ v.entries) :
    ∃ K p, (K, some p) ∈ v.entries ∧
      (∀ k x, (k, x) ∈ v1.entries ↔ ((k, x) ∈ v.entries ∧ k ≠ K)) ∧
      v1.heap = v.heap ∧
      (calls = [BackendCall.Sync (load v.heap p).fS] ∨ calls = []) ∧
      (calls = [BackendCall.Sync (load v.heap p).fS] ↔
        (hasSync (load v.heap p).fS = true ∧
          ∀ k q, (k, some q) ∈ v1.entries → (load v1.heap q).fS ≠ (load v.heap p).fS)) ∧
      ((∃ k q, (k, some q) ∈ v1.entries ∧ (load v1.heap q).fS = (load v.heap p).fS) →
        calls = [] ∧ err = none) ∧
      (calls = [BackendCall.Sync (load v.heap p).fS] →
        err = (syncResult (load v.heap p).fS).map (fun e => ⟨"unmount", Clean pfx, e⟩)) ∧
      (calls = [] → err = none) := by
  unfold Vfs.UnmountSync at h
  split at h
  · simp only [Option.some.injEq, Prod.mk.injEq] at h
    exact absurd (by rw [← h.1]) hrem
  · simp only at h
    split at h
    · simp at h
    · rename_i hnil
      split at h
      · simp only [Option.some.injEq, Prod.mk.injEq] at h
        exact absurd (by rw [← h.1]) hrem
      · rename_i hlen
        rw [Walk_walkFold, ← entries_visited] at hnil hlen h
        obtain ⟨p, hp1, hp2⟩ := unmountWalker_found v.heap (Clean pfx) v.entries
          ⟨[], fsys, false⟩ rfl rfl (by simpa using hnil)
          (by intro h0; apply hlen; rw [h0]; rfl)
        generalize (walkFold (Vfs.unmountWalker v.heap (Clean pfx)) v.entries
          ⟨[], fsys, false⟩).1 = found at hp1 hp2 h hnil hlen
        rw [Get_entry v hv found.remove p hp1] at h
        simp only at h
        split at h
        · simp only [Option.some.injEq, Prod.mk.injEq] at h
          exact absurd (by rw [← h.1]) hrem
        · have hent := entries_Delete v hv found.remove p hp1
          have hv1 : TableOK ({ v with mounts := (v.mounts.Delete PathSegmenter2 found.remove).1 } : Vfs) :=
            Delete_NodeOK v.heap v.mounts found.remove hv
          have hvis : (Delete PathSegmenter2 v.mounts found.remove).1.visited =
              ({ v with mounts := (v.mounts.Delete PathSegmenter2 found.remove).1 } : Vfs).entries :=
            rfl
          rw [Walk_walkFold, hvis, hp2] at h
          have hsm := (stillMounted_left v.heap (load v.heap p).fS _
              (fun x hx => entries_some _ hv1 x.1 x.2 hx)).2
          generalize (walkFold (Vfs.stillMountedWalker v.heap)
            ({ v with mounts := (v.mounts.Delete PathSegmenter2 found.remove).1 } : Vfs).entries
            (some (load v.heap p).fS, false)).1 = left at h hsm
          split at h
          · simp at h
          · rename_i hl2
            rw [hsm (by simpa using hl2)] at h
            by_cases hex : ∃ x ∈ ({ v with mounts := (v.mounts.Delete PathSegmenter2 found.remove).1 } : Vfs).entries,
                ∃ q, x.2 = some q ∧ (load v.heap q).fS = (load v.heap p).fS
            · rw [if_pos hex] at h
              simp only [Option.some.injEq, Prod.mk.injEq] at h
              obtain ⟨h1, h2, h3⟩ := h
              subst h1 h2 h3
              refine ⟨found.remove, p, hp1, hent, rfl, Or.inr rfl, ?_, fun _ => ⟨rfl, rfl⟩,
                fun hc => by simp at hc, fun _ => rfl⟩
              constructor
              · intro hc; simp at hc
              · rintro ⟨_, hall⟩
                obtain ⟨x, hx, q, hq1, hq2⟩ := hex
                exact absurd hq2 (hall x.1 q (by rw [← hq1]; exact hx))
            · rw [if_neg hex] at h
              simp only at h
              have hall : ∀ k q, (k, some q) ∈
                  ({ v with mounts := (v.mounts.Delete PathSegmenter2 found.remove).1 } : Vfs).entries →
                  (load v.heap q).fS ≠ (load v.heap p).fS :=
                fun k q hkq hq => hex ⟨(k, some q), hkq, q, rfl, hq⟩
              have hno : ¬ ∃ k q, (k, some q) ∈
                  ({ v with mounts := (v.mounts.Delete PathSegmenter2 found.remove).1 } : Vfs).entries ∧
                  (load v.heap q).fS = (load v.heap p).fS :=
                fun ⟨k, q, hkq, hq⟩ => hall k q hkq hq
              cases hs : hasSync (load v.heap p).fS with
              | false =>
                rw [hs] at h
                simp only [Bool.false_eq_true, if_false, Option.some.injEq, Prod.mk.injEq] at h
                obtain ⟨h1, h2, h3⟩ := h
                subst h1 h2 h3
                refine ⟨found.remove, p, hp1, hent, rfl, Or.inr rfl, ?_,
                  fun hc => absurd hc hno, fun hc => by simp at hc, fun _ => rfl⟩
                constructor
                · intro hc; simp at hc
                · rintro ⟨hc, _⟩; simp [hs] at hc
              | true =>
                rw [hs] at h
                simp only [if_true] at h
                cases hr : syncResult (load v.heap p).fS with
                | none =>
                  rw [hr] at h
                  simp only [Option.some.injEq, Prod.mk.injEq] at h
                  obtain ⟨h1, h2, h3⟩ := h
                  subst h1 h2 h3
                  exact ⟨found.remove, p, hp1, hent, rfl, Or.inl rfl,
                    ⟨fun _ => ⟨hs, hall⟩, fun _ => rfl⟩,
                    fun hc => absurd hc hno, fun _ => by rw [hr]; rfl, fun hc => by simp at hc⟩
                | some e =>
                  rw [hr] at h
                  simp only [Option.some.injEq, Prod.mk.injEq] at h
                  obtain ⟨h1, h2, h3⟩ := h
                  subst h1 h2 h3
                  exact ⟨found.remove, p, hp1, hent, rfl, Or.inl rfl,
                    ⟨fun _ => ⟨hs, hall⟩, fun _ => rfl⟩,
                    fun hc => absurd hc hno, fun _ => by rw [hr]; rfl, fun hc => by simp at hc⟩

/-- The first walk of `Unmount` as a pass over the entries. -/
theorem unmountScan_walkFold (v : Vfs) (pfx : Str) (fsys : Option FS) :
    v.unmountScan pfx fsys =
      (walkFold (Vfs.unmountWalker v.heap (Clean pfx)) v.entries ⟨[], fsys, false⟩).1 := by
  unfold Vfs.unmountScan
  rw [Walk_walkFold, ← entries_visited]

/-- `Unmount` after its guard, in terms of its first walk. -/
theorem UnmountSync_scan (v : Vfs) (hasSync : FS → Bool) (syncResult : FS → Option Errno)
    (pfx : Str) (fsys : Option FS) (hguard : ¬ (pfx = [] ∧ fsys = none)) :
    v.UnmountSync hasSync syncResult pfx fsys =
      if (v.unmountScan pfx fsys).panicked then none
      else if (v.unmountScan pfx fsys).remove.length = 0 then
        some (v, some ⟨"unmount", Clean pfx, Errno.ENOENT⟩, [])
      else
        match (v.mounts.Get PathSegmenter2 (v.unmountScan pfx fsys).remove).1 with
        | none => none
        | some mp =>
          if (load v.heap mp).openCount ≠ 0 then
            some (v, some ⟨"unmount", Clean pfx, Errno.EBUSY⟩, [])
          else
            if ((v.mounts.Delete PathSegmenter2 (v.unmountScan pfx fsys).remove).1.Walk
                (Vfs.stillMountedWalker v.heap) ((v.unmountScan pfx fsys).fsys, false)).1.2 then none
            else
              match ((v.mounts.Delete PathSegmenter2 (v.unmountScan pfx fsys).remove).1.Walk
                (Vfs.stillMountedWalker v.heap) ((v.unmountScan pfx fsys).fsys, false)).1.1 with
              | none =>
                some ({ v with mounts :=
                  (v.mounts.Delete PathSegmenter2 (v.unmountScan pfx fsys).remove).1 }, none, [])
              | some f =>
                if hasSync f then
                  match syncResult f with
                  | some e =>
                    some ({ v with mounts :=
                      (v.mounts.Delete PathSegmenter2 (v.unmountScan pfx fsys).remove).1 },
                      some ⟨"unmount", Clean pfx, e⟩, [BackendCall.Sync f])
                  | none =>
                    some ({ v with mounts :=
                      (v.mounts.Delete PathSegmenter2 (v.unmountScan pfx fsys).remove).1 },
                      none, [BackendCall.Sync f])
                else
                  some ({ v with mounts :=
                    (v.mounts.Delete PathSegmenter2 (v.unmountScan pfx fsys).remove).1 }, none, []) := by
  unfold Vfs.UnmountSync Vfs.unmountScan
  rw [if_neg hguard]

/-- When `Unmount` has removed the mount at `K`: it panics exactly when a mount that is left has
a backend that Go cannot compare with the backend of the mount removed, and otherwise it
returns, with the mount removed. -/
theorem UnmountSync_after_removal (v : Vfs) (hv : TableOK v) (hasSync : FS → Bool)
    (syncResult : FS → Option Errno) (pfx : Str) (fsys : Option FS) (K : Str) (p : Nat)
    (hguard : ¬ (pfx = [] ∧ fsys = none))
    (hK : (K, some p) ∈ v.entries)
    (hsel : (v.unmountScan pfx fsys).remove = K) (hK0 : K ≠ [])
    (hnp : (v.unmountScan pfx fsys).panicked = false)
    (hcount : (load v.heap p).openCount = 0) :
    (v.UnmountSync hasSync syncResult pfx fsys = none ↔
      ∃ k q, (k, some q) ∈ v.entries ∧ k ≠ K ∧
        (load v.heap q).fS.eq (load v.heap p).fS = none) ∧
    (v.UnmountSync hasSync syncResult pfx fsys ≠ none →
      ∃ v1 err calls, v.UnmountSync hasSync syncResult pfx fsys = some (v1, err, calls) ∧
        v1.entries ≠ v.entries) := by
  have hfs : (v.unmountScan pfx fsys).fsys = some (load v.heap p).fS := by
    have hw := unmountScan_walkFold v pfx fsys
    obtain ⟨p1, hp1, hp2⟩ := unmountWalker_found v.heap (Clean pfx) v.entries
      ⟨[], fsys, false⟩ rfl rfl (by rw [← hw]; exact hnp) (by rw [← hw, hsel]; exact hK0)
    rw [← hw, hsel] at hp1
    rw [← hw] at hp2
    have h1 := Get_entry v hv K p hK
    have h2 := Get_entry v hv K p1 hp1
    rw [h1] at h2
    simp only [Prod.mk.injEq, Option.some.injEq, and_true] at h2
    rw [hp2, h2]
  have hent := entries_Delete v hv K p hK
  have hv1 : TableOK ({ v with mounts := (v.mounts.Delete PathSegmenter2 K).1 } : Vfs) :=
    Delete_NodeOK v.heap v.mounts K hv
  have hvis : (Delete PathSegmenter2 v.mounts K).1.visited =
      ({ v with mounts := (v.mounts.Delete PathSegmenter2 K).1 } : Vfs).entries := rfl
  have hne : ({ v with mounts := (v.mounts.Delete PathSegmenter2 K).1 } : Vfs).entries ≠
      v.entries := by
    intro he
    have := (hent K (some p)).1 (by rw [he]; exact hK)
    exact this.2 rfl
  have hlen : ¬ K.length = 0 := fun h0 => hK0 (List.length_eq_zero.1 h0)
  rw [UnmountSync_scan v hasSync syncResult pfx fsys hguard, hfs, hsel, hnp,
    if_neg (by simp), if_neg hlen, Get_entry v hv K p hK]
  simp only
  rw [if_neg (by simpa using hcount), Walk_walkFold, hvis]
  have hsm := stillMounted_left v.heap (load v.heap p).fS _
    (fun x hx => entries_some _ hv1 x.1 x.2 hx)
  generalize (walkFold (Vfs.stillMountedWalker v.heap)
    ({ v with mounts := (v.mounts.Delete PathSegmenter2 K).1 } : Vfs).entries
    (some (load v.heap p).fS, false)).1 = left at hsm
  have hiff : (∃ x ∈ ({ v with mounts := (v.mounts.Delete PathSegmenter2 K).1 } : Vfs).entries,
      ∃ q, x.2 = some q ∧ (load v.heap q).fS.eq (load v.heap p).fS = none) ↔
      ∃ k q, (k, some q) ∈ v.entries ∧ k ≠ K ∧
        (load v.heap q).fS.eq (load v.heap p).fS = none := by
    constructor
    · rintro ⟨x, hx, q, hq1, hq2⟩
      obtain ⟨k, y⟩ := x
      simp only at hq1
      subst hq1
      have := (hent k (some q)).1 hx
      exact ⟨k, q, this.1, this.2, hq2⟩
    · rintro ⟨k, q, h1, h2, h3⟩
      exact ⟨(k, some q), (hent k (some q)).2 ⟨h1, h2⟩, q, rfl, h3⟩
  by_cases hl : left.2 = true
  · rw [if_pos hl]
    exact ⟨⟨fun _ => hiff.1 (hsm.1.1 hl), fun _ => rfl⟩, fun h0 => absurd rfl h0⟩
  · rw [if_neg hl]
    cases hX : left.1 with
    | none =>
      exact ⟨⟨fun h0 => by simp at h0, fun h0 => absurd (hsm.1.2 (hiff.2 h0)) hl⟩,
        fun _ => ⟨_, _, _, rfl, hne⟩⟩
    | some f =>
      simp only
      cases hs : hasSync f with
      | false =>
        exact ⟨⟨fun h0 => by simp at h0, fun h0 => absurd (hsm.1.2 (hiff.2 h0)) hl⟩,
          fun _ => ⟨_, _, _, rfl, hne⟩⟩
      | true =>
        simp only [if_true]
        cases hr : syncResult f with
        | none =>
          exact ⟨⟨fun h0 => by simp at h0, fun h0 => absurd (hsm.1.2 (hiff.2 h0)) hl⟩,
            fun _ => ⟨_, _, _, rfl, hne⟩⟩
        | some e =>
          exact ⟨⟨fun h0 => by simp at h0, fun h0 => absurd (hsm.1.2 (hiff.2 h0)) hl⟩,
            fun _ => ⟨_, _, _, rfl, hne⟩⟩

/-- When the first walk of `Unmount` panics, and that `Unmount` panics then. -/
theorem UnmountSync_scan_panics (v : Vfs) (hv : TableOK v) (hasSync : FS → Bool)
    (syncResult : FS → Option Errno) (pfx : Str) (fsys : Option FS) :
    ((v.unmountScan pfx fsys).panicked = true ↔
      ∃ f, fsys = some f ∧ ∃ k q, (k, some q) ∈ v.entries ∧
        (Clean pfx = ['.'] ∨ (load v.heap q).mountPrefix = Clean pfx) ∧
        (load v.heap q).fS.eq f = none) ∧
    ((v.unmountScan pfx fsys).panicked = true →
      v.UnmountSync hasSync syncResult pfx fsys = none) := by
  have hp := unmountWalker_panicked v.heap (Clean pfx) v.entries ⟨[], fsys, false⟩
    (fun x hx => entries_some v hv x.1 x.2 hx) rfl
  rw [← unmountScan_walkFold] at hp
  have hiff : (v.unmountScan pfx fsys).panicked = true ↔
      ∃ f, fsys = some f ∧ ∃ k q, (k, some q) ∈ v.entries ∧
        (Clean pfx = ['.'] ∨ (load v.heap q).mountPrefix = Clean pfx) ∧
        (load v.heap q).fS.eq f = none := by
    rw [hp]
    constructor
    · rintro ⟨f, hf, x, hx, q, hq1, hq2, hq3⟩
      obtain ⟨k, y⟩ := x
      simp only at hq1
      subst hq1
      exact ⟨f, hf, k, q, hx, hq2, hq3⟩
    · rintro ⟨f, hf, k, q, hx, hq2, hq3⟩
      exact ⟨f, hf, (k, some q), hx, q, rfl, hq2, hq3⟩
  refine ⟨hiff, fun h => ?_⟩
  obtain ⟨f, hf, _⟩ := hiff.1 h
  rw [UnmountSync_scan v hasSync syncResult pfx fsys (by rw [hf]; simp), h]
  rfl

/-- With every mounted backend one that Go can compare, `Unmount` returns. -/
theorem UnmountSync_comparable (v : Vfs) (hv : TableOK v) (hasSync : FS → Bool)
    (syncResult : FS → Option Errno) (pfx : Str) (fsys : Option FS)
    (hcomp : ∀ k q, (k, some q) ∈ v.entries → (load v.heap q).fS.comparable = true) :
    ∃ r, v.UnmountSync hasSync syncResult pfx fsys = some r := by
  by_cases hguard : pfx = [] ∧ fsys = none
  · unfold Vfs.UnmountSync
    rw [if_pos hguard]
    exact ⟨_, rfl⟩
  · have hnp : (v.unmountScan pfx fsys).panicked = false := by
      cases hc : (v.unmountScan pfx fsys).panicked with
      | false => rfl
      | true =>
        obtain ⟨f, _, k, q, hx, _, hq⟩ :=
          (UnmountSync_scan_panics v hv hasSync syncResult pfx fsys).1.1 hc
        rw [FS_eq_comparable _ _ (Or.inl (hcomp k q hx))] at hq
        simp at hq
    by_cases hlen : (v.unmountScan pfx fsys).remove.length = 0
    · rw [UnmountSync_scan v hasSync syncResult pfx fsys hguard, hnp, if_neg (by simp),
        if_pos hlen]
      exact ⟨_, rfl⟩
    · have hK0 : (v.unmountScan pfx fsys).remove ≠ [] := fun h0 => hlen (by rw [h0]; rfl)
      have hw := unmountScan_walkFold v pfx fsys
      obtain ⟨p, hp1, _⟩ := unmountWalker_found v.heap (Clean pfx) v.entries
        ⟨[], fsys, false⟩ rfl rfl (by rw [← hw]; exact hnp) (by rw [← hw]; exact hK0)
      rw [← hw] at hp1
      by_cases hcount : (load v.heap p).openCount = 0
      · have h := UnmountSync_after_removal v hv hasSync syncResult pfx fsys _ p hguard hp1 rfl
          hK0 hnp hcount
        have hne : v.UnmountSync hasSync syncResult pfx fsys ≠ none := by
          intro h0
          obtain ⟨k, q, hx, _, hq⟩ := h.1.1 h0
          rw [FS_eq_comparable _ _ (Or.inl (hcomp k q hx))] at hq
          simp at hq
        obtain ⟨v1, err, calls, hr, _⟩ := h.2 hne
        exact ⟨_, hr⟩
      · rw [UnmountSync_scan v hasSync syncResult pfx fsys hguard, hnp, if_neg (by simp),
          if_neg hlen, Get_entry v hv _ p hp1]
        simp only
        rw [if_pos hcount]
        exact ⟨_, rfl⟩

/-- C11 (counterexample): with one filesystem that Go cannot compare mounted at `/p` and at
`/q`, `Unmount("/p", nil)` selects the mount at `/p`, whose open count is 0, and a mount of the
same filesystem is left at `/q`; the claim has `Unmount` return nil, but the second walk
compares the two with `==` and the call panics: it returns nothing. The same happens when the
mount left is of another filesystem of that class. -/
theorem Unmount_panics_on_uncomparable_backend :
    (World.init.run uncomparableOps).vfs.entries =
      [("/p".toList, some 0), ("/q".toList, some 1)] ∧
    (World.init.run uncomparableOps).vfs.heap =
      [⟨"/p".toList, FS.uncomparable 0 0, 0⟩, ⟨"/q".toList, FS.uncomparable 0 0, 0⟩] ∧
    ((World.init.run uncomparableOps).vfs.unmountScan "/p".toList none).remove = "/p".toList ∧
    ((World.init.run uncomparableOps).vfs.unmountScan "/p".toList none).panicked = false ∧
    ((World.init.run uncomparableOps).vfs.UnmountSync allSync (fun _ => none) "/p".toList
      none).map (fun r => (r.1.entries, r.2)) = none ∧
    ((World.init.run uncomparableOps).vfs.Unmount noSync "/p".toList none).map
      (fun r => (r.1.entries, r.2)) = none ∧
    ((uncomparableV.Mount "/q".toList (some (FS.uncomparable 0 1))).1.UnmountSync allSync
      (fun _ => none) "/p".toList none).map (fun r => (r.1.entries, r.2)) = none :=
  ⟨by decide, by decide, by decide, by decide, by decide, by decide, by decide⟩

/-- C11 (amended): in every state `v` reached from `New()`: (1) when `Unmount` returns after it
has removed a mount (a walk no longer visits what it visited), the mount removed is one at a
key `K` with a mount point `p` of a backend `B`; the other mounts are as before; `Sync` is
called on `B`, and on nothing else, exactly when `B` has a `Sync` method and no mount left in
the table is a mount of `B`; when a mount of `B` is left no call is made and `Unmount` returns
nil; when `Sync` is called `Unmount` returns nil if `Sync` does and otherwise a `PathError`
that holds the error of `Sync`. (2) When the first walk of `Unmount` selects the mount at `K`,
of the mount point `p` with no open file, `Unmount` panics exactly when a mount left in the
table has a backend that Go cannot compare with the backend of `p`, and otherwise it returns
with the mount removed, so that (1) applies. (3) The first walk panics exactly when a backend
is given and a mount that the prefix selects has a backend that Go cannot compare with it, and
`Unmount` panics then. (4) When Go can compare the backend of every mount, `Unmount`
returns. -/
theorem Unmount_sync_iff_no_mount_left (ops : List Op) (v : Vfs)
    (hv : (World.init.run ops).vfs = v) (hasSync : FS → Bool)
    (syncResult : FS → Option Errno) (pfx : Str) (fsys : Option FS) :
    (∀ (v1 : Vfs) (err : Option PathError) (calls : List BackendCall),
      v.UnmountSync hasSync syncResult pfx fsys = some (v1, err, calls) →
      v1.entries ≠ v.entries →
      ∃ K p, (K, some p) ∈ v.entries ∧
        (∀ k x, (k, x) ∈ v1.entries ↔ ((k, x) ∈ v.entries ∧ k ≠ K)) ∧
        v1.heap = v.heap ∧
        (calls = [BackendCall.Sync (load v.heap p).fS] ∨ calls = []) ∧
        (calls = [BackendCall.Sync (load v.heap p).fS] ↔
          (hasSync (load v.heap p).fS = true ∧
            ∀ k q, (k, some q) ∈ v1.entries → (load v1.heap q).fS ≠ (load v.heap p).fS)) ∧
        ((∃ k q, (k, some q) ∈ v1.entries ∧ (load v1.heap q).fS = (load v.heap p).fS) →
          calls = [] ∧ err = none) ∧
        (calls = [BackendCall.Sync (load v.heap p).fS] →
          err = (syncResult (load v.heap p).fS).map (fun e => ⟨"unmount", Clean pfx, e⟩)) ∧
        (calls = [] → err = none)) ∧
    (∀ (K : Str) (p : Nat), ¬ (pfx = [] ∧ fsys = none) → (K, some p) ∈ v.entries →
      (v.unmountScan pfx fsys).remove = K → K ≠ [] →
      (v.unmountScan pfx fsys).panicked = false → (load v.heap p).openCount = 0 →
      (v.UnmountSync hasSync syncResult pfx fsys = none ↔
        ∃ k q, (k, some q) ∈ v.entries ∧ k ≠ K ∧
          (load v.heap q).fS.eq (load v.heap p).fS = none) ∧
      (v.UnmountSync hasSync syncResult pfx fsys ≠ none →
        ∃ v1 err calls, v.UnmountSync hasSync syncResult pfx fsys = some (v1, err, calls) ∧
          v1.entries ≠ v.entries)) ∧
    (((v.unmountScan pfx fsys).panicked = true ↔
      ∃ f, fsys = some f ∧ ∃ k q, (k, some q) ∈ v.entries ∧
        (Clean pfx = ['.'] ∨ (load v.heap q).mountPrefix = Clean pfx) ∧
        (load v.heap q).fS.eq f = none) ∧
      ((v.unmountScan pfx fsys).panicked = true →
        v.UnmountSync hasSync syncResult pfx fsys = none)) ∧
    ((∀ k q, (k, some q) ∈ v.entries → (load v.heap q).fS.comparable = true) →
      ∃ r, v.UnmountSync hasSync syncResult pfx fsys = some r) ∧
    (∀ a b : FS, a.eq b = none ↔ ∃ s i j, a = FS.uncomparable s i ∧ b = FS.uncomparable s j) := by
  have ht : TableOK v := by rw [← hv]; exact TableOK_run ops
  exact ⟨fun v1 err calls h hrem =>
      UnmountSync_removed v ht hasSync syncResult pfx fsys v1 err calls h hrem,
    fun K p hguard hK hsel hK0 hnp hcount =>
      UnmountSync_after_removal v ht hasSync syncResult pfx fsys K p hguard hK hsel hK0 hnp
        hcount,
    UnmountSync_scan_panics v ht hasSync syncResult pfx fsys,
    UnmountSync_comparable v ht hasSync syncResult pfx fsys,
    FS_eq_none_iff⟩

theorem Unmount_sync_iff_no_mount_left_witness :
    (World.init.run twoPrefixOps).vfs.entries = [("/a".toList, some 0), ("/b".toList, some 1)] ∧
    twoPrefixV1.entries = [("/b".toList, some 1)] ∧
    (∃ K p, (K, some p) ∈ (World.init.run twoPrefixOps).vfs.entries ∧
      (∀ k x, (k, x) ∈ twoPrefixV1.entries ↔
        ((k, x) ∈ (World.init.run twoPrefixOps).vfs.entries ∧ k ≠ K)) ∧
      twoPrefixV1.heap = (World.init.run twoPrefixOps).vfs.heap ∧
      (([] : List BackendCall) = [BackendCall.Sync (load (World.init.run twoPrefixOps).vfs.heap p).fS] ∨
        ([] : List BackendCall) = []) ∧
      (([] : List BackendCall) = [BackendCall.Sync (load (World.init.run twoPrefixOps).vfs.heap p).fS] ↔
        (allSync (load (World.init.run twoPrefixOps).vfs.heap p).fS = true ∧
          ∀ k q, (k, some q) ∈ twoPrefixV1.entries →
            (load twoPrefixV1.heap q).fS ≠ (load (World.init.run twoPrefixOps).vfs.heap p).fS)) ∧
      ((∃ k q, (k, some q) ∈ twoPrefixV1.entries ∧
          (load twoPrefixV1.heap q).fS = (load (World.init.run twoPrefixOps).vfs.heap p).fS) →
        ([] : List BackendCall) = [] ∧ (none : Option PathError) = none) ∧
      (([] : List BackendCall) = [BackendCall.Sync (load (World.init.run twoPrefixOps).vfs.heap p).fS] →
        (none : Option PathError) = (syncFails (load (World.init.run twoPrefixOps).vfs.heap p).fS).map
          (fun e => ⟨"unmount", Clean "/a".toList, e⟩)) ∧
      (([] : List BackendCall) = [] → (none : Option PathError) = none)) ∧
    (twoPrefixV1.UnmountSync allSync syncFails "/b".toList none).map
        (fun r => (r.1.entries, r.2)) =
      some ([], some ⟨"unmount", "/b".toList, Errno.backendErr 5⟩,
        [BackendCall.Sync (FS.backend 1)]) ∧
    ((World.init.run uncomparableOps).vfs.UnmountSync allSync syncFails "/p".toList none = none ↔
      ∃ k q, (k, some q) ∈ (World.init.run uncomparableOps).vfs.entries ∧ k ≠ "/p".toList ∧
        (load (World.init.run uncomparableOps).vfs.heap q).fS.eq
          (load (World.init.run uncomparableOps).vfs.heap 0).fS = none) :=
  ⟨by decide, by decide,
    (Unmount_sync_iff_no_mount_left twoPrefixOps _ rfl allSync syncFails "/a".toList none).1
      twoPrefixV1 none [] rfl (by decide),
    by decide,
    ((Unmount_sync_iff_no_mount_left uncomparableOps _ rfl allSync syncFails "/p".toList
      none).2.1 "/p".toList 0 (by decide) (by decide) (by decide) (by decide) (by decide)
      (by decide)).1⟩

/-! ## Routing: `Open`, `Create`, `Rename` and the errors of the router -/

/-- C12 (code evaluated at the failing input): with one mount, at `/c`, whose backend can open
`1.txt` only, `Open("/c/2.txt")` and `OpenFile("/c/2.txt")` resolve to the mount and return
the error of the backend and no handle, yet the open count of the mount goes from 0 to 1, as
it does when `Open("/c/1.txt")` returns a handle; `Create` leaves the count at 0. -/
theorem Open_error_keeps_the_increment :
    oneMountV.findMountPoint "/c/2.txt".toList = (some 0, some (FS.backend 1), "2.txt".toList) ∧
    (load oneMountV.heap 0).openCount = 0 ∧
    (oneMountV.Open onlyOneTxt "/c/2.txt".toList).2 = Except.error Errno.ENOENT ∧
    (load (oneMountV.Open onlyOneTxt "/c/2.txt".toList).1.heap 0).openCount = 1 ∧
    (oneMountV.OpenFile onlyOneTxt "/c/2.txt".toList).2 = Except.error Errno.ENOENT ∧
    (load (oneMountV.OpenFile onlyOneTxt "/c/2.txt".toList).1.heap 0).openCount = 1 ∧
    (oneMountV.Open onlyOneTxt "/c/1.txt".toList).2 = Except.ok ⟨7, some 0⟩ ∧
    (load (oneMountV.Open onlyOneTxt "/c/1.txt".toList).1.heap 0).openCount = 1 ∧
    (oneMountV.Create onlyOneTxt "/c/1.txt".toList).2 = Except.ok 7 ∧
    (load (oneMountV.Create onlyOneTxt "/c/1.txt".toList).1.heap 0).openCount = 0 :=
  ⟨by decide, by decide, rfl, by decide, rfl, by decide, rfl, by decide, rfl, by decide⟩

/-- C13 (counterexample): with one mount, at `/p`, of a filesystem that Go cannot compare,
`/p/x` and `/p/y` resolve to that one backend, and the claim has `Rename` forward the call to
it; but `oldfs == newfs` panics: `Rename` returns nothing and makes no call. -/
theorem Rename_panics_on_uncomparable_backend :
    uncomparableV.findMountPoint "/p/x".toList =
      (some 0, some (FS.uncomparable 0 0), "x".toList) ∧
    uncomparableV.findMountPoint "/p/y".toList =
      (some 0, some (FS.uncomparable 0 0), "y".toList) ∧
    uncomparableV.Rename renameFails "/p/x".toList "/p/y".toList = none ∧
    uncomparableV.Rename (fun _ _ _ => none) "/p/x".toList "/p/y".toList = none := by
  decide

/-- C13 (amended): whenever both names resolve, to the backends `A` and `B` with the remainders
`ro` and `rn`: if `A` and `B` differ and Go can compare them, `Rename` returns `ENOTSUP` and
calls no backend; if they are the same and Go can compare it, `Rename` makes one call,
`A.Rename(ro, rn)`, and returns what the call returns; if Go cannot compare them, which is when
both are of one class that is not comparable, and so whenever they are the same filesystem of
such a class, `Rename` panics. -/
theorem Rename_forwards_or_ENOTSUP (v : Vfs) (backendRename : FS → Str → Str → Option Errno)
    (oldname newname : Str) (mo mn : Option Nat) (A B : FS) (ro rn : Str)
    (ho : v.findMountPoint oldname = (mo, some A, ro))
    (hn : v.findMountPoint newname = (mn, some B, rn)) :
    (A ≠ B → A.eq B ≠ none →
      v.Rename backendRename oldname newname = some (some (GoError.errno Errno.ENOTSUP), [])) ∧
    (A = B → A.comparable = true →
      v.Rename backendRename oldname newname =
        some ((backendRename A ro rn).map GoError.errno, [BackendCall.Rename A ro rn])) ∧
    (A.eq B = none → v.Rename backendRename oldname newname = none) ∧
    (A.eq B = none ↔ ∃ s i j, A = FS.uncomparable s i ∧ B = FS.uncomparable s j) ∧
    (A.comparable = true ∨ B.comparable = true → A.eq B ≠ none) := by
  have hR : v.Rename backendRename oldname newname =
      match A.eq B with
      | none => none
      | some true =>
        some ((backendRename A ro rn).map GoError.errno, [BackendCall.Rename A ro rn])
      | some false => some (some (GoError.errno Errno.ENOTSUP), []) := by
    unfold Vfs.Rename
    rw [ho, hn]
  refine ⟨fun hne h0 => ?_, fun heq hc => ?_, fun h0 => ?_, FS_eq_none_iff A B, fun hc => ?_⟩
  · cases he : A.eq B with
    | none => exact absurd he h0
    | some c =>
      have := FS_eq_some A B c he
      rw [decide_eq_false hne] at this
      subst this
      rw [hR, he]
  · have := FS_eq_comparable A B (Or.inl hc)
    rw [decide_eq_true heq] at this
    rw [hR, this]
  · rw [hR, h0]
  · rw [FS_eq_comparable A B hc]
    simp

theorem Rename_forwards_or_ENOTSUP_witness :
    ((FS.backend 1 ≠ FS.backend 0 → (FS.backend 1).eq (FS.backend 0) ≠ none →
      (World.init.run dataOps).vfs.Rename renameFails "/data/x".toList "/y".toList =
        some (some (GoError.errno Errno.ENOTSUP), [])) ∧
    (FS.backend 1 = FS.backend 0 → (FS.backend 1).comparable = true →
      (World.init.run dataOps).vfs.Rename renameFails "/data/x".toList "/y".toList =
        some ((renameFails (FS.backend 1) "x".toList "y".toList).map GoError.errno,
          [BackendCall.Rename (FS.backend 1) "x".toList "y".toList])) ∧
    ((FS.backend 1).eq (FS.backend 0) = none →
      (World.init.run dataOps).vfs.Rename renameFails "/data/x".toList "/y".toList = none) ∧
    ((FS.backend 1).eq (FS.backend 0) = none ↔
      ∃ s i j, FS.backend 1 = FS.uncomparable s i ∧ FS.backend 0 = FS.uncomparable s j) ∧
    ((FS.backend 1).comparable = true ∨ (FS.backend 0).comparable = true →
      (FS.backend 1).eq (FS.backend 0) ≠ none)) ∧
    (World.init.run dataOps).vfs.Rename renameFails "/data/x".toList "/y".toList =
      some (some (GoError.errno Errno.ENOTSUP), []) ∧
    (World.init.run dataOps).vfs.Rename renameFails "/data/x".toList "/data/sub/y".toList =
      some (some (GoError.errno (Errno.backendErr 3)),
        [BackendCall.Rename (FS.backend 1) "x".toList "sub/y".toList]) :=
  ⟨Rename_forwards_or_ENOTSUP (World.init.run dataOps).vfs renameFails "/data/x".toList
      "/y".toList (some 1) (some 0) (FS.backend 1) (FS.backend 0) "x".toList "y".toList
      (by decide) (by decide),
    by decide, by decide⟩

/-- C14 (code evaluated at failing inputs): on a router without mounts, `Mkdir("/x")` returns a
`PathError` that holds the path `/x`, but `Stat`, `Create`, `Open`, `Remove`, `RemoveAll`,
`Chmod`, `Chown`, `Chtimes` and `Rename` return the bare `ENOENT`, which holds no path, and
`Unmount("/a/", nil)` returns a `PathError` that holds `/a`, the cleaned prefix. -/
theorem router_errors_without_the_path :
    (New.Mkdir (fun _ _ => none) "/x".toList).map GoError.path = some (some "/x".toList) ∧
    New.Stat (fun _ _ => Except.ok 0) "/x".toList = Except.error (GoError.errno Errno.ENOENT) ∧
    (New.Create (fun _ _ => Except.ok 0) "/x".toList).2 =
      Except.error (GoError.errno Errno.ENOENT) ∧
    (New.Open (fun _ _ => Except.ok 0) "/x".toList).2 = Except.error Errno.ENOENT ∧
    New.Remove (fun _ _ => none) "/x".toList = some (GoError.errno Errno.ENOENT) ∧
    New.RemoveAll (fun _ _ => none) "/x".toList = some (GoError.errno Errno.ENOENT) ∧
    New.Chmod (fun _ _ => none) "/x".toList = some (GoError.errno Errno.ENOENT) ∧
    New.Chown (fun _ _ => none) "/x".toList = some (GoError.errno Errno.ENOENT) ∧
    New.Chtimes (fun _ _ => none) "/x".toList = some (GoError.errno Errno.ENOENT) ∧
    (New.Rename (fun _ _ _ => none) "/x".toList "/y".toList).map Prod.fst =
      some (some (GoError.errno Errno.ENOENT)) ∧
    GoError.path (GoError.errno Errno.ENOENT) = none ∧
    (New.Unmount noSync "/a/".toList none).map Prod.snd =
      some (some ⟨"unmount", "/a".toList, Errno.ENOENT⟩) ∧
    (New.Mount "a".toList (some (FS.backend 1))).2 =
      some ⟨"mount", "a".toList, Errno.EINVAL⟩ :=
  ⟨by decide, rfl, rfl, rfl, by decide, by decide, by decide, by decide, by decide, by decide,
    by decide, by decide, by decide⟩

/-! ## The trie: `Put`, `Get`, `Delete` and `Walk` -/

/-- C15: for every trie `t`, key `K` and value `v`: `Put(K, v)` returns true exactly when the
node at the segments of `K` does not exist or holds no value; a second `Put` at `K` returns
false, whatever the two values are; and on a trie built by calls, `Put(K, v)` returns true
exactly when `K` was never put or its most recent call is a `Delete`, which is when a walk
does not visit `K`. -/
theorem Put_returns_whether_new (t : PathTrie T) (K : Str) (v : T) :
    (t.Put PathSegmenter K v).2 = (valueAt t (segList K)).isNone ∧
    (∀ v2 : T, ((t.Put PathSegmenter K v).1.Put PathSegmenter K v2).2 = false) ∧
    (∀ ops : List (TrieOp T),
      ((build ops).Put PathSegmenter K v).2 = (lastPut ops K).isNone ∧
      (((build ops).Put PathSegmenter K v).2 = true ↔
        K ∉ (build ops).visited.map Prod.fst)) := by
  refine ⟨?_, ?_, ?_⟩
  · rw [Put_eq_putSegs, putSegs_snd]
  · intro v2
    rw [Put_eq_putSegs, Put_eq_putSegs, putSegs_snd, valueAt_putSegs]
    simp
  · intro ops
    have h1 : ((build ops).Put PathSegmenter K v).2 = (lastPut ops K).isNone := by
      rw [Put_eq_putSegs, putSegs_snd, valueAt_build]
    refine ⟨h1, ?_⟩
    rw [h1, ← valueAt_build]
    constructor
    · intro hn hmem
      obtain ⟨x, hx, hxk⟩ := List.mem_map.1 hmem
      obtain ⟨k, val⟩ := x
      simp only at hxk
      subst hxk
      rw [(mem_visited_iff _ (build_TrieOK ops) k val).1 hx] at hn
      simp at hn
    · intro hn
      cases hv : valueAt (build ops) (segList K) with
      | none => rfl
      | some x =>
        exact absurd (List.mem_map.2
          ⟨(K, x), (mem_visited_iff _ (build_TrieOK ops) K x).2 hv, rfl⟩) hn

/-- After two `Put`s at a key that is not the empty string, `Get` of the key returns the
second value. -/
theorem Get_Put_Put (t : PathTrie T) (K : Str) (hK : K ≠ []) (v1 v2 : T) :
    (((t.Put PathSegmenter K v1).1.Put PathSegmenter K v2).1.Get PathSegmenter K).1 = v2 := by
  rw [Put_eq_putSegs, Put_eq_putSegs, Get_eq_getSegs, putSegs_putSegs]
  obtain ⟨n, h1, _, h3⟩ := descend_putSegs_self v2 (segList K) t
  rw [getSegs_descend (segList K) _ n none [] h1 (segList_ne_nil K hK)]
  exact h3

/-- C16 (code evaluated at the failing input): on a new trie, after `Put("", 1)` and
`Put("", 2)`, a walk visits the key `""` with the value 2, but `Get("")` returns the zero
value (and `Get` of any other key does so too): the loop of `Get` is not entered and `pre`
stays nil. With the key `/a` in place of `""`, `Get` returns 2. -/
theorem Get_misses_the_empty_key :
    (((newPathTrie : PathTrie (Option Nat)).Put PathSegmenter [] (some 1)).1.Put
      PathSegmenter [] (some 2)).1.visited = [([], some 2)] ∧
    ((((newPathTrie : PathTrie (Option Nat)).Put PathSegmenter [] (some 1)).1.Put
      PathSegmenter [] (some 2)).1.Get PathSegmenter []) = (none, []) ∧
    ((((newPathTrie : PathTrie (Option Nat)).Put PathSegmenter [] (some 1)).1.Put
      PathSegmenter [] (some 2)).1.Get PathSegmenter "/x".toList) = (none, []) ∧
    ((((newPathTrie : PathTrie (Option Nat)).Put PathSegmenter "/a".toList (some 1)).1.Put
      PathSegmenter "/a".toList (some 2)).1.Get PathSegmenter "/a".toList) = (some 2, []) := by
  decide

/-- C20 (code evaluated at the failing input): on a new trie, after `Put("/a", nil)` a walk
visits the key `/a`, with the value nil, and a `Put` at `/a` returns false, where a `Put` at
the unset key `/b` returns true: the flag `hasValue` is set whatever the value is, and `walk`
tests the flag only. -/
theorem Put_of_zero_value_is_walked :
    ((newPathTrie : PathTrie (Option Nat)).Put PathSegmenter "/a".toList none).1.visited =
      [("/a".toList, none)] ∧
    (newPathTrie : PathTrie (Option Nat)).visited = [] ∧
    (((newPathTrie : PathTrie (Option Nat)).Put PathSegmenter "/a".toList none).1.Put
      PathSegmenter "/a".toList (some 1)).2 = false ∧
    (((newPathTrie : PathTrie (Option Nat)).Put PathSegmenter "/a".toList none).1.Put
      PathSegmenter "/b".toList (some 1)).2 = true := by
  decide

/-- C17: for every trie `t` and every key that `path.Clean` leaves as it is, with `fl` the
longest initial part of the key's segments that can be followed from the root child by child:
if `fl` is empty (the first segment is not a child of the root) `Get` returns the zero value
and the empty remainder; otherwise `Get` returns the value field of the node `n` reached along
`fl`, from which the next segment of the key cannot be followed, and the key without the
concatenation of `fl` and without one leading slash; in a trie built by calls the value field
of a node that holds no value is the zero value. -/
theorem Get_follows_the_segments (t : PathTrie T) (key : Str) (hk : Clean key = key) :
    followed t (segList key) <+: segList key ∧
    (followed t (segList key) = [] → t.Get PathSegmenter key = (default, [])) ∧
    (∀ k rest, segList key = k :: rest → childAt t.children k = none →
      t.Get PathSegmenter key = (default, [])) ∧
    (followed t (segList key) ≠ [] →
      ∃ n, descend t (followed t (segList key)) = some n ∧
        t.Get PathSegmenter key =
          (n.value, TrimPrefix (key.drop (followed t (segList key)).flatten.length) ['/']) ∧
        (∀ k rest, segList key = followed t (segList key) ++ k :: rest →
          childAt n.children k = none)) ∧
    (∀ ops : List (TrieOp T), t = build ops →
      ∀ qs n, descend t qs = some n → n.hasValue = false → n.value = default) := by
  have hget := Get_eq_getSegs t key
  rw [getSegs_followed] at hget
  refine ⟨followed_initial _ t, ?_, ?_, ?_, ?_⟩
  · intro h0
    rw [hget, if_pos h0]
  · intro k rest hs hc
    have h0 : followed t (segList key) = [] := by
      rw [hs, followed, hc]
    rw [hget, if_pos h0]
  · intro h0
    obtain ⟨n, hn⟩ := descend_followed (segList key) t
    refine ⟨n, hn, ?_, fun k rest hs => followed_maximal _ t n k rest hn hs⟩
    rw [hget, if_neg h0, hn]
    simp only [List.nil_append]
    rw [Join_initial key hk _ h0 (followed_initial _ t),
      TrimPrefix_flatten key _ (followed_initial _ t)]
  · intro ops ht qs n hd hh
    have hq := descend_AllNodes qs t n [] (by rw [ht]; exact build_TrieOK ops) hd
    rw [AllNodes_iff] at hq
    exact hq.1.1 hh

theorem Get_follows_the_segments_witness :
    Clean "/a/b/x".toList = "/a/b/x".toList ∧
    followed (build [TrieOp.Put "/a".toList (some 1), TrieOp.Put "/a/b/c".toList (some 3)])
      (segList "/a/b/x".toList) = ["/a".toList, "/b".toList] ∧
    (build [TrieOp.Put "/a".toList (some 1), TrieOp.Put "/a/b/c".toList (some 3)]).Get
      PathSegmenter "/a/b/x".toList = ((none : Option Nat), "x".toList) ∧
    (followed (build [TrieOp.Put "/a".toList (some 1), TrieOp.Put "/a/b/c".toList (some 3)])
        (segList "/a/b/x".toList) ≠ [] →
      ∃ n, descend (build [TrieOp.Put "/a".toList (some 1), TrieOp.Put "/a/b/c".toList (some 3)])
          (followed (build [TrieOp.Put "/a".toList (some 1),
            TrieOp.Put "/a/b/c".toList (some 3)]) (segList "/a/b/x".toList)) = some n ∧
        (build [TrieOp.Put "/a".toList (some 1), TrieOp.Put "/a/b/c".toList (some 3)]).Get
          PathSegmenter "/a/b/x".toList =
          (n.value, TrimPrefix ("/a/b/x".toList.drop
            (followed (build [TrieOp.Put "/a".toList (some 1),
              TrieOp.Put "/a/b/c".toList (some 3)]) (segList "/a/b/x".toList)).flatten.length)
            ['/']) ∧
        (∀ k rest, segList "/a/b/x".toList =
            followed (build [TrieOp.Put "/a".toList (some 1),
              TrieOp.Put "/a/b/c".toList (some 3)]) (segList "/a/b/x".toList) ++ k :: rest →
          childAt n.children k = none)) :=
  ⟨by decide, by decide, by decide,
    (Get_follows_the_segments
      (build [TrieOp.Put "/a".toList (some 1), TrieOp.Put "/a/b/c".toList (some 3)])
      "/a/b/x".toList (by decide)).2.2.2.1⟩

/-- C19: for every sequence of `Put` and `Delete` calls on a new trie: a walk visits no key
twice; it visits the key `k` with the value `x` exactly when the most recent call on `k` is a
`Put` of `x`; `Walk` passes what is visited to the walker, pair by pair, until the walker
returns an error; and one more call, on a key `K`, changes nothing of what is visited at the
other keys. -/
theorem Walk_visits_most_recent_puts (ops : List (TrieOp T)) :
    ((build ops).visited.map Prod.fst).Nodup ∧
    (∀ (k : Str) (x : T), (k, x) ∈ (build ops).visited ↔ lastPut ops k = some x) ∧
    (∀ (σ : Type) (walker : Str → T → σ → σ × Bool) (s : σ),
      (build ops).Walk walker s = walkFold walker (build ops).visited s) ∧
    (∀ (op : TrieOp T) (k : Str) (x : T), k ≠ op.key →
      ((k, x) ∈ (build (ops ++ [op])).visited ↔ (k, x) ∈ (build ops).visited)) := by
  have hmem : ∀ (ops : List (TrieOp T)) (k : Str) (x : T),
      (k, x) ∈ (build ops).visited ↔ lastPut ops k = some x := by
    intro ops k x
    rw [mem_visited_iff _ (build_TrieOK ops), valueAt_build]
  refine ⟨?_, hmem ops, fun σ walker s => Walk_walkFold walker _ s, ?_⟩
  · rw [visited_eq]
    exact walkList_nodup (build ops) [] (build_TrieOK ops)
  · intro op k x hk
    rw [hmem, hmem, lastPut_snoc, if_neg (fun h => hk h.symm)]

theorem segList_ab : segList "/a/b".toList = ["/a".toList, "/b".toList] := by decide
theorem segList_abc : segList "/a/b/c".toList = ["/a".toList, "/b".toList, "/c".toList] := by
  decide
theorem segList_a : segList "/a".toList = ["/a".toList] := by decide
theorem TrimPrefix_abc :
    TrimPrefix (TrimPrefix "/a/b/c".toList (Join ([] ++ ["/a".toList]))) ['/'] = "b/c".toList := by
  decide

/-- `Delete` after `Put` at a key that held no value gives back the trie. -/
theorem Delete_Put (t : PathTrie T) (ht : AllNodes TrieOK t []) (K : Str) (v : T)
    (hK : valueAt t (segList K) = none) :
    ((t.Put PathSegmenter K v).1.Delete PathSegmenter K) = (t, true) := by
  rw [Put_eq_putSegs, Delete_eq_deleteSegs, deleteSegs_putSegs v (segList K) t [] (Or.inl ht) hK]

/-- C18: for every trie built by `Put` and `Delete` calls and every key `K` that a walk of
it does not visit, `Delete(K)` after `Put(K, v)` finds the key and gives back the trie as it
was, node by node: `Get` returns the same for every key and a walk visits the same. In
particular, after `Put("/a/b", v)`, `Delete("/a/b")`, `Put("/a", w)` on a new trie,
`Get("/a/b/c")` returns `(w, "b/c")`. -/
theorem Delete_undoes_Put (ops : List (TrieOp T)) (K : Str) (v : T)
    (hK : K ∉ (build ops).visited.map Prod.fst) :
    ((build ops).Put PathSegmenter K v).1.Delete PathSegmenter K = (build ops, true) ∧
    (∀ key : Str,
      (((build ops).Put PathSegmenter K v).1.Delete PathSegmenter K).1.Get PathSegmenter key =
        (build ops).Get PathSegmenter key) ∧
    (((build ops).Put PathSegmenter K v).1.Delete PathSegmenter K).1.visited =
      (build ops).visited ∧
    (∀ w : T,
      ((((newPathTrie : PathTrie T).Put PathSegmenter "/a/b".toList v).1.Delete PathSegmenter
        "/a/b".toList).1.Put PathSegmenter "/a".toList w).1.Get PathSegmenter "/a/b/c".toList =
          (w, "b/c".toList)) := by
  have hval : valueAt (build ops) (segList K) = none := by
    cases hv : valueAt (build ops) (segList K) with
    | none => rfl
    | some x =>
      exact absurd (List.mem_map.2
        ⟨(K, x), (mem_visited_iff _ (build_TrieOK ops) K x).2 hv, rfl⟩) hK
  have h1 := Delete_Put (build ops) (build_TrieOK ops) K v hval
  refine ⟨h1, fun key => by rw [h1], by rw [h1], ?_⟩
  intro w
  rw [Delete_Put _ TrieOK_new _ v (valueAt_new _)]
  rw [Put_eq_putSegs, Get_eq_getSegs, segList_a, segList_abc]
  simp only [putSegs, newPathTrie, children_mk, childAt_nil, Option.getD_none, setChild,
    setValue, getSegs, childAt_cons, if_true, value_mk, hasValue_mk]
  rw [TrimPrefix_abc]

theorem Delete_undoes_Put_witness :
    "/a/b".toList ∉
      (build [TrieOp.Put "/a".toList (some 1), TrieOp.Put "/a/c".toList (some 2)]).visited.map
        Prod.fst ∧
    (((build [TrieOp.Put "/a".toList (some 1), TrieOp.Put "/a/c".toList (some 2)]).Put
        PathSegmenter "/a/b".toList (some 7)).1.Delete PathSegmenter "/a/b".toList).1.visited =
      (build [TrieOp.Put "/a".toList (some 1), TrieOp.Put "/a/c".toList (some 2)]).visited ∧
    (build [TrieOp.Put "/a".toList (some 1), TrieOp.Put "/a/c".toList (some 2)]).visited =
      [("/a".toList, some 1), ("/a/c".toList, some 2)] :=
  ⟨by decide,
    (Delete_undoes_Put [TrieOp.Put "/a".toList (some 1), TrieOp.Put "/a/c".toList (some 2)]
      "/a/b".toList (some 7) (by decide)).2.2.1,
    by decide⟩

/-! ## `MkdirAll` -/

theorem Clean_idem_rel (k : Str) (h : CleanRel k) : Clean k = k := by
  rcases h with h | ⟨n, vs, hvs, hne, hk⟩
  · subst h; decide
  · obtain ⟨e, r, her⟩ := List.exists_cons_of_ne_nil hne
    rw [her] at hk
    subst hk
    have := Clean_relElems 0 n vs hvs e r her
    rw [relPath_flatMap]
    rw [relPath_flatMap] at this
    simpa using this

/-- `path.Clean` leaves what it returns as it is. -/
theorem Clean_idem (p : Str) : Clean (Clean p) = Clean p := by
  cases p with
  | nil => decide
  | cons c t =>
    by_cases hc : c = '/'
    · subst hc
      exact Clean_idem_abs _ (Clean_rooted t)
    · exact Clean_idem_rel _ (Clean_unrooted_form c t hc)

theorem scanElement_slashFree (X e : Str) (he : ∀ c ∈ e, notSlash c = true) :
    ∀ m, m ≤ e.length →
      Vfs.scanElement (X ++ e) (X.length + m) = Vfs.scanElement (X ++ e) X.length := by
  intro m
  induction m with
  | zero => intro _; rfl
  | succ m ih =>
    intro hm
    have hlt : m < e.length := by omega
    have hget : (X ++ e).get? (X.length + m) = some (e.get ⟨m, hlt⟩) := by
      rw [List.get?_eq_getElem?, List.getElem?_append_right (by omega)]
      simp [List.getElem?_eq_getElem hlt]
    have hne : e.get ⟨m, hlt⟩ ≠ '/' :=
      (notSlash_iff _).1 (he _ (List.get_mem e m hlt))
    rw [← Nat.add_assoc, Vfs.scanElement, hget]
    simp only [ne_eq, Option.some.injEq, hne, not_false_eq_true, if_true]
    exact ih (by omega)

theorem scanElement_at_slash (R rest : Str) :
    Vfs.scanElement (R ++ '/' :: rest) (R.length + 1) = R.length + 1 := by
  have hget : (R ++ '/' :: rest).get? R.length = some '/' := by
    rw [List.get?_eq_getElem?, List.getElem?_append_right (le_refl _)]
    simp
  rw [Vfs.scanElement, hget]
  simp

theorem skipSeparators_last (init : Str) (c : Char) (hc : c ≠ '/') :
    Vfs.skipSeparators (init ++ [c]) (init ++ [c]).length = (init ++ [c]).length := by
  have hget : (init ++ [c]).get? init.length = some c := by
    rw [List.get?_eq_getElem?, List.getElem?_append_right (le_refl _)]
    simp
  rw [List.length_append, List.length_singleton, Vfs.skipSeparators, hget]
  simp [hc]

theorem skipSeparators_elem (X e : Str) (hne : e ≠ []) (he : ∀ c ∈ e, notSlash c = true) :
    Vfs.skipSeparators (X ++ e) (X ++ e).length = (X ++ e).length := by
  obtain ⟨init, c, rfl⟩ : ∃ init c, e = init ++ [c] :=
    ⟨e.dropLast, e.getLast hne, (List.dropLast_append_getLast hne).symm⟩
  have hc : c ≠ '/' := (notSlash_iff c).1 (he c (by simp))
  rw [← List.append_assoc]
  exact skipSeparators_last _ c hc

/-- The two loops of `MkdirAll` on a path that ends in an element after a slash: `j` is the
index after that slash. -/
theorem scan_after_slash (R e : Str) (hne : e ≠ []) (he : ∀ c ∈ e, notSlash c = true) :
    Vfs.scanElement (R ++ '/' :: e)
      (Vfs.skipSeparators (R ++ '/' :: e) (R ++ '/' :: e).length) = R.length + 1 := by
  have h1 : Vfs.skipSeparators (R ++ '/' :: e) (R ++ '/' :: e).length =
      (R ++ '/' :: e).length := by
    have := skipSeparators_elem (R ++ ['/']) e hne he
    rw [List.append_assoc] at this
    exact this
  have h2 : Vfs.scanElement (R ++ '/' :: e) (R.length + 1 + e.length) =
      Vfs.scanElement (R ++ '/' :: e) (R.length + 1) := by
    have := scanElement_slashFree (R ++ ['/']) e he e.length (le_refl _)
    rw [List.append_assoc, List.length_append, List.length_singleton] at this
    exact this
  rw [h1]
  have h3 : (R ++ '/' :: e).length = R.length + 1 + e.length := by
    simp only [List.length_append, List.length_cons]; omega
  rw [h3, h2]
  exact scanElement_at_slash R e

/-- The two loops of `MkdirAll` on a path that is one element: `j` is 0. -/
theorem scan_single (e : Str) (hne : e ≠ []) (he : ∀ c ∈ e, notSlash c = true) :
    Vfs.scanElement e (Vfs.skipSeparators e e.length) = 0 := by
  have h1 := skipSeparators_elem [] e hne he
  have h2 := scanElement_slashFree [] e he e.length (le_refl _)
  simp only [List.nil_append, List.length_nil, Nat.zero_add] at h1 h2
  rw [h1, h2]
  rfl

theorem dirPrefixes_snoc (p q : Str) (s : Str)
    (h : segList p = segList q ++ [s]) : dirPrefixes p = dirPrefixes q ++ [p] := by
  unfold dirPrefixes
  rw [h, List.inits_append]
  have hin : (segList q).inits = [] :: (segList q).inits.tail := by
    cases hs : segList q with
    | nil => rfl
    | cons a l => simp [List.inits]
  have hne : (segList q).inits ≠ [] := by rw [hin]; simp
  rw [List.tail_append_of_ne_nil hne]
  simp only [List.inits, List.tail_cons, List.map_cons, List.map_nil, List.map_append,
    List.append_nil]
  rw [← h, segList_flatten]

theorem dirPrefixes_single (p s : Str) (h : segList p = [s]) : dirPrefixes p = [p] := by
  unfold dirPrefixes
  rw [h]
  simp only [List.inits, List.map_cons, List.map_nil, List.tail_cons]
  rw [← h, segList_flatten]

theorem absPath_snoc (L : List Str) (e : Str) :
    absPath (L ++ [e]) = L.flatMap (fun x => '/' :: x) ++ '/' :: e := by
  simp [absPath]

/-- The parent that `MkdirAll` computes for a cleaned rooted path with at least one element. -/
theorem parent_abs (L : List Str) (e : Str) (h : ∀ x ∈ L ++ [e], validElem x) (j : Nat)
    (hj : j = Vfs.scanElement (absPath (L ++ [e]))
      (Vfs.skipSeparators (absPath (L ++ [e])) (absPath (L ++ [e])).length)) :
    (j > 1 → Clean ((absPath (L ++ [e])).take (j - 1)) = (absPath (L ++ [e])).take (j - 1) ∧
      dirPrefixes (absPath (L ++ [e])) =
        dirPrefixes ((absPath (L ++ [e])).take (j - 1)) ++ [absPath (L ++ [e])] ∧
      ((absPath (L ++ [e])).take (j - 1)).length < (absPath (L ++ [e])).length) ∧
    (¬ j > 1 → dirPrefixes (absPath (L ++ [e])) = [absPath (L ++ [e])]) := by
  have he := h e (by simp)
  have hL : ∀ x ∈ L, validElem x := fun x hx => h x (by simp [hx])
  have hseg := segList_absPath (L ++ [e]) h
  simp only [List.append_eq_nil, List.cons_ne_self, and_false, if_false, List.map_append,
    List.map_cons, List.map_nil, reduceCtorEq] at hseg
  rw [absPath_snoc] at hj
  rw [scan_after_slash _ e he.1 he.2.1] at hj
  by_cases h0 : L = []
  · subst h0
    simp only [List.flatMap_nil, List.length_nil, Nat.zero_add] at hj
    subst hj
    refine ⟨fun h1 => absurd h1 (by omega), fun _ => ?_⟩
    exact dirPrefixes_single _ _ (by simpa using hseg)
  · have hR : L.flatMap (fun x => '/' :: x) = absPath L := by simp [absPath, h0]
    have hRne : 0 < (absPath L).length := by
      obtain ⟨x, r, rfl⟩ := List.exists_cons_of_ne_nil h0
      simp [absPath]
    rw [hR] at hj
    have htake : (absPath (L ++ [e])).take (j - 1) = absPath L := by
      rw [absPath_snoc, hR, hj, Nat.add_sub_cancel]
      exact List.take_left' rfl
    refine ⟨fun _ => ?_, fun h1 => absurd (by omega) h1⟩
    rw [htake]
    refine ⟨Clean_absPath L hL, ?_, ?_⟩
    · apply dirPrefixes_snoc _ _ ('/' :: e)
      rw [hseg, segList_absPath L hL, if_neg h0]
    · rw [absPath_snoc, hR]
      simp

theorem relElems_nonempty (n : Nat) (vs : List Str) (hvs : ∀ x ∈ vs, validElem x) :
    ∀ e ∈ relElems n vs, e ≠ [] := by
  intro e he
  rcases List.mem_append.1 he with h1 | h1
  · rw [List.eq_of_mem_replicate h1]; simp
  · exact (hvs e h1).1

/-- The parent that `MkdirAll` computes for a cleaned unrooted path other than `.`. -/
theorem parent_rel (n : Nat) (vs : List Str) (hvs : ∀ x ∈ vs, validElem x) (L : List Str)
    (e : Str) (hE : relElems n vs = L ++ [e]) (j : Nat)
    (hj : j = Vfs.scanElement (relPath (L ++ [e]))
      (Vfs.skipSeparators (relPath (L ++ [e])) (relPath (L ++ [e])).length)) :
    (j > 1 → Clean ((relPath (L ++ [e])).take (j - 1)) = (relPath (L ++ [e])).take (j - 1) ∧
      dirPrefixes (relPath (L ++ [e])) =
        dirPrefixes ((relPath (L ++ [e])).take (j - 1)) ++ [relPath (L ++ [e])] ∧
      ((relPath (L ++ [e])).take (j - 1)).length < (relPath (L ++ [e])).length) ∧
    (¬ j > 1 → dirPrefixes (relPath (L ++ [e])) = [relPath (L ++ [e])]) := by
  have hne : e ≠ [] := relElems_nonempty n vs hvs e (by rw [hE]; simp)
  have hsf : ∀ c ∈ e, notSlash c = true := relElems_slashFree n vs hvs e (by rw [hE]; simp)
  by_cases h0 : L = []
  · subst h0
    simp only [List.nil_append] at hE hj ⊢
    have hp : relPath [e] = e := rfl
    rw [hp] at hj ⊢
    rw [scan_single e hne hsf] at hj
    subst hj
    refine ⟨fun h1 => absurd h1 (by omega), fun _ => ?_⟩
    have := segList_relPath n vs hvs e [] hE
    rw [hp] at this
    exact dirPrefixes_single _ _ (by simpa using this)
  · obtain ⟨e0, r', rfl⟩ := List.exists_cons_of_ne_nil h0
    have hsn : relPath (e0 :: r' ++ [e]) = relPath (e0 :: r') ++ '/' :: e := by
      have := relPath_snoc (e0 :: r') e
      simpa using this
    have hRne : 0 < (relPath (e0 :: r')).length := by
      have : e0 ≠ [] := relElems_nonempty n vs hvs e0 (by rw [hE]; simp)
      rw [relPath_cons]
      simp [List.length_pos.mpr this]
    rw [hsn] at hj
    rw [scan_after_slash _ e hne hsf] at hj
    have htake : (relPath (e0 :: r' ++ [e])).take (j - 1) = relPath (e0 :: r') := by
      rw [hsn, hj, Nat.add_sub_cancel]
      exact List.take_left' rfl
    have hL : relElems (min (r'.length + 1) n) (vs.take (r'.length + 1 - n)) = e0 :: r' := by
      rw [← take_relElems, hE]
      simp
    have hv : ∀ x ∈ vs.take (r'.length + 1 - n), validElem x :=
      fun x hx => hvs x (List.mem_of_mem_take hx)
    have hcr : CleanRel (relPath (e0 :: r')) :=
      Or.inr ⟨_, _, hv, by rw [hL]; simp, by rw [hL]⟩
    refine ⟨fun _ => ?_, fun h1 => absurd (by omega) h1⟩
    rw [htake]
    refine ⟨Clean_idem_rel _ hcr, ?_, ?_⟩
    · apply dirPrefixes_snoc _ _ ('/' :: e)
      have hs1 : segList (relPath (e0 :: r' ++ [e])) =
          e0 :: (r' ++ [e]).map (fun x => '/' :: x) :=
        segList_relPath n vs hvs e0 (r' ++ [e]) (by rw [hE]; simp)
      rw [hs1, segList_relPath _ _ hv e0 r' hL]
      simp
    · rw [hsn]
      simp

/-- What the two loops of `MkdirAll` compute on a cleaned path: the parent, which is cleaned
and shorter and has the prefixes of the path but the last, or no parent. -/
theorem parent_of_clean (p : Str) (hk : Clean p = p) (j : Nat)
    (hj : j = Vfs.scanElement p (Vfs.skipSeparators p p.length)) :
    (j > 1 → Clean (p.take (j - 1)) = p.take (j - 1) ∧
      dirPrefixes p = dirPrefixes (p.take (j - 1)) ++ [p] ∧
      (p.take (j - 1)).length < p.length) ∧
    (¬ j > 1 → dirPrefixes p = [p]) := by
  rcases Clean_fixed_form p hk with h | h
  · obtain ⟨els, hels, rfl⟩ := (CleanAbs_iff p).1 h
    rcases List.eq_nil_or_concat els with h0 | ⟨L, e, h0⟩
    · subst h0
      have h1 : j = 0 := by rw [hj]; decide
      subst h1
      exact ⟨fun h2 => absurd h2 (by omega), fun _ => by decide⟩
    · rw [List.concat_eq_append] at h0
      subst h0
      exact parent_abs L e hels j hj
  · rcases h with h | ⟨n, vs, hvs, hne, hk2⟩
    · subst h
      have h1 : j = 0 := by rw [hj]; decide
      subst h1
      exact ⟨fun h2 => absurd h2 (by omega), fun _ => by decide⟩
    · rcases List.eq_nil_or_concat (relElems n vs) with h0 | ⟨L, e, h0⟩
      · exact absurd h0 hne
      · rw [List.concat_eq_append] at h0
        rw [h0] at hk2
        subst hk2
        exact parent_rel n vs hvs L e h0 j hj

section
variable {β : Type} (v : Vfs) (backendStat : β → FS → Str → Except Errno Nat)
  (isDir : Nat → Bool) (backendMkdir : β → FS → Str → β × Option Errno)

theorem mkdirEach_nil (b : β) : v.mkdirEach backendMkdir b [] = (b, none, []) := by
  rw [Vfs.mkdirEach]

theorem mkdirEach_cons (b : β) (q : Str) (rest : List Str) :
    v.mkdirEach backendMkdir b (q :: rest) =
      if (v.MkdirIn backendMkdir b q).2.isSome then
        ((v.MkdirIn backendMkdir b q).1, (v.MkdirIn backendMkdir b q).2, [q])
      else
        ((v.mkdirEach backendMkdir (v.MkdirIn backendMkdir b q).1 rest).1,
          (v.mkdirEach backendMkdir (v.MkdirIn backendMkdir b q).1 rest).2.1,
          q :: (v.mkdirEach backendMkdir (v.MkdirIn backendMkdir b q).1 rest).2.2) := by
  rw [Vfs.mkdirEach]
  rcases hm : v.MkdirIn backendMkdir b q with ⟨b1, _ | e⟩ <;> simp

/-- Calling `Mkdir` for one more path after the others. -/
theorem mkdirEach_snoc (q : Str) : ∀ (l : List Str) (b : β),
    v.mkdirEach backendMkdir b (l ++ [q]) =
      if (v.mkdirEach backendMkdir b l).2.1.isSome then v.mkdirEach backendMkdir b l
      else
        ((v.MkdirIn backendMkdir (v.mkdirEach backendMkdir b l).1 q).1,
          (v.MkdirIn backendMkdir (v.mkdirEach backendMkdir b l).1 q).2,
          (v.mkdirEach backendMkdir b l).2.2 ++ [q]) := by
  intro l
  induction l with
  | nil =>
    intro b
    simp only [List.nil_append, mkdirEach_nil, mkdirEach_cons, Option.isSome_none,
      Bool.false_eq_true, if_false]
    split <;> simp_all
  | cons x l ih =>
    intro b
    rw [List.cons_append, mkdirEach_cons, mkdirEach_cons]
    by_cases hx : (v.MkdirIn backendMkdir b x).2.isSome = true
    · simp [hx]
    · simp only [hx, Bool.false_eq_true, if_false]
      rw [ih]
      split <;> simp_all

/-- The plan of `MkdirAll` when `Stat` fails for the longest prefix. -/
theorem mkdirAllPlan_cons_fail (b : β) (q : Str) (rest : List Str)
    (hq : v.statFails backendStat b q = true) :
    v.mkdirAllPlan backendStat isDir backendMkdir b (q :: rest) =
      if (v.mkdirAllPlan backendStat isDir backendMkdir b rest).2.1.isSome then
        v.mkdirAllPlan backendStat isDir backendMkdir b rest
      else
        ((v.MkdirIn backendMkdir (v.mkdirAllPlan backendStat isDir backendMkdir b rest).1 q).1,
          (v.MkdirIn backendMkdir (v.mkdirAllPlan backendStat isDir backendMkdir b rest).1 q).2,
          (v.mkdirAllPlan backendStat isDir backendMkdir b rest).2.2 ++ [q]) := by
  unfold Vfs.mkdirAllPlan
  simp only [List.dropWhile_cons, List.takeWhile_cons, hq, if_true, List.reverse_cons]
  cases hh : (rest.dropWhile (v.statFails backendStat b)).head? with
  | none =>
    simp only
    exact mkdirEach_snoc v backendMkdir q _ b
  | some a =>
    simp only
    by_cases hn : v.statNotDir backendStat isDir b a = true
    · simp [hn]
    · simp only [hn, Bool.false_eq_true, if_false]
      exact mkdirEach_snoc v backendMkdir q _ b

/-- The plan of `MkdirAll` when `Stat` succeeds for the longest prefix. -/
theorem mkdirAllPlan_cons_ok (b : β) (q : Str) (rest : List Str) (dir : Nat)
    (hq : v.Stat (backendStat b) q = Except.ok dir) :
    v.mkdirAllPlan backendStat isDir backendMkdir b (q :: rest) =
      if isDir dir then (b, none, [])
      else (b, some (GoError.pathError ⟨"mkdir", q, Errno.ENOTDIR⟩), []) := by
  have hf : v.statFails backendStat b q = false := by
    simp [Vfs.statFails, hq]
  have hn : v.statNotDir backendStat isDir b q = !isDir dir := by
    simp [Vfs.statNotDir, hq]
  unfold Vfs.mkdirAllPlan
  simp only [List.dropWhile_cons, List.takeWhile_cons, hf, Bool.false_eq_true, if_false,
    List.head?_cons, hn, List.reverse_nil, mkdirEach_nil]
  cases isDir dir <;> simp

theorem mkdirAllPlan_nil (b : β) :
    v.mkdirAllPlan backendStat isDir backendMkdir b [] = (b, none, []) := by
  simp [Vfs.mkdirAllPlan, mkdirEach_nil]

/-- The recursion of `MkdirAll` on a cleaned path, with enough fuel, follows the plan for
the prefixes of the path. -/
theorem mkdirAllRec_plan : ∀ (fuel : Nat) (p : Str) (b : β), Clean p = p → p.length < fuel →
    Vfs.mkdirAllRec v backendStat isDir backendMkdir fuel b p =
      some (v.mkdirAllPlan backendStat isDir backendMkdir b (dirPrefixes p).reverse) := by
  intro fuel
  induction fuel with
  | zero => intro p b _ h; omega
  | succ fuel ih =>
    intro p b hk hlen
    have hpar := parent_of_clean p hk _ rfl
    rw [Vfs.mkdirAllRec]
    simp only [hk]
    cases hst : v.Stat (backendStat b) p with
    | ok dir =>
      simp only
      have hrev : ∃ X, (dirPrefixes p).reverse = p :: X := by
        by_cases hj : Vfs.scanElement p (Vfs.skipSeparators p p.length) > 1
        · exact ⟨(dirPrefixes (p.take (Vfs.scanElement p (Vfs.skipSeparators p p.length) - 1))).reverse,
            by rw [(hpar.1 hj).2.1]; simp⟩
        · exact ⟨[], by rw [hpar.2 hj]; simp⟩
      obtain ⟨X, hX⟩ := hrev
      rw [hX, mkdirAllPlan_cons_ok v backendStat isDir backendMkdir b p X dir hst]
      cases isDir dir <;> simp
    | error e =>
      simp only
      have hf : v.statFails backendStat b p = true := by
        simp [Vfs.statFails, hst]
      by_cases hj : Vfs.scanElement p (Vfs.skipSeparators p p.length) > 1
      · obtain ⟨h1, h2, h3⟩ := hpar.1 hj
        rw [if_pos hj, ih _ b h1 (by omega)]
        rw [h2, List.reverse_append, List.reverse_singleton, List.singleton_append,
          mkdirAllPlan_cons_fail v backendStat isDir backendMkdir b p _ hf]
        rcases hplan : v.mkdirAllPlan backendStat isDir backendMkdir b
          (dirPrefixes (p.take (Vfs.scanElement p (Vfs.skipSeparators p p.length) - 1))).reverse
          with ⟨b1, _ | err, calls⟩ <;> simp
      · rw [if_neg hj, hpar.2 hj, List.reverse_singleton,
          mkdirAllPlan_cons_fail v backendStat isDir backendMkdir b p _ hf, mkdirAllPlan_nil]
        simp

theorem mkdirAllRec_Clean (fuel : Nat) (b : β) (p : Str) :
    Vfs.mkdirAllRec v backendStat isDir backendMkdir fuel b p =
      Vfs.mkdirAllRec v backendStat isDir backendMkdir fuel b (Clean p) := by
  cases fuel with
  | zero => rw [Vfs.mkdirAllRec, Vfs.mkdirAllRec]
  | succ fuel => rw [Vfs.mkdirAllRec, Vfs.mkdirAllRec, Clean_idem]

theorem dirPrefixes_initial (p q : Str) (h : q ∈ dirPrefixes p) : q <+: p := by
  unfold dirPrefixes at h
  obtain ⟨l, hl, rfl⟩ := List.mem_map.1 h
  have hl2 : l ∈ (segList p).inits := List.mem_of_mem_tail hl
  rw [List.mem_inits] at hl2
  obtain ⟨t, ht⟩ := hl2
  refine ⟨t.flatten, ?_⟩
  rw [← List.flatten_append, ht, segList_flatten]

end

/-- C21 (counterexample): on a router with a mount at `/` whose backend holds the regular file
`f`, `Stat("/f")` succeeds and reports no directory, and `MkdirAll("/f")` returns `ENOTDIR`
without any `Mkdir`, where the claim has it call `Mkdir` for the path itself; likewise
`MkdirAll("/a/b")` when `a` is a regular file. -/
theorem MkdirAll_stops_at_a_file :
    rootV.Stat (listStat [("f".toList, false)]) "/f".toList = Except.ok 0 ∧
    isOne 0 = false ∧
    rootV.MkdirAll listStat isOne listMkdir [("f".toList, false)] "/f".toList =
      some ([("f".toList, false)],
        some (GoError.pathError ⟨"mkdir", "/f".toList, Errno.ENOTDIR⟩), []) ∧
    rootV.MkdirAll listStat isOne listMkdir [("a".toList, false)] "/a/b".toList =
      some ([("a".toList, false)],
        some (GoError.pathError ⟨"mkdir", "/a".toList, Errno.ENOTDIR⟩), []) :=
  ⟨rfl, by decide, by decide, by decide⟩

/-- C21 (amended): for every router, every behaviour of the backends and every path,
`MkdirAll` returns, and what it does is the plan for the prefixes of the cleaned path, which
are initial parts of it and end with the cleaned path itself: with `a` the longest prefix for
which `Stat` succeeds, if `a` is not a directory it returns `ENOTDIR` for `a` and calls no
`Mkdir`; otherwise it calls `Mkdir` for the prefixes longer than `a` (for all prefixes when
`Stat` succeeds for none), the shortest first, stops at the first error and returns the
result of the last call; when the cleaned path itself is a directory it returns nil without a
call. -/
theorem MkdirAll_follows_the_plan {β : Type} (v : Vfs)
    (backendStat : β → FS → Str → Except Errno Nat) (isDir : Nat → Bool)
    (backendMkdir : β → FS → Str → β × Option Errno) (b : β) (p : Str) :
    v.MkdirAll backendStat isDir backendMkdir b p =
      some (v.mkdirAllPlan backendStat isDir backendMkdir b (dirPrefixes (Clean p)).reverse) ∧
    (∀ q ∈ dirPrefixes (Clean p), q <+: Clean p) ∧
    (dirPrefixes (Clean p)).getLast? = some (Clean p) ∧
    (∀ dir : Nat, v.Stat (backendStat b) (Clean p) = Except.ok dir → isDir dir = true →
      v.MkdirAll backendStat isDir backendMkdir b p = some (b, none, [])) := by
  have hmain : v.MkdirAll backendStat isDir backendMkdir b p =
      some (v.mkdirAllPlan backendStat isDir backendMkdir b (dirPrefixes (Clean p)).reverse) := by
    unfold Vfs.MkdirAll
    rw [mkdirAllRec_Clean]
    exact mkdirAllRec_plan v backendStat isDir backendMkdir _ (Clean p) b (Clean_idem p)
      (by omega)
  have hpar := parent_of_clean (Clean p) (Clean_idem p) _ rfl
  have hlast : ∃ X, dirPrefixes (Clean p) = X ++ [Clean p] := by
    by_cases hj : Vfs.scanElement (Clean p)
        (Vfs.skipSeparators (Clean p) (Clean p).length) > 1
    · exact ⟨_, (hpar.1 hj).2.1⟩
    · exact ⟨[], by rw [hpar.2 hj]; rfl⟩
  obtain ⟨X, hX⟩ := hlast
  refine ⟨hmain, fun q hq => dirPrefixes_initial _ q hq, by rw [hX]; simp, ?_⟩
  intro dir hst hd
  rw [hmain, hX, List.reverse_append, List.reverse_singleton, List.singleton_append,
    mkdirAllPlan_cons_ok v backendStat isDir backendMkdir b _ _ dir hst, if_pos hd]

theorem MkdirAll_follows_the_plan_witness :
    rootV.MkdirAll listStat isOne listMkdir [("a".toList, true)] "/a/b//c/".toList =
      some (rootV.mkdirAllPlan listStat isOne listMkdir [("a".toList, true)]
        (dirPrefixes (Clean "/a/b//c/".toList)).reverse) ∧
    dirPrefixes (Clean "/a/b//c/".toList) =
      ["/a".toList, "/a/b".toList, "/a/b/c".toList] ∧
    rootV.MkdirAll listStat isOne listMkdir [("a".toList, true)] "/a/b//c/".toList =
      some ([("a".toList, true), ("a/b".toList, true), ("a/b/c".toList, true)], none,
        ["/a/b".toList, "/a/b/c".toList]) ∧
    rootV.MkdirAll listStat isOne listMkdir [("a".toList, true)] "/a".toList =
      some ([("a".toList, true)], none, []) :=
  ⟨(MkdirAll_follows_the_plan rootV listStat isOne listMkdir [("a".toList, true)]
      "/a/b//c/".toList).1,
    by decide, by decide, by decide⟩

/-! ## `Unmount` by backend, the pruning of the trie, `InternalUrl` -/

/-- C22 (code evaluated at the failing input): with one backend mounted at `/a` and then at
`/a/b`, `Unmount("", B)` returns nil and removes the mount at `/a`, the one mounted first; the
mount at `/a/b`, mounted last, stays. The walk visits a node before its children and the first
match ends it. -/
theorem Unmount_removes_the_first_visited :
    nestedSameV.heap =
      [⟨"/a".toList, FS.backend 1, 0⟩, ⟨"/a/b".toList, FS.backend 1, 0⟩] ∧
    nestedSameV.entries = [("/a".toList, some 0), ("/a/b".toList, some 1)] ∧
    (nestedSameV.Unmount noSync [] (some (FS.backend 1))).map (fun r => (r.1.entries, r.2)) =
      some ([("/a/b".toList, some 1)], none) := by
  decide

/-- In a trie that satisfies the invariant, a node other than the root has a node that holds
a value in its subtree. -/
theorem TrieOK_holds_value (t : PathTrie T) : ∀ path : List Str, path ≠ [] →
    AllNodes TrieOK t path → ∃ rs x, valueAt t rs = some x := by
  induction t using trie_induct with
  | step v h cs ih =>
    intro path hp hq
    rw [AllNodes_iff] at hq
    simp only [children_mk, value_mk, hasValue_mk] at hq
    rcases hq.1.2.2.2 hp with h1 | h1
    · exact ⟨[], v, by simp [valueAt_nil, h1]⟩
    · cases cs with
      | nil => simp at h1
      | cons kc rest =>
        obtain ⟨k, c⟩ := kc
        obtain ⟨rs, x, hx⟩ := ih (k, c) (List.mem_cons_self _ _) (path ++ [k]) (by simp)
          (hq.2 (k, c) (List.mem_cons_self _ _))
        refine ⟨k :: rs, x, ?_⟩
        rw [valueAt_cons]
        simp only [children_mk, childAt_cons, if_true, Option.bind_some]
        exact hx

/-- C23: in every trie built from a new trie by `Put` and `Delete` calls, every node reached
from the root along at least one segment holds a value or has a child, and has a node that
holds a value in its subtree; so this holds again after one more `Put` or `Delete`. -/
theorem no_empty_node_below_the_root (ops : List (TrieOp T)) (qs : List Str)
    (n : PathTrie T) :
    (qs ≠ [] → descend (build ops) qs = some n →
      (n.hasValue = true ∨ n.children ≠ []) ∧ ∃ rs x, valueAt n rs = some x) ∧
    (∀ op : TrieOp T, qs ≠ [] → descend ((build ops).applyOp op) qs = some n →
      (n.hasValue = true ∨ n.children ≠ []) ∧ ∃ rs x, valueAt n rs = some x) := by
  have key : ∀ (t : PathTrie T), AllNodes TrieOK t [] → qs ≠ [] → descend t qs = some n →
      (n.hasValue = true ∨ n.children ≠ []) ∧ ∃ rs x, valueAt n rs = some x := by
    intro t ht hq hd
    have hn := descend_AllNodes qs t n [] ht hd
    simp only [List.nil_append] at hn
    refine ⟨?_, TrieOK_holds_value n qs hq hn⟩
    rw [AllNodes_iff] at hn
    rcases hn.1.2.2.2 hq with h1 | h1
    · exact Or.inl h1
    · right
      intro h0
      apply h1
      rw [h0]; rfl
  exact ⟨key _ (build_TrieOK ops), fun op => key _ (applyOp_TrieOK _ op (build_TrieOK ops))⟩

theorem no_empty_node_below_the_root_witness :
    descend (build [TrieOp.Put "/a/b".toList (some 1), TrieOp.Put "/a/c".toList (some 2),
      TrieOp.Delete "/a/b".toList]) ["/a".toList] =
        some (PathTrie.mk none false [("/c".toList, PathTrie.mk (some 2) true [])]) ∧
    ((PathTrie.mk none false [("/c".toList, PathTrie.mk (some 2) true [])]).hasValue = true ∨
      (PathTrie.mk none false [("/c".toList, PathTrie.mk (some 2) true [])]).children ≠ []) ∧
    ∃ rs x, valueAt (PathTrie.mk (none : Option Nat) false
      [("/c".toList, PathTrie.mk (some 2) true [])]) rs = some x :=
  ⟨rfl,
    (no_empty_node_below_the_root
      [TrieOp.Put "/a/b".toList (some 1), TrieOp.Put "/a/c".toList (some 2),
        TrieOp.Delete "/a/b".toList] ["/a".toList]
      (PathTrie.mk none false [("/c".toList, PathTrie.mk (some 2) true [])])).1
      (by simp) rfl⟩

/-- C24 (code evaluated at every input): `InternalUrl` assigns `res.URL` while the named result
`res` is still nil, so every call ends in a nil pointer dereference; `PublicUrl`, which
allocates `res = &Link{}` first, returns the link with the name joined onto the path. -/
theorem InternalUrl_dereferences_nil (o : OptLinker) (urlString : URL → Str) (name : Str) :
    o.InternalUrl urlString name = none ∧
    o.PublicUrl urlString name =
      some (some ⟨urlString { o.publicAccessUrl with
        Path := Join [o.publicAccessUrl.Path, name] }⟩, none) ∧
    (⟨⟨"http".toList, "h".toList, "/pub".toList⟩, ⟨"http".toList, "h".toList, "/in".toList⟩⟩ :
      OptLinker).InternalUrl (fun u => u.Path) "a.txt".toList = none ∧
    (⟨⟨"http".toList, "h".toList, "/pub".toList⟩, ⟨"http".toList, "h".toList, "/in".toList⟩⟩ :
      OptLinker).PublicUrl (fun u => u.Path) "a.txt".toList =
        some (some ⟨"/pub/a.txt".toList⟩, none) :=
  ⟨rfl, rfl, rfl, by decide⟩
